import Mathlib

/-!
# Register dependency tracker (`src/cpu/o3/dep_graph_reg.hh`)

A shallow embedding of the class template `gem5::o3::DependencyGraphReg` and
proofs about its operations.

Modelling conventions

* `std::vector` is a `List`; `v[i]` past the end is undefined behaviour in C++
  and is reported here as the outcome `outOfBounds`.
* `assert(e)` with `e` false aborts the run (in a build that keeps assertions);
  it is the outcome `assertFailed`, which carries the object state at the moment
  of the abort.
* The counters are C++ `int`.  Signed overflow is undefined behaviour, so the
  counters are mathematical integers: the embedding agrees with the code on
  every run in which no counter leaves the `int` range.
* The local `int` index variables initialised to `-1` are `Option Nat`, with
  `none` standing for `-1`.
-/

namespace gem5.o3

/-- Modelled from the spec: the type `RegIndex` is declared in a header that is not
among the sources at hand (`dep_graph_reg.hh` only includes `cpu/o3/comm.hh`).  The
spec describes a physical register index as an integer in `[0, numPhysRegs)`; the
embedding keeps only that it is a non-negative index. -/
abbrev RegIndex := Nat

/-- A handle on a dynamic instruction.  Two handles are equal iff they denote the
same dynamic instruction; `none` is the null handle. -/
abbrev DynInstPtr := Option Nat

/-- The null handle (`NULL` in the source). -/
abbrev NULL : DynInstPtr := none

/-- The object state: the private vectors and sizes, and the two public debug
counters. -/
structure DependencyGraphReg where
  instructions : List DynInstPtr
  reservationStationMap : List (List Int)
  numPhyRegs : Int
  numReservationStations : Int
  nodesTraversed : Nat
  nodesRemoved : Nat
deriving DecidableEq, Repr

/-- How a scan loop can go wrong. -/
inductive Fault where
  | assertion
  | outOfBounds
deriving DecidableEq, Repr

/-- Result of a member function call. -/
inductive Outcome (α : Type) where
  | ok (a : α)
  | assertFailed (g : DependencyGraphReg)
  | outOfBounds
deriving DecidableEq, Repr

/-- Read of `reservationStationMap[r][i]`. -/
def readCell (m : List (List Int)) (r i : Nat) : Option Int :=
  match m[r]? with
  | none => none
  | some row => row[i]?

/-- Write `reservationStationMap[r][i] = v`. -/
def writeCell (m : List (List Int)) (r i : Nat) (v : Int) : Option (List (List Int)) :=
  match m[r]? with
  | none => none
  | some row => if i < row.length then some (m.set r (row.set i v)) else none

/-- Write `instructions[i] = v`. -/
def writeSlot (xs : List DynInstPtr) (i : Nat) (v : DynInstPtr) : Option (List DynInstPtr) :=
  if i < xs.length then some (xs.set i v) else none

/-- The loop shape
`for (idx = start; idx < start + fuel; idx++) if (p(read(idx))) { result = idx; break; }`
used by `insert` (twice), `empty(RegIndex)` and `pop`.  The result is `none` when
the loop runs to its end without a hit. -/
def firstIndex {α : Type} (read : Nat → Option α) (p : α → Bool) :
    Nat → Nat → Except Fault (Option Nat)
  | 0, _ => .ok none
  | fuel + 1, idx =>
    match read idx with
    | none => .error .outOfBounds
    | some v => if p v then .ok (some idx) else firstIndex read p fuel (idx + 1)

/-- The loop shape of `remove` and `retract`:
`for (idx = start; idx < start + fuel; idx++) if (p(read(idx))) { assert(-1 == inst_idx); inst_idx = idx; }`
with `acc` the current value of `inst_idx`. -/
def uniqueIndex {α : Type} (read : Nat → Option α) (p : α → Bool) :
    Nat → Nat → Option Nat → Except Fault (Option Nat)
  | 0, _, acc => .ok acc
  | fuel + 1, idx, acc =>
    match read idx with
    | none => .error .outOfBounds
    | some v =>
      if p v then
        match acc with
        | some _ => .error .assertion
        | none => uniqueIndex read p fuel (idx + 1) (some idx)
      else uniqueIndex read p fuel (idx + 1) acc

namespace DependencyGraphReg

/-- The counter `reservationStationMap[r][i]`, when both indices are in range. -/
def counter (g : DependencyGraphReg) (r i : Nat) : Option Int :=
  readCell g.reservationStationMap r i

/-- `resize(numPhyRegs, numReservationStations)`: both vectors are cleared, then
`numPhyRegs` rows of `numReservationStations` zeros and `numReservationStations`
null handles are pushed (no row and no handle for a count that is not positive). -/
def resize (g : DependencyGraphReg) (numPhyRegs numReservationStations : Int) :
    DependencyGraphReg :=
  { g with
    numPhyRegs := numPhyRegs
    numReservationStations := numReservationStations
    instructions := List.replicate numReservationStations.toNat NULL
    reservationStationMap :=
      List.replicate numPhyRegs.toNat (List.replicate numReservationStations.toNat 0) }

/-- `reset()`: the body is empty. -/
def reset (g : DependencyGraphReg) : DependencyGraphReg := g

/-- `setInst(idx, new_inst)`: the body is empty. -/
def setInst (g : DependencyGraphReg) (_idx : RegIndex) (_new_inst : DynInstPtr) :
    DependencyGraphReg := g

/-- `clearInst(idx)`: the body is empty. -/
def clearInst (g : DependencyGraphReg) (_idx : RegIndex) : DependencyGraphReg := g

/-- `insert(reg_idx, new_inst)`. -/
def insert (g : DependencyGraphReg) (reg_idx : RegIndex) (new_inst : DynInstPtr) :
    Outcome DependencyGraphReg :=
  -- search for instruction in the existing entries
  match firstIndex (fun idx => g.instructions[idx]?) (fun v => decide (new_inst = v))
      g.numReservationStations.toNat 0 with
  | .error _ => .outOfBounds
  | .ok found =>
    -- find an empty spot to insert
    let spot : Except Fault (Option Nat) :=
      match found with
      | some idx => .ok (some idx)
      | none => firstIndex (fun idx => g.instructions[idx]?) (fun v => decide (NULL = v))
          g.numReservationStations.toNat 0
    match spot with
    | .error _ => .outOfBounds
    | .ok none => .assertFailed g
    | .ok (some new_inst_idx) =>
      match writeSlot g.instructions new_inst_idx new_inst with
      | none => .outOfBounds
      | some instrs =>
        match readCell g.reservationStationMap reg_idx new_inst_idx with
        | none => .outOfBounds
        | some c =>
          match writeCell g.reservationStationMap reg_idx new_inst_idx (c + 1) with
          | none => .outOfBounds
          | some m => .ok { g with instructions := instrs, reservationStationMap := m }

/-- `empty(reg_idx)`. -/
def empty (g : DependencyGraphReg) (reg_idx : RegIndex) : Outcome Bool :=
  match firstIndex (fun inst_idx => readCell g.reservationStationMap reg_idx inst_idx)
      (fun c => decide (0 ≠ c)) g.numReservationStations.toNat 0 with
  | .error _ => .outOfBounds
  | .ok (some _) => .ok false
  | .ok none => .ok true

/-- `remove(reg_idx, inst_to_remove)`. -/
def remove (g : DependencyGraphReg) (reg_idx : RegIndex) (inst_to_remove : DynInstPtr) :
    Outcome DependencyGraphReg :=
  match uniqueIndex (fun idx => g.instructions[idx]?) (fun v => decide (v = inst_to_remove))
      g.numReservationStations.toNat 0 none with
  | .error .outOfBounds => .outOfBounds
  | .error .assertion => .assertFailed g
  | .ok none => .assertFailed g
  | .ok (some inst_idx) =>
    match writeCell g.reservationStationMap reg_idx inst_idx 0 with
    | none => .outOfBounds
    | some m => .ok { g with reservationStationMap := m }

/-- `retract(inst)`. -/
def retract (g : DependencyGraphReg) (inst : DynInstPtr) : Outcome DependencyGraphReg :=
  match uniqueIndex (fun idx => g.instructions[idx]?) (fun v => decide (v = inst))
      g.numReservationStations.toNat 0 none with
  | .error .outOfBounds => .outOfBounds
  | .error .assertion => .assertFailed g
  | .ok none => .ok g
  | .ok (some inst_idx) =>
    match writeSlot g.instructions inst_idx NULL with
    | none => .outOfBounds
    | some instrs => .ok { g with instructions := instrs }

/-- `pop(reg_idx)`: the returned handle together with the state after the call. -/
def pop (g : DependencyGraphReg) (reg_idx : RegIndex) :
    Outcome (DynInstPtr × DependencyGraphReg) :=
  match firstIndex (fun inst_idx => readCell g.reservationStationMap reg_idx inst_idx)
      (fun c => decide (0 ≠ c)) g.numReservationStations.toNat 0 with
  | .error _ => .outOfBounds
  | .ok none => .ok (NULL, g)
  | .ok (some inst_idx) =>
    match g.instructions[inst_idx]? with
    | none => .outOfBounds
    | some inst =>
      match readCell g.reservationStationMap reg_idx inst_idx with
      | none => .outOfBounds
      | some c =>
        match writeCell g.reservationStationMap reg_idx inst_idx (c - 1) with
        | none => .outOfBounds
        | some m => .ok (inst, { g with reservationStationMap := m })

end DependencyGraphReg

open DependencyGraphReg

/-- The states a tracker can be in after `resize(P, S)`: the result of that call
on any object, followed by any calls of the public mutators that return
normally. -/
inductive Reachable (P S : Int) : DependencyGraphReg → Prop where
  | resize (g0 : DependencyGraphReg) : Reachable P S (g0.resize P S)
  | reset {g : DependencyGraphReg} : Reachable P S g → Reachable P S g.reset
  | setInst {g : DependencyGraphReg} (idx : RegIndex) (x : DynInstPtr) :
      Reachable P S g → Reachable P S (g.setInst idx x)
  | clearInst {g : DependencyGraphReg} (idx : RegIndex) :
      Reachable P S g → Reachable P S (g.clearInst idx)
  | insert {g g' : DependencyGraphReg} (reg : RegIndex) (x : DynInstPtr) :
      Reachable P S g → g.insert reg x = .ok g' → Reachable P S g'
  | remove {g g' : DependencyGraphReg} (reg : RegIndex) (x : DynInstPtr) :
      Reachable P S g → g.remove reg x = .ok g' → Reachable P S g'
  | retract {g g' : DependencyGraphReg} (x : DynInstPtr) :
      Reachable P S g → g.retract x = .ok g' → Reachable P S g'
  | pop {g g' : DependencyGraphReg} (reg : RegIndex) (x : DynInstPtr) :
      Reachable P S g → g.pop reg = .ok (x, g') → Reachable P S g'

/-- A default-constructed object: empty vectors, debug counters zero.  The two
size fields are not initialised by the constructor; `resize` overwrites them. -/
def fresh : DependencyGraphReg :=
  { instructions := [], reservationStationMap := [], numPhyRegs := 0,
    numReservationStations := 0, nodesTraversed := 0, nodesRemoved := 0 }


/-! ## Well-formed states -/

/-- The representation invariant of a tracker configured by `resize(P, S)`: the
size fields hold `P` and `S`, the slot table has `S` entries, the matrix has `P`
rows of `S` counters, and no instruction is held by two slots. -/
structure WellFormed (P S : Int) (g : DependencyGraphReg) : Prop where
  numRS : g.numReservationStations = S
  numPR : g.numPhyRegs = P
  slots : g.instructions.length = S.toNat
  rows : g.reservationStationMap.length = P.toNat
  cols : ∀ (r : Nat) (row : List Int),
    g.reservationStationMap[r]? = some row → row.length = S.toNat
  uniq : ∀ (i j x : Nat),
    g.instructions[i]? = some (some x) → g.instructions[j]? = some (some x) → i = j

/-- The slot that the two scans of `insert` select for the handle `x`: the
lowest-index slot already holding `x`, or else, when no slot holds `x`, the
lowest-index slot holding the null handle. -/
def ChosenSlot (g : DependencyGraphReg) (x : DynInstPtr) (s : Nat) : Prop :=
  (g.instructions[s]? = some x ∧ ∀ j : Nat, j < s → g.instructions[j]? ≠ some x) ∨
  ((∀ j : Nat, g.instructions[j]? ≠ some x) ∧ g.instructions[s]? = some NULL ∧
    ∀ j : Nat, j < s → g.instructions[j]? ≠ some NULL)

/-- The state after `resize(4, 2); insert(1, A)` on a default-constructed object,
with `A` the instruction numbered 10. -/
def stateA : DependencyGraphReg :=
  { instructions := [some 10, none]
    reservationStationMap := [[0, 0], [1, 0], [0, 0], [0, 0]]
    numPhyRegs := 4
    numReservationStations := 2
    nodesTraversed := 0
    nodesRemoved := 0 }

/-- A caller that issues the given `insert` calls in order and stops at the first
one that does not return normally. -/
def insertAll (g : DependencyGraphReg) :
    List (RegIndex × DynInstPtr) → Outcome DependencyGraphReg
  | [] => .ok g
  | (reg, x) :: rest =>
    match g.insert reg x with
    | .ok g' => insertAll g' rest
    | .assertFailed h => .assertFailed h
    | .outOfBounds => .outOfBounds

namespace DependencyGraphReg

/-- The loop of `empty()`:
`for (i = start; i < start + fuel; ++i) if (!empty(i)) return false;` then
`return true`. -/
def emptyLoop (g : DependencyGraphReg) : Nat → Nat → Outcome Bool
  | 0, _ => .ok true
  | fuel + 1, i =>
    match g.empty i with
    | .ok false => .ok false
    | .ok true => emptyLoop g fuel (i + 1)
    | .assertFailed h => .assertFailed h
    | .outOfBounds => .outOfBounds

/-- `empty()`, the overload without argument (a Lean namespace holds one `empty`).
The loop variable runs over `[0, numReservationStations)`. -/
def emptyAll (g : DependencyGraphReg) : Outcome Bool :=
  emptyLoop g g.numReservationStations.toNat 0

end DependencyGraphReg

/-- The state after `resize(4, 2); insert(3, A)` on a default-constructed object,
with `A` the instruction numbered 10. -/
def stateHigh : DependencyGraphReg :=
  { instructions := [some 10, none]
    reservationStationMap := [[0, 0], [0, 0], [0, 0], [1, 0]]
    numPhyRegs := 4
    numReservationStations := 2
    nodesTraversed := 0
    nodesRemoved := 0 }

/-- The state after `resize(1, 1); insert(0, A); pop(0)` on a default-constructed
object, with `A` the instruction numbered 10: the one slot holds `A` and its one
counter is back to zero. -/
def stateDrained : DependencyGraphReg :=
  { instructions := [some 10]
    reservationStationMap := [[0]]
    numPhyRegs := 1
    numReservationStations := 1
    nodesTraversed := 0
    nodesRemoved := 0 }

/-- The state after `resize(1, 1); insert(0, A)` on a default-constructed object,
with `A` the instruction numbered 10. -/
def stateOne : DependencyGraphReg :=
  { instructions := [some 10]
    reservationStationMap := [[1]]
    numPhyRegs := 1
    numReservationStations := 1
    nodesTraversed := 0
    nodesRemoved := 0 }

/-- The state after `resize(1, 1); insert(0, A); insert(0, A)`. -/
def stateTwo : DependencyGraphReg :=
  { stateOne with reservationStationMap := [[2]] }

/-- The state after `resize(1, 1); insert(0, A); insert(0, A); retract(A)`: the
slot is free and its counter is still 2. -/
def stateStaleTwo : DependencyGraphReg :=
  { stateTwo with instructions := [none] }

/-- The state after `resize(1, 1); insert(0, A); retract(A)`, which is also the
state after `resize(1, 1); insert(0, A); insert(0, A); retract(A); pop(0)`: the
slot is free and its counter is 1. -/
def stateStale : DependencyGraphReg :=
  { stateOne with instructions := [none] }

/-- Apply a function to the value of a normal outcome. -/
def Outcome.map {α β : Type} (f : α → β) : Outcome α → Outcome β
  | .ok a => .ok (f a)
  | .assertFailed g => .assertFailed g
  | .outOfBounds => .outOfBounds

/-- One call of a public mutator by the surrounding scheduler. -/
inductive Call where
  | reset
  | insert (reg_idx : RegIndex) (new_inst : DynInstPtr)
  | setInst (idx : RegIndex) (new_inst : DynInstPtr)
  | clearInst (idx : RegIndex)
  | remove (reg_idx : RegIndex) (inst_to_remove : DynInstPtr)
  | retract (inst : DynInstPtr)
  | pop (reg_idx : RegIndex)
deriving DecidableEq, Repr

/-- Perform one call.  The first component of the result is `some (reg, handle)`
for a `pop(reg)` that returned `handle`, and `none` for the `void` functions. -/
def call (g : DependencyGraphReg) :
    Call → Outcome (Option (RegIndex × DynInstPtr) × DependencyGraphReg)
  | .reset => .ok (none, g.reset)
  | .insert reg_idx new_inst => (g.insert reg_idx new_inst).map fun g' => (none, g')
  | .setInst idx new_inst => .ok (none, g.setInst idx new_inst)
  | .clearInst idx => .ok (none, g.clearInst idx)
  | .remove reg_idx inst_to_remove => (g.remove reg_idx inst_to_remove).map fun g' => (none, g')
  | .retract inst => (g.retract inst).map fun g' => (none, g')
  | .pop reg_idx => (g.pop reg_idx).map fun r => (some (reg_idx, r.1), r.2)

/-- Perform the calls in order, stopping at the first one that does not return
normally.  The result lists, in call order, what each `pop` returned. -/
def runCalls (g : DependencyGraphReg) :
    List Call → Outcome (List (RegIndex × DynInstPtr) × DependencyGraphReg)
  | [] => .ok ([], g)
  | c :: rest =>
    match call g c with
    | .ok (r, g') => (runCalls g' rest).map fun out => (r.toList ++ out.1, out.2)
    | .assertFailed h => .assertFailed h
    | .outOfBounds => .outOfBounds

/-- Two states that have the same slot table and the same matrix rows except for
the row of register `reg`. -/
def AgreeOffRow (reg : RegIndex) (g g1 : DependencyGraphReg) : Prop :=
  g1.instructions = g.instructions ∧
  g1.numReservationStations = g.numReservationStations ∧
  ∀ r j : Nat, r ≠ reg →
    readCell g1.reservationStationMap r j = readCell g.reservationStationMap r j

/-- Every counter of the matrix is at least zero. -/
def NonNeg (g : DependencyGraphReg) : Prop :=
  ∀ (r j : Nat) (c : Int), g.counter r j = some c → 0 ≤ c

/-- No free slot has a nonzero counter: every slot with a nonzero counter, for any
register, holds an instruction. -/
def NoStale (g : DependencyGraphReg) : Prop :=
  ∀ (r j : Nat) (c : Int), g.counter r j = some c → c ≠ 0 →
    ∃ X : Nat, g.instructions[j]? = some (some X)

/-- The sum over all slots of the counters of register `r` (zero for a register
that has no row). -/
def rowSum (g : DependencyGraphReg) (r : RegIndex) : Int :=
  ((g.reservationStationMap[r]?).getD []).sum

/-- A caller that calls `pop(reg)` until it returns the null handle, at most `fuel`
times.  The result is `none` when `fuel` calls were made and none returned the null
handle, and otherwise the outcome of the last call made. -/
def popUntilNull (g : DependencyGraphReg) (reg : RegIndex) :
    Nat → Option (Outcome DependencyGraphReg)
  | 0 => none
  | fuel + 1 =>
    match g.pop reg with
    | .ok (none, g') => some (.ok g')
    | .ok (some _, g') => popUntilNull g' reg fuel
    | .assertFailed h => some (.assertFailed h)
    | .outOfBounds => some .outOfBounds

/-- A caller that drains the registers of the list one after the other, each with
`popUntilNull` and at most `fuel` calls of `pop`. -/
def drainRegs (fuel : Nat) (g : DependencyGraphReg) :
    List RegIndex → Option (Outcome DependencyGraphReg)
  | [] => some (.ok g)
  | r :: rest =>
    match popUntilNull g r fuel with
    | some (.ok g') => drainRegs fuel g' rest
    | other => other

/-- The bookkeeping that the sum invariant speaks of: for a register `r` and an
instruction `X`, the number of outstanding dependencies of `X` on `r`. -/
abbrev Ledger := RegIndex → Nat → Int

/-- A dependency of `X` on `r` is created by `insert(r, X)`. -/
def ledgerCreated (L : Ledger) (r : RegIndex) (X : Nat) : Ledger :=
  fun r' X' => if r' = r ∧ X' = X then L r' X' + 1 else L r' X'

/-- A dependency of `X` on `r` is resolved by a `pop(r)` that returns `X`. -/
def ledgerResolved (L : Ledger) (r : RegIndex) (X : Nat) : Ledger :=
  fun r' X' => if r' = r ∧ X' = X then L r' X' - 1 else L r' X'

/-- All dependencies of `X` on `r` are cancelled by `remove(r, X)`. -/
def ledgerCancelled (L : Ledger) (r : RegIndex) (X : Nat) : Ledger :=
  fun r' X' => if r' = r ∧ X' = X then 0 else L r' X'

/-- The ledger after a `pop(r)` that returned the handle `x`. -/
def ledgerPopped (L : Ledger) (r : RegIndex) : DynInstPtr → Ledger
  | some X => ledgerResolved L r X
  | none => L

/-- The outstanding dependencies on `r` that the ledger attributes to the handle
of a slot: those of the instruction it holds, none for a free slot. -/
def pendingOf (L : Ledger) (r : RegIndex) : DynInstPtr → Int
  | some X => L r X
  | none => 0

/-- The number of outstanding dependencies on `r` of the instructions currently
held in the slot table. -/
def outstanding (g : DependencyGraphReg) (L : Ledger) (r : RegIndex) : Int :=
  (g.instructions.map (pendingOf L r)).sum

/-- The states reachable from `resize(P, S)` by `insert`, `pop`, `remove` and
`retract` of instructions, each together with its ledger.  With `strict` set,
`retract(X)` is allowed only when `X` has no outstanding dependency on any
register. -/
inductive Ledgered (strict : Bool) (P S : Int) : DependencyGraphReg → Ledger → Prop where
  | resize (g0 : DependencyGraphReg) : Ledgered strict P S (g0.resize P S) (fun _ _ => 0)
  | insert {g g' : DependencyGraphReg} {L : Ledger} (reg : RegIndex) (X : Nat) :
      Ledgered strict P S g L → g.insert reg (some X) = .ok g' →
      Ledgered strict P S g' (ledgerCreated L reg X)
  | pop {g g' : DependencyGraphReg} {L : Ledger} (reg : RegIndex) (x : DynInstPtr) :
      Ledgered strict P S g L → g.pop reg = .ok (x, g') →
      Ledgered strict P S g' (ledgerPopped L reg x)
  | remove {g g' : DependencyGraphReg} {L : Ledger} (reg : RegIndex) (X : Nat) :
      Ledgered strict P S g L → g.remove reg (some X) = .ok g' →
      Ledgered strict P S g' (ledgerCancelled L reg X)
  | retract {g g' : DependencyGraphReg} {L : Ledger} (X : Nat) :
      Ledgered strict P S g L → (strict = true → ∀ r : RegIndex, L r X = 0) →
      g.retract (some X) = .ok g' → Ledgered strict P S g' L

/-- The ledger matches the matrix slot by slot: each counter equals the outstanding
dependencies of the handle in its slot, and an instruction that holds no slot has
no outstanding dependency. -/
def LedgerInv (g : DependencyGraphReg) (L : Ledger) : Prop :=
  (∀ (r j : Nat) (c : Int) (h : DynInstPtr), g.counter r j = some c →
    g.instructions[j]? = some h → c = pendingOf L r h) ∧
  (∀ X : Nat, (∀ j : Nat, g.instructions[j]? ≠ some (some X)) → ∀ r : RegIndex, L r X = 0)

/-- The state after `resize(2, 1); insert(0, X)` on a default-constructed object,
with `X` the instruction numbered 10. -/
def stateFirst : DependencyGraphReg :=
  { instructions := [some 10]
    reservationStationMap := [[1], [0]]
    numPhyRegs := 2
    numReservationStations := 1
    nodesTraversed := 0
    nodesRemoved := 0 }

/-- The state after `resize(2, 1); insert(0, X); retract(X)`. -/
def stateRetracted : DependencyGraphReg :=
  { stateFirst with instructions := [none] }

/-- The state after `resize(2, 1); insert(0, X); retract(X); insert(1, Y)`, with `Y`
the instruction numbered 11: `Y` holds the slot that `X` left, and the counter
that `X` left for register 0 is still 1. -/
def stateReused : DependencyGraphReg :=
  { stateFirst with
    instructions := [some 11]
    reservationStationMap := [[1], [1]] }

/-- The states reachable from `resize(P, S)` using only `insert` of instructions,
`pop` and `remove`: no `retract` and no insert of the null handle. -/
inductive ReachableNoRetract (P S : Int) : DependencyGraphReg → Prop where
  | resize (g0 : DependencyGraphReg) : ReachableNoRetract P S (g0.resize P S)
  | insert {g g' : DependencyGraphReg} (reg : RegIndex) (X : Nat) :
      ReachableNoRetract P S g → g.insert reg (some X) = .ok g' → ReachableNoRetract P S g'
  | pop {g g' : DependencyGraphReg} (reg : RegIndex) (x : DynInstPtr) :
      ReachableNoRetract P S g → g.pop reg = .ok (x, g') → ReachableNoRetract P S g'
  | remove {g g' : DependencyGraphReg} (reg : RegIndex) (x : DynInstPtr) :
      ReachableNoRetract P S g → g.remove reg x = .ok g' → ReachableNoRetract P S g'

/-- The state after `resize(2, 3); insert(1, W); insert(0, Z); insert(0, X)` on a
default-constructed object, with `W`, `Z`, `X` the instructions numbered 10, 11
and 12: `X` holds slot 2 and waits on register 0. -/
def stateThree : DependencyGraphReg :=
  { instructions := [some 10, some 11, some 12]
    reservationStationMap := [[0, 1, 1], [1, 0, 0]]
    numPhyRegs := 2
    numReservationStations := 3
    nodesTraversed := 0
    nodesRemoved := 0 }

/-- The state `stateThree` after `remove(0, X)`. -/
def stateThreeRemoved : DependencyGraphReg :=
  { stateThree with reservationStationMap := [[0, 1, 0], [1, 0, 0]] }

/-- The state `stateThreeRemoved` after
`retract(Z); retract(X); insert(1, X); pop(0)`: `X` now holds slot 1, the slot
that `Z` left. -/
def stateThreeBack : DependencyGraphReg :=
  { stateThree with
    instructions := [some 10, some 12, none]
    reservationStationMap := [[0, 0, 0], [1, 1, 0]] }

/-! ## The scan loops -/

/-- Outcome of the first-match loop when every read in its range is in bounds:
either it stops at the first index whose element satisfies `p`, or no element
of the range satisfies `p` and it reports no hit. -/
theorem firstIndex_spec {α : Type} (read : Nat → Option α) (p : α → Bool) :
    ∀ (fuel idx : Nat), (∀ j, idx ≤ j → j < idx + fuel → ∃ w, read j = some w) →
      (∃ i v, firstIndex read p fuel idx = .ok (some i) ∧ idx ≤ i ∧ i < idx + fuel ∧
          read i = some v ∧ p v = true ∧
          ∀ j, idx ≤ j → j < i → ∃ w, read j = some w ∧ p w = false) ∨
      (firstIndex read p fuel idx = .ok none ∧
          ∀ j, idx ≤ j → j < idx + fuel → ∃ w, read j = some w ∧ p w = false) := by
  intro fuel
  induction fuel with
  | zero =>
    intro idx _
    right
    refine ⟨rfl, ?_⟩
    intro j h1 h2
    omega
  | succ n ih =>
    intro idx hread
    obtain ⟨w, hw⟩ := hread idx (Nat.le_refl _) (by omega)
    cases hp : p w with
    | true =>
      left
      refine ⟨idx, w, ?_, Nat.le_refl _, by omega, hw, hp, ?_⟩
      · simp [firstIndex, hw, hp]
      · intro j h1 h2
        omega
    | false =>
      have hstep : firstIndex read p (n + 1) idx = firstIndex read p n (idx + 1) := by
        simp [firstIndex, hw, hp]
      rcases ih (idx + 1) (fun j h1 h2 => hread j (by omega) (by omega)) with
        ⟨i, v, h1, h2, h3, h4, h5, h6⟩ | ⟨h1, h2⟩
      · left
        refine ⟨i, v, by rw [hstep, h1], by omega, by omega, h4, h5, ?_⟩
        intro j hj1 hj2
        by_cases hji : j = idx
        · subst hji
          exact ⟨w, hw, hp⟩
        · exact h6 j (by omega) hj2
      · right
        refine ⟨by rw [hstep, h1], ?_⟩
        intro j hj1 hj2
        by_cases hji : j = idx
        · subst hji
          exact ⟨w, hw, hp⟩
        · exact h2 j (by omega) (by omega)

/-- The first-match loop stops at `i` as soon as `i` is the first hit; reads
beyond `i` are never made. -/
theorem firstIndex_hit {α : Type} (read : Nat → Option α) (p : α → Bool) :
    ∀ (fuel idx i : Nat) (v : α), idx ≤ i → i < idx + fuel → read i = some v → p v = true →
      (∀ j, idx ≤ j → j < i → ∃ w, read j = some w ∧ p w = false) →
      firstIndex read p fuel idx = .ok (some i) := by
  intro fuel
  induction fuel with
  | zero =>
    intro idx i v h1 h2
    omega
  | succ n ih =>
    intro idx i v h1 h2 hv hp hbefore
    by_cases hi : i = idx
    · subst hi
      simp [firstIndex, hv, hp]
    · obtain ⟨w, hw, hpw⟩ := hbefore idx (Nat.le_refl _) (by omega)
      have hstep : firstIndex read p (n + 1) idx = firstIndex read p n (idx + 1) := by
        simp [firstIndex, hw, hpw]
      rw [hstep]
      exact ih (idx + 1) i v (by omega) (by omega) hv hp
        (fun j hj1 hj2 => hbefore j (by omega) hj2)

/-- The first-match loop reports no hit when no element of its range satisfies `p`. -/
theorem firstIndex_miss {α : Type} (read : Nat → Option α) (p : α → Bool) :
    ∀ (fuel idx : Nat), (∀ j, idx ≤ j → j < idx + fuel → ∃ w, read j = some w ∧ p w = false) →
      firstIndex read p fuel idx = .ok none := by
  intro fuel
  induction fuel with
  | zero =>
    intro idx _
    rfl
  | succ n ih =>
    intro idx h
    obtain ⟨w, hw, hpw⟩ := h idx (Nat.le_refl _) (by omega)
    have hstep : firstIndex read p (n + 1) idx = firstIndex read p n (idx + 1) := by
      simp [firstIndex, hw, hpw]
    rw [hstep]
    exact ih (idx + 1) (fun j hj1 hj2 => h j (by omega) (by omega))

/-- The all-slots loop of `remove` and `retract` keeps its accumulator when no
element of the range satisfies `p`. -/
theorem uniqueIndex_miss {α : Type} (read : Nat → Option α) (p : α → Bool) :
    ∀ (fuel idx : Nat) (acc : Option Nat),
      (∀ j, idx ≤ j → j < idx + fuel → ∃ w, read j = some w ∧ p w = false) →
      uniqueIndex read p fuel idx acc = .ok acc := by
  intro fuel
  induction fuel with
  | zero =>
    intro idx acc _
    rfl
  | succ n ih =>
    intro idx acc h
    obtain ⟨w, hw, hpw⟩ := h idx (Nat.le_refl _) (by omega)
    have hstep : uniqueIndex read p (n + 1) idx acc = uniqueIndex read p n (idx + 1) acc := by
      simp [uniqueIndex, hw, hpw]
    rw [hstep]
    exact ih (idx + 1) acc (fun j hj1 hj2 => h j (by omega) (by omega))

/-- The all-slots loop of `remove` and `retract` returns `i` when `i` is the one
index of the range whose element satisfies `p`. -/
theorem uniqueIndex_hit {α : Type} (read : Nat → Option α) (p : α → Bool) :
    ∀ (fuel idx i : Nat) (v : α), idx ≤ i → i < idx + fuel → read i = some v → p v = true →
      (∀ j, idx ≤ j → j < idx + fuel → j ≠ i → ∃ w, read j = some w ∧ p w = false) →
      uniqueIndex read p fuel idx none = .ok (some i) := by
  intro fuel
  induction fuel with
  | zero =>
    intro idx i v h1 h2
    omega
  | succ n ih =>
    intro idx i v h1 h2 hv hp hother
    by_cases hi : i = idx
    · subst hi
      have hstep : uniqueIndex read p (n + 1) i none = uniqueIndex read p n (i + 1) (some i) := by
        simp [uniqueIndex, hv, hp]
      rw [hstep]
      exact uniqueIndex_miss read p n (i + 1) (some i)
        (fun j hj1 hj2 => hother j (by omega) (by omega) (by omega))
    · obtain ⟨w, hw, hpw⟩ := hother idx (Nat.le_refl _) (by omega) (fun h => hi h.symm)
      have hstep : uniqueIndex read p (n + 1) idx none = uniqueIndex read p n (idx + 1) none := by
        simp [uniqueIndex, hw, hpw]
      rw [hstep]
      exact ih (idx + 1) i v (by omega) (by omega) hv hp
        (fun j hj1 hj2 hj3 => hother j (by omega) (by omega) hj3)

/-! ## Cells of the matrix and slots of the table -/

theorem readCell_writeCell {m m' : List (List Int)} {r i : Nat} {v : Int}
    (h : writeCell m r i v = some m') (r' i' : Nat) :
    readCell m' r' i' = if r' = r ∧ i' = i then some v else readCell m r' i' := by
  unfold writeCell at h
  cases hrow : m[r]? with
  | none => simp [hrow] at h
  | some row =>
    simp only [hrow] at h
    by_cases hi : i < row.length
    · simp only [hi, if_true, Option.some.injEq] at h
      subst h
      have hr : r < m.length := by
        rcases List.getElem?_eq_some.mp hrow with ⟨hlt, _⟩
        exact hlt
      unfold readCell
      by_cases hrr : r' = r
      · subst hrr
        simp only [List.getElem?_set, if_true, hr, true_and]
        by_cases hii : i' = i
        · subst hii
          simp [hi]
        · have hne : ¬ i = i' := fun e => hii e.symm
          simp [hii, hne, hrow]
      · have hne : ¬ r = r' := fun e => hrr e.symm
        simp [List.getElem?_set, hne, hrr]
    · simp [hi] at h

theorem writeCell_length {m m' : List (List Int)} {r i : Nat} {v : Int}
    (h : writeCell m r i v = some m') : m'.length = m.length := by
  unfold writeCell at h
  cases hrow : m[r]? with
  | none => simp [hrow] at h
  | some row =>
    simp only [hrow] at h
    by_cases hi : i < row.length
    · simp only [hi, if_true, Option.some.injEq] at h
      subst h
      simp
    · simp [hi] at h

theorem writeCell_row_length {m m' : List (List Int)} {r i : Nat} {v : Int}
    (h : writeCell m r i v = some m') {n : Nat}
    (hm : ∀ (q : Nat) (row : List Int), m[q]? = some row → row.length = n) :
    ∀ (q : Nat) (row : List Int), m'[q]? = some row → row.length = n := by
  unfold writeCell at h
  cases hrow : m[r]? with
  | none => simp [hrow] at h
  | some row0 =>
    simp only [hrow] at h
    by_cases hi : i < row0.length
    · simp only [hi, if_true, Option.some.injEq] at h
      subst h
      intro q row hq
      rw [List.getElem?_set] at hq
      by_cases hrq : r = q
      · subst hrq
        simp only [if_true] at hq
        by_cases hr : r < m.length
        · simp only [hr, if_true, Option.some.injEq] at hq
          subst hq
          simpa using hm r row0 hrow
        · simp [hr] at hq
      · simp only [hrq, if_false] at hq
        exact hm q row hq
    · simp [hi] at h

theorem readCell_isSome {m : List (List Int)} {n r i : Nat}
    (hm : ∀ (q : Nat) (row : List Int), m[q]? = some row → row.length = n) (hr : r < m.length) (hi : i < n) :
    ∃ c, readCell m r i = some c := by
  unfold readCell
  have hrow : m[r]? = some m[r] := List.getElem?_eq_getElem hr
  have hlen := hm r _ hrow
  rw [hrow]
  exact ⟨(m[r])[i], List.getElem?_eq_getElem (by omega)⟩

theorem readCell_bounds {m : List (List Int)} {n r i : Nat} {c : Int}
    (hm : ∀ (q : Nat) (row : List Int), m[q]? = some row → row.length = n) (h : readCell m r i = some c) :
    r < m.length ∧ i < n := by
  unfold readCell at h
  cases hrow : m[r]? with
  | none => simp [hrow] at h
  | some row =>
    simp only [hrow] at h
    rcases List.getElem?_eq_some.mp hrow with ⟨hlt, _⟩
    rcases List.getElem?_eq_some.mp h with ⟨hlt2, _⟩
    have := hm r row hrow
    exact ⟨hlt, by omega⟩

theorem writeCell_isSome {m : List (List Int)} {r i : Nat} {c : Int} (v : Int)
    (h : readCell m r i = some c) : ∃ m', writeCell m r i v = some m' := by
  unfold readCell at h
  unfold writeCell
  cases hrow : m[r]? with
  | none => simp [hrow] at h
  | some row =>
    simp only [hrow] at h
    rcases List.getElem?_eq_some.mp h with ⟨hlt, _⟩
    exact ⟨m.set r (row.set i v), by simp [hlt]⟩

theorem writeCell_some_read {m m' : List (List Int)} {r i : Nat} {v : Int}
    (h : writeCell m r i v = some m') : ∃ c, readCell m r i = some c := by
  unfold writeCell at h
  unfold readCell
  cases hrow : m[r]? with
  | none => simp [hrow] at h
  | some row =>
    simp only [hrow] at h
    by_cases hi : i < row.length
    · exact ⟨row[i], List.getElem?_eq_getElem hi⟩
    · simp [hi] at h

theorem set_same_of_getElem? {α : Type} {l : List α} {i : Nat} {a : α} (h : l[i]? = some a) :
    l.set i a = l := by
  apply List.ext_getElem?
  intro j
  rw [List.getElem?_set]
  by_cases hij : i = j
  · subst hij
    rcases List.getElem?_eq_some.mp h with ⟨hlt, _⟩
    simp [hlt, h]
  · simp [hij]

/-! ## The member functions on states whose slot table has the configured size -/

theorem slot_first_or_absent (xs : List DynInstPtr) (x : DynInstPtr) :
    (∃ s : Nat, xs[s]? = some x ∧ ∀ j : Nat, j < s → xs[j]? ≠ some x) ∨ (∀ j : Nat, xs[j]? ≠ some x) := by
  by_cases h : ∃ s : Nat, xs[s]? = some x
  · left
    refine ⟨Nat.find h, Nat.find_spec h, ?_⟩
    intro j hj
    exact Nat.find_min h hj
  · right
    intro j hj
    exact h ⟨j, hj⟩

theorem slot_read {xs : List DynInstPtr} {n : Nat} (hn : xs.length = n) (j : Nat) (hj : j < n) :
    ∃ w, xs[j]? = some w :=
  ⟨xs[j], List.getElem?_eq_getElem (by omega)⟩

theorem slot_bound {xs : List DynInstPtr} {n s : Nat} {x : DynInstPtr} (hn : xs.length = n)
    (h : xs[s]? = some x) : s < n := by
  rcases List.getElem?_eq_some.mp h with ⟨hlt, _⟩
  omega

theorem insert_of_tracked {g : DependencyGraphReg} {x : DynInstPtr} {s : Nat}
    (hn : g.instructions.length = g.numReservationStations.toNat)
    (hx : g.instructions[s]? = some x) (hfirst : ∀ j, j < s → g.instructions[j]? ≠ some x)
    (reg : RegIndex) :
    g.insert reg x =
      match readCell g.reservationStationMap reg s with
      | none => .outOfBounds
      | some c =>
        match writeCell g.reservationStationMap reg s (c + 1) with
        | none => .outOfBounds
        | some m => .ok { g with reservationStationMap := m } := by
  have hs := slot_bound hn hx
  have hloop : firstIndex (fun idx => g.instructions[idx]?) (fun v => decide (x = v))
      g.numReservationStations.toNat 0 = .ok (some s) := by
    apply firstIndex_hit _ _ _ 0 s x (Nat.zero_le _) (by omega) hx (by simp)
    intro j _ hj
    obtain ⟨w, hw⟩ := slot_read hn j (by omega)
    refine ⟨w, hw, ?_⟩
    have := hfirst j hj
    rw [hw] at this
    simpa using fun e : x = w => this (by rw [e])
  have hlen : s < g.instructions.length := by omega
  unfold DependencyGraphReg.insert
  simp only [hloop, writeSlot, hlen, if_true, set_same_of_getElem? hx]

theorem insert_of_untracked {g : DependencyGraphReg} {x : DynInstPtr} {s : Nat}
    (hn : g.instructions.length = g.numReservationStations.toNat)
    (habs : ∀ j : Nat, g.instructions[j]? ≠ some x)
    (hfree : g.instructions[s]? = some NULL)
    (hfirst : ∀ j, j < s → g.instructions[j]? ≠ some NULL) (reg : RegIndex) :
    g.insert reg x =
      match readCell g.reservationStationMap reg s with
      | none => .outOfBounds
      | some c =>
        match writeCell g.reservationStationMap reg s (c + 1) with
        | none => .outOfBounds
        | some m =>
          .ok { g with instructions := g.instructions.set s x, reservationStationMap := m } := by
  have hs := slot_bound hn hfree
  have hloop1 : firstIndex (fun idx => g.instructions[idx]?) (fun v => decide (x = v))
      g.numReservationStations.toNat 0 = .ok none := by
    apply firstIndex_miss
    intro j _ hj
    obtain ⟨w, hw⟩ := slot_read hn j (by omega)
    refine ⟨w, hw, ?_⟩
    have := habs j
    rw [hw] at this
    simpa using fun e : x = w => this (by rw [e])
  have hloop2 : firstIndex (fun idx => g.instructions[idx]?) (fun v => decide (NULL = v))
      g.numReservationStations.toNat 0 = .ok (some s) := by
    apply firstIndex_hit _ _ _ 0 s NULL (Nat.zero_le _) (by omega) hfree (by simp)
    intro j _ hj
    obtain ⟨w, hw⟩ := slot_read hn j (by omega)
    refine ⟨w, hw, ?_⟩
    have := hfirst j hj
    rw [hw] at this
    simpa using fun e : NULL = w => this (by rw [e])
  have hlen : s < g.instructions.length := by omega
  unfold DependencyGraphReg.insert
  simp only [hloop1, hloop2, writeSlot, hlen, if_true]

theorem insert_of_full {g : DependencyGraphReg} {x : DynInstPtr}
    (hn : g.instructions.length = g.numReservationStations.toNat)
    (habs : ∀ j : Nat, g.instructions[j]? ≠ some x)
    (hfull : ∀ j : Nat, g.instructions[j]? ≠ some NULL) (reg : RegIndex) :
    g.insert reg x = .assertFailed g := by
  have hloop1 : firstIndex (fun idx => g.instructions[idx]?) (fun v => decide (x = v))
      g.numReservationStations.toNat 0 = .ok none := by
    apply firstIndex_miss
    intro j _ hj
    obtain ⟨w, hw⟩ := slot_read hn j (by omega)
    refine ⟨w, hw, ?_⟩
    have := habs j
    rw [hw] at this
    simpa using fun e : x = w => this (by rw [e])
  have hloop2 : firstIndex (fun idx => g.instructions[idx]?) (fun v => decide (NULL = v))
      g.numReservationStations.toNat 0 = .ok none := by
    apply firstIndex_miss
    intro j _ hj
    obtain ⟨w, hw⟩ := slot_read hn j (by omega)
    refine ⟨w, hw, ?_⟩
    have := hfull j
    rw [hw] at this
    simpa using fun e : NULL = w => this (by rw [e])
  unfold DependencyGraphReg.insert
  simp only [hloop1, hloop2]

theorem cell_first_nonzero {m : List (List Int)} {n reg : Nat}
    (hm : ∀ (q : Nat) (row : List Int), m[q]? = some row → row.length = n)
    (h : ∃ i c, readCell m reg i = some c ∧ c ≠ 0) :
    ∃ s c, s < n ∧ readCell m reg s = some c ∧ c ≠ 0 ∧
      ∀ j, j < s → readCell m reg j = some 0 := by
  have h' : ∃ i, ∃ c, readCell m reg i = some c ∧ c ≠ 0 := h
  classical
  obtain ⟨c, hc, hne⟩ := Nat.find_spec h'
  have hb := readCell_bounds hm hc
  refine ⟨Nat.find h', c, hb.2, hc, hne, ?_⟩
  intro j hj
  obtain ⟨cj, hcj⟩ := readCell_isSome hm hb.1 (show j < n by omega)
  have hmin := Nat.find_min h' hj
  by_cases hz : cj = 0
  · rw [hcj, hz]
  · exact absurd ⟨cj, hcj, hz⟩ hmin

theorem pop_of_first {g : DependencyGraphReg} {reg : RegIndex} {s : Nat} {c : Int}
    {inst : DynInstPtr} (hs : s < g.numReservationStations.toNat)
    (hc : readCell g.reservationStationMap reg s = some c) (hne : c ≠ 0)
    (hbefore : ∀ j, j < s → readCell g.reservationStationMap reg j = some 0)
    (hinst : g.instructions[s]? = some inst) :
    ∃ m, writeCell g.reservationStationMap reg s (c - 1) = some m ∧
      g.pop reg = .ok (inst, { g with reservationStationMap := m }) := by
  have hloop : firstIndex (fun inst_idx => readCell g.reservationStationMap reg inst_idx)
      (fun c => decide (0 ≠ c)) g.numReservationStations.toNat 0 = .ok (some s) := by
    apply firstIndex_hit _ _ _ 0 s c (Nat.zero_le _) (by omega) hc
    · simpa using fun e : 0 = c => hne e.symm
    · intro j _ hj
      exact ⟨0, hbefore j hj, by simp⟩
  obtain ⟨m, hm⟩ := writeCell_isSome (c - 1) hc
  refine ⟨m, hm, ?_⟩
  unfold pop
  simp only [hloop, hinst, hc, hm]

theorem pop_of_zero {g : DependencyGraphReg} {reg : RegIndex}
    (h : ∀ j, j < g.numReservationStations.toNat →
      readCell g.reservationStationMap reg j = some 0) :
    g.pop reg = .ok (NULL, g) := by
  have hloop : firstIndex (fun inst_idx => readCell g.reservationStationMap reg inst_idx)
      (fun c => decide (0 ≠ c)) g.numReservationStations.toNat 0 = .ok none := by
    apply firstIndex_miss
    intro j _ hj
    exact ⟨0, h j (by omega), by simp⟩
  unfold pop
  simp only [hloop]

theorem remove_of_unique {g : DependencyGraphReg} {x : DynInstPtr} {s : Nat}
    (hn : g.instructions.length = g.numReservationStations.toNat)
    (hx : g.instructions[s]? = some x)
    (hothers : ∀ j : Nat, j ≠ s → g.instructions[j]? ≠ some x) (reg : RegIndex) :
    g.remove reg x =
      match writeCell g.reservationStationMap reg s 0 with
      | none => .outOfBounds
      | some m => .ok { g with reservationStationMap := m } := by
  have hs := slot_bound hn hx
  have hloop : uniqueIndex (fun idx => g.instructions[idx]?) (fun v => decide (v = x))
      g.numReservationStations.toNat 0 none = .ok (some s) := by
    apply uniqueIndex_hit _ _ _ 0 s x (Nat.zero_le _) (by omega) hx (by simp)
    intro j _ hj hjs
    obtain ⟨w, hw⟩ := slot_read hn j (by omega)
    refine ⟨w, hw, ?_⟩
    have := hothers j hjs
    rw [hw] at this
    simpa using fun e : w = x => this (by rw [e])
  unfold remove
  simp only [hloop]

theorem remove_of_absent {g : DependencyGraphReg} {x : DynInstPtr}
    (hn : g.instructions.length = g.numReservationStations.toNat)
    (habs : ∀ j : Nat, g.instructions[j]? ≠ some x) (reg : RegIndex) :
    g.remove reg x = .assertFailed g := by
  have hloop : uniqueIndex (fun idx => g.instructions[idx]?) (fun v => decide (v = x))
      g.numReservationStations.toNat 0 none = .ok none := by
    apply uniqueIndex_miss
    intro j _ hj
    obtain ⟨w, hw⟩ := slot_read hn j (by omega)
    refine ⟨w, hw, ?_⟩
    have := habs j
    rw [hw] at this
    simpa using fun e : w = x => this (by rw [e])
  unfold remove
  simp only [hloop]

/-! ## Every reachable state is well formed -/

theorem WellFormed.of_resize (g0 : DependencyGraphReg) (P S : Int) :
    WellFormed P S (g0.resize P S) := by
  refine ⟨rfl, rfl, by simp [resize], by simp [resize], ?_, ?_⟩
  · intro r row h
    simp only [resize, List.getElem?_replicate] at h
    by_cases hr : r < P.toNat
    · simp only [hr, if_true, Option.some.injEq] at h
      subst h
      simp
    · simp [hr] at h
  · intro i j x hi _
    simp only [resize, List.getElem?_replicate] at hi
    by_cases h : i < S.toNat
    · simp [h] at hi
    · simp [h] at hi

theorem WellFormed.of_writeCell {P S : Int} {g : DependencyGraphReg} (hg : WellFormed P S g)
    {r i : Nat} {v : Int} {m : List (List Int)}
    (h : writeCell g.reservationStationMap r i v = some m) :
    WellFormed P S { g with reservationStationMap := m } :=
  ⟨hg.numRS, hg.numPR, hg.slots, by simpa [writeCell_length h] using hg.rows,
    writeCell_row_length h hg.cols, hg.uniq⟩

theorem WellFormed.of_insert {P S : Int} {g g' : DependencyGraphReg} (hg : WellFormed P S g)
    {reg : RegIndex} {x : DynInstPtr} (h : g.insert reg x = .ok g') : WellFormed P S g' := by
  have hn : g.instructions.length = g.numReservationStations.toNat := by
    rw [hg.slots, hg.numRS]
  rcases slot_first_or_absent g.instructions x with ⟨s, hx, hfirst⟩ | habs
  · rw [insert_of_tracked hn hx hfirst] at h
    split at h
    · cases h
    · split at h
      · cases h
      · rename_i hw
        cases h
        exact hg.of_writeCell hw
  · rcases slot_first_or_absent g.instructions NULL with ⟨s, hfree, hfirst⟩ | hfull
    · rw [insert_of_untracked hn habs hfree hfirst] at h
      split at h
      · cases h
      · split at h
        · cases h
        · rename_i hw
          cases h
          have hw' := hg.of_writeCell hw
          refine ⟨hw'.numRS, hw'.numPR, by simpa using hg.slots, hw'.rows, hw'.cols, ?_⟩
          intro i j y hi hj
          simp only [List.getElem?_set] at hi hj
          by_cases his : s = i
          · by_cases hjs : s = j
            · omega
            · simp only [his, if_true] at hi
              simp only [hjs, if_false] at hj
              split at hi
              · cases hi
                exact absurd hj (habs j)
              · cases hi
          · by_cases hjs : s = j
            · simp only [hjs, if_true] at hj
              simp only [his, if_false] at hi
              split at hj
              · cases hj
                exact absurd hi (habs i)
              · cases hj
            · simp only [his, if_false] at hi
              simp only [hjs, if_false] at hj
              exact hg.uniq i j y hi hj
    · rw [insert_of_full hn habs hfull] at h
      cases h

theorem WellFormed.of_remove {P S : Int} {g g' : DependencyGraphReg} (hg : WellFormed P S g)
    {reg : RegIndex} {x : DynInstPtr} (h : g.remove reg x = .ok g') : WellFormed P S g' := by
  unfold remove at h
  split at h
  · cases h
  · cases h
  · cases h
  · split at h
    · cases h
    · rename_i hw
      cases h
      exact hg.of_writeCell hw

theorem WellFormed.of_retract {P S : Int} {g g' : DependencyGraphReg} (hg : WellFormed P S g)
    {x : DynInstPtr} (h : g.retract x = .ok g') : WellFormed P S g' := by
  unfold retract at h
  split at h
  · cases h
  · cases h
  · cases h
    exact hg
  · split at h
    · cases h
    · rename_i s _ _ instrs hw
      cases h
      unfold writeSlot at hw
      split at hw
      · cases hw
        refine ⟨hg.numRS, hg.numPR, by simpa using hg.slots, hg.rows, hg.cols, ?_⟩
        intro i j y hi hj
        simp only [List.getElem?_set] at hi hj
        by_cases his : s = i
        · simp only [his, if_true] at hi
          split at hi
          · cases hi
          · cases hi
        · by_cases hjs : s = j
          · simp only [hjs, if_true] at hj
            split at hj
            · cases hj
            · cases hj
          · simp only [his, if_false] at hi
            simp only [hjs, if_false] at hj
            exact hg.uniq i j y hi hj
      · cases hw

theorem WellFormed.of_pop {P S : Int} {g g' : DependencyGraphReg} (hg : WellFormed P S g)
    {reg : RegIndex} {x : DynInstPtr} (h : g.pop reg = .ok (x, g')) : WellFormed P S g' := by
  unfold pop at h
  split at h
  · cases h
  · cases h
    exact hg
  · split at h
    · cases h
    · split at h
      · cases h
      · split at h
        · cases h
        · rename_i hw
          cases h
          exact hg.of_writeCell hw

theorem Reachable.wellFormed {P S : Int} {g : DependencyGraphReg} (h : Reachable P S g) :
    WellFormed P S g := by
  induction h with
  | resize g0 => exact WellFormed.of_resize g0 P S
  | reset _ ih => exact ih
  | setInst _ _ _ ih => exact ih
  | clearInst _ _ ih => exact ih
  | insert _ _ _ hstep ih => exact ih.of_insert hstep
  | remove _ _ _ hstep ih => exact ih.of_remove hstep
  | retract _ _ hstep ih => exact ih.of_retract hstep
  | pop _ _ _ hstep ih => exact ih.of_pop hstep

/-! ## What `insert` does on a well-formed state -/

theorem WellFormed.slots_eq {P S : Int} {g : DependencyGraphReg} (hg : WellFormed P S g) :
    g.instructions.length = g.numReservationStations.toNat := by
  rw [hg.slots, hg.numRS]

theorem WellFormed.read {P S : Int} {g : DependencyGraphReg} (hg : WellFormed P S g)
    {reg s : Nat} (hreg : (reg : Int) < P) (hs : s < S.toNat) :
    ∃ c, readCell g.reservationStationMap reg s = some c :=
  readCell_isSome hg.cols (by rw [hg.rows]; omega) hs

/-- On a well-formed state and a register in range, `insert` either writes into the
chosen slot and returns normally, or finds neither the handle nor a free slot and
fails its assertion with nothing written. -/
theorem insert_total {P S : Int} {g : DependencyGraphReg} (hg : WellFormed P S g)
    {reg : RegIndex} (hreg : (reg : Int) < P) (x : DynInstPtr) :
    (∃ s c m, ChosenSlot g x s ∧ s < S.toNat ∧
        readCell g.reservationStationMap reg s = some c ∧
        writeCell g.reservationStationMap reg s (c + 1) = some m ∧
        g.insert reg x =
          .ok { g with instructions := g.instructions.set s x, reservationStationMap := m }) ∨
    ((∀ j : Nat, g.instructions[j]? ≠ some x) ∧ (∀ j : Nat, g.instructions[j]? ≠ some NULL) ∧
        g.insert reg x = .assertFailed g) := by
  have hn := hg.slots_eq
  rcases slot_first_or_absent g.instructions x with ⟨s, hx, hfirst⟩ | habs
  · left
    have hs : s < S.toNat := by
      have := slot_bound hn hx
      rw [hg.numRS] at this
      exact this
    obtain ⟨c, hc⟩ := hg.read hreg hs
    obtain ⟨m, hm⟩ := writeCell_isSome (c + 1) hc
    refine ⟨s, c, m, Or.inl ⟨hx, hfirst⟩, hs, hc, hm, ?_⟩
    rw [insert_of_tracked hn hx hfirst]
    simp only [hc, hm, set_same_of_getElem? hx]
  · rcases slot_first_or_absent g.instructions NULL with ⟨s, hfree, hfirst⟩ | hfull
    · left
      have hs : s < S.toNat := by
        have := slot_bound hn hfree
        rw [hg.numRS] at this
        exact this
      obtain ⟨c, hc⟩ := hg.read hreg hs
      obtain ⟨m, hm⟩ := writeCell_isSome (c + 1) hc
      refine ⟨s, c, m, Or.inr ⟨habs, hfree, hfirst⟩, hs, hc, hm, ?_⟩
      rw [insert_of_untracked hn habs hfree hfirst]
      simp only [hc, hm]
    · right
      exact ⟨habs, hfull, insert_of_full hn habs hfull reg⟩

/-- A call of `insert` that returns normally wrote into the chosen slot. -/
theorem insert_ok_inv {P S : Int} {g g' : DependencyGraphReg} (hg : WellFormed P S g)
    {reg : RegIndex} {x : DynInstPtr} (h : g.insert reg x = .ok g') :
    ∃ s c m, ChosenSlot g x s ∧ s < S.toNat ∧
      readCell g.reservationStationMap reg s = some c ∧
      writeCell g.reservationStationMap reg s (c + 1) = some m ∧
      g' = { g with instructions := g.instructions.set s x, reservationStationMap := m } := by
  have hn := hg.slots_eq
  rcases slot_first_or_absent g.instructions x with ⟨s, hx, hfirst⟩ | habs
  · have hs : s < S.toNat := by
      have := slot_bound hn hx
      rw [hg.numRS] at this
      exact this
    rw [insert_of_tracked hn hx hfirst] at h
    split at h
    · cases h
    · rename_i c hc
      split at h
      · cases h
      · rename_i m hm
        cases h
        exact ⟨s, c, m, Or.inl ⟨hx, hfirst⟩, hs, hc, hm, by rw [set_same_of_getElem? hx]⟩
  · rcases slot_first_or_absent g.instructions NULL with ⟨s, hfree, hfirst⟩ | hfull
    · have hs : s < S.toNat := by
        have := slot_bound hn hfree
        rw [hg.numRS] at this
        exact this
      rw [insert_of_untracked hn habs hfree hfirst] at h
      split at h
      · cases h
      · rename_i c hc
        split at h
        · cases h
        · rename_i m hm
          cases h
          exact ⟨s, c, m, Or.inr ⟨habs, hfree, hfirst⟩, hs, hc, hm, rfl⟩
    · rw [insert_of_full hn habs hfull] at h
      cases h

theorem reachable_stateA : Reachable 4 2 stateA :=
  Reachable.insert 1 (some 10) (Reachable.resize fresh) (by decide)

/-- Inserting an instruction that already holds slot `s` only raises the counter
at `(reg, s)`. -/
theorem insert_tracked_spec {P S : Int} {g : DependencyGraphReg} (hg : WellFormed P S g)
    {reg : RegIndex} (hreg : (reg : Int) < P) {X s : Nat}
    (hocc : g.instructions[s]? = some (some X)) :
    ∃ c m, readCell g.reservationStationMap reg s = some c ∧
      writeCell g.reservationStationMap reg s (c + 1) = some m ∧
      g.insert reg (some X) = .ok { g with reservationStationMap := m } := by
  rcases insert_total hg hreg (some X) with ⟨s', c, m, hch, _, hc, hm, hins⟩ | ⟨habs, _, _⟩
  · rcases hch with ⟨hx, _⟩ | ⟨habs, _, _⟩
    · have hss : s' = s := hg.uniq s' s X hx hocc
      subst hss
      refine ⟨c, m, hc, hm, ?_⟩
      rw [hins, set_same_of_getElem? hx]
    · exact absurd hocc (habs s)
  · exact absurd hocc (habs s)

/-- When slot `s` holds the only nonzero counter of register `r`, `pop(r)` returns
the handle of slot `s` and lowers that counter by one. -/
theorem pop_single {P S : Int} {g : DependencyGraphReg} (hw : WellFormed P S g)
    {r : RegIndex} {s : Nat} {c : Int} {inst : DynInstPtr}
    (hc : g.counter r s = some c) (hne : c ≠ 0)
    (hother : ∀ (j : Nat) (d : Int), j ≠ s → g.counter r j = some d → d = 0)
    (hinst : g.instructions[s]? = some inst) :
    ∃ g', g.pop r = .ok (inst, g') ∧ WellFormed P S g' ∧ g'.instructions = g.instructions ∧
      g'.counter r s = some (c - 1) ∧
      ∀ (j : Nat) (d : Int), j ≠ s → g'.counter r j = some d → d = 0 := by
  have hb := readCell_bounds hw.cols hc
  have hbefore : ∀ j, j < s → readCell g.reservationStationMap r j = some 0 := by
    intro j hj
    obtain ⟨d, hd⟩ := readCell_isSome hw.cols hb.1 (show j < S.toNat by omega)
    rw [hd, hother j d (by omega) hd]
  obtain ⟨m, hm, hpop⟩ := pop_of_first (by rw [hw.numRS]; exact hb.2) hc hne hbefore hinst
  refine ⟨_, hpop, hw.of_writeCell hm, rfl, ?_, ?_⟩
  · simp [counter, readCell_writeCell hm]
  · intro j d hj hd
    have hd' : g.counter r j = some d := by
      simpa [counter, readCell_writeCell hm, hj] using hd
    exact hother j d hj hd'

/-- When every counter of an in-range register `r` is zero, `pop(r)` returns the
null handle and changes nothing. -/
theorem pop_all_zero {P S : Int} {g : DependencyGraphReg} (hw : WellFormed P S g)
    {r : RegIndex} (hr : r < g.reservationStationMap.length)
    (hzero : ∀ (j : Nat) (d : Int), g.counter r j = some d → d = 0) :
    g.pop r = .ok (NULL, g) := by
  apply pop_of_zero
  intro j hj
  rw [hw.numRS] at hj
  obtain ⟨d, hd⟩ := readCell_isSome hw.cols hr hj
  rw [hd, hzero j d hd]

/-- Filling the table: when the slot table holds the instructions `done` followed
by as many free slots as there are calls left, and all instructions are distinct,
every call returns normally and the instructions end up in the slots in call
order. -/
theorem insertAll_fill {P S : Int} :
    ∀ (ops : List (RegIndex × Nat)) (g : DependencyGraphReg) (done : List Nat),
      WellFormed P S g →
      g.instructions = done.map some ++ List.replicate ops.length NULL →
      (done ++ ops.map Prod.snd).Nodup →
      (∀ op ∈ ops, (op.1 : Int) < P) →
      ∃ g', insertAll g (ops.map fun op => (op.1, some op.2)) = .ok g' ∧
        WellFormed P S g' ∧ g'.instructions = (done ++ ops.map Prod.snd).map some := by
  intro ops
  induction ops with
  | nil =>
    intro g done hw hinstr _ _
    exact ⟨g, rfl, hw, by simpa using hinstr⟩
  | cons op rest ih =>
    intro g done hw hinstr hnodup hregs
    obtain ⟨r, X⟩ := op
    have hreg : (r : Int) < P := hregs (r, X) (List.mem_cons_self _ _)
    have hX : X ∉ done := by
      intro hmem
      have := List.nodup_append.mp hnodup
      exact this.2.2 hmem (by simp)
    have habs : ∀ j : Nat, g.instructions[j]? ≠ some (some X) := by
      intro j hj
      have hmem : some X ∈ g.instructions := List.getElem?_mem hj
      rw [hinstr] at hmem
      rcases List.mem_append.mp hmem with h1 | h1
      · rcases List.mem_map.mp h1 with ⟨d, hd, hde⟩
        cases hde
        exact hX hd
      · have := List.eq_of_mem_replicate h1
        cases this
    have hfree : g.instructions[done.length]? = some NULL := by
      rw [hinstr, List.getElem?_append_right (by simp)]
      simp
    have hfirst : ∀ j : Nat, j < done.length → g.instructions[j]? ≠ some NULL := by
      intro j hj
      rw [hinstr, List.getElem?_append_left (by simpa using hj)]
      simp [List.getElem?_map, List.getElem?_eq_getElem hj]
    have hs : done.length < S.toNat := by
      have := slot_bound hw.slots hfree
      exact this
    obtain ⟨c, hc⟩ := hw.read hreg hs
    obtain ⟨m, hm⟩ := writeCell_isSome (c + 1) hc
    have hins : g.insert r (some X) =
        .ok { g with instructions := g.instructions.set done.length (some X),
                     reservationStationMap := m } := by
      rw [insert_of_untracked hw.slots_eq habs hfree hfirst]
      simp only [hc, hm]
    have hw1 := hw.of_insert hins
    have hinstr1 : (g.instructions.set done.length (some X)) =
        (done ++ [X]).map some ++ List.replicate rest.length NULL := by
      rw [hinstr]
      simp [List.set_append, List.replicate_succ]
    have hnodup1 : ((done ++ [X]) ++ rest.map Prod.snd).Nodup := by
      simpa using hnodup
    obtain ⟨g', hall, hw', hinstr'⟩ := ih _ (done ++ [X]) hw1 hinstr1 hnodup1
      (fun op hop => hregs op (List.mem_cons_of_mem _ hop))
    refine ⟨g', ?_, hw', by simpa using hinstr'⟩
    simp only [List.map_cons, insertAll, hins]
    exact hall

theorem empty_of_zero {g : DependencyGraphReg} {reg : RegIndex}
    (h : ∀ j, j < g.numReservationStations.toNat →
      readCell g.reservationStationMap reg j = some 0) :
    g.empty reg = .ok true := by
  have hloop : firstIndex (fun inst_idx => readCell g.reservationStationMap reg inst_idx)
      (fun c => decide (0 ≠ c)) g.numReservationStations.toNat 0 = .ok none := by
    apply firstIndex_miss
    intro j _ hj
    exact ⟨0, h j (by omega), by simp⟩
  unfold empty
  simp only [hloop]

theorem empty_of_nonzero {g : DependencyGraphReg} {reg : RegIndex} {s : Nat} {c : Int}
    (hs : s < g.numReservationStations.toNat)
    (hc : readCell g.reservationStationMap reg s = some c) (hne : c ≠ 0)
    (hbefore : ∀ j, j < s → readCell g.reservationStationMap reg j = some 0) :
    g.empty reg = .ok false := by
  have hloop : firstIndex (fun inst_idx => readCell g.reservationStationMap reg inst_idx)
      (fun c => decide (0 ≠ c)) g.numReservationStations.toNat 0 = .ok (some s) := by
    apply firstIndex_hit _ _ _ 0 s c (Nat.zero_le _) (by omega) hc
    · simpa using fun e : 0 = c => hne e.symm
    · intro j _ hj
      exact ⟨0, hbefore j hj, by simp⟩
  unfold empty
  simp only [hloop]

/-! ## Reading a normal return backwards -/

theorem firstIndex_some_inv {α : Type} (read : Nat → Option α) (p : α → Bool) :
    ∀ (fuel idx i : Nat), firstIndex read p fuel idx = .ok (some i) →
      idx ≤ i ∧ i < idx + fuel ∧ (∃ v, read i = some v ∧ p v = true) ∧
      ∀ j, idx ≤ j → j < i → ∃ w, read j = some w ∧ p w = false := by
  intro fuel
  induction fuel with
  | zero =>
    intro idx i h
    simp [firstIndex] at h
  | succ n ih =>
    intro idx i h
    unfold firstIndex at h
    cases hr : read idx with
    | none => simp [hr] at h
    | some w =>
      simp only [hr] at h
      cases hp : p w with
      | true =>
        simp only [hp, if_true, Except.ok.injEq, Option.some.injEq] at h
        subst h
        refine ⟨Nat.le_refl _, by omega, ⟨w, hr, hp⟩, ?_⟩
        intro j h1 h2
        omega
      | false =>
        simp only [hp] at h
        obtain ⟨h1, h2, h3, h4⟩ := ih (idx + 1) i (by simpa using h)
        refine ⟨by omega, by omega, h3, ?_⟩
        intro j hj1 hj2
        by_cases hji : j = idx
        · subst hji
          exact ⟨w, hr, hp⟩
        · exact h4 j (by omega) hj2

theorem firstIndex_none_inv {α : Type} (read : Nat → Option α) (p : α → Bool) :
    ∀ (fuel idx : Nat), firstIndex read p fuel idx = .ok none →
      ∀ j, idx ≤ j → j < idx + fuel → ∃ w, read j = some w ∧ p w = false := by
  intro fuel
  induction fuel with
  | zero =>
    intro idx _ j h1 h2
    omega
  | succ n ih =>
    intro idx h
    unfold firstIndex at h
    cases hr : read idx with
    | none => simp [hr] at h
    | some w =>
      simp only [hr] at h
      cases hp : p w with
      | true => simp [hp] at h
      | false =>
        simp only [hp] at h
        have h4 := ih (idx + 1) (by simpa using h)
        intro j hj1 hj2
        by_cases hji : j = idx
        · subst hji
          exact ⟨w, hr, hp⟩
        · exact h4 j (by omega) (by omega)

theorem uniqueIndex_inv {α : Type} (read : Nat → Option α) (p : α → Bool) :
    ∀ (fuel idx : Nat) (acc r : Option Nat), uniqueIndex read p fuel idx acc = .ok r →
      r = acc ∨ ∃ i v, r = some i ∧ idx ≤ i ∧ i < idx + fuel ∧ read i = some v ∧ p v = true := by
  intro fuel
  induction fuel with
  | zero =>
    intro idx acc r h
    simp only [uniqueIndex, Except.ok.injEq] at h
    exact Or.inl h.symm
  | succ n ih =>
    intro idx acc r h
    cases hr : read idx with
    | none => simp [uniqueIndex, hr] at h
    | some w =>
      simp only [uniqueIndex, hr] at h
      cases hp : p w with
      | true =>
        simp only [hp, if_true] at h
        cases acc with
        | some a => simp at h
        | none =>
          simp only at h
          rcases ih (idx + 1) (some idx) r h with h1 | ⟨i, v, h1, h2, h3, h4, h5⟩
          · exact Or.inr ⟨idx, w, h1, Nat.le_refl _, by omega, hr, hp⟩
          · exact Or.inr ⟨i, v, h1, by omega, by omega, h4, h5⟩
      | false =>
        simp only [hp] at h
        rcases ih (idx + 1) acc r (by simpa using h) with h1 | ⟨i, v, h1, h2, h3, h4, h5⟩
        · exact Or.inl h1
        · exact Or.inr ⟨i, v, h1, by omega, by omega, h4, h5⟩

/-- A `pop` that returns normally either found every counter of the register zero
and changed nothing, or lowered the first nonzero counter of the register and
returned the handle of that slot. -/
theorem pop_inv {g g' : DependencyGraphReg} {reg : RegIndex} {x : DynInstPtr}
    (h : g.pop reg = .ok (x, g')) :
    (x = NULL ∧ g' = g ∧ ∀ j, j < g.numReservationStations.toNat →
        readCell g.reservationStationMap reg j = some 0) ∨
    (∃ s c m, s < g.numReservationStations.toNat ∧
        readCell g.reservationStationMap reg s = some c ∧ c ≠ 0 ∧
        (∀ j, j < s → readCell g.reservationStationMap reg j = some 0) ∧
        g.instructions[s]? = some x ∧
        writeCell g.reservationStationMap reg s (c - 1) = some m ∧
        g' = { g with reservationStationMap := m }) := by
  unfold pop at h
  split at h
  · cases h
  · rename_i hloop
    cases h
    left
    refine ⟨rfl, rfl, ?_⟩
    intro j hj
    obtain ⟨w, hw, hp⟩ := firstIndex_none_inv _ _ _ _ hloop j (Nat.zero_le _) (by omega)
    have : 0 = w := by simpa using hp
    rw [hw, ← this]
  · rename_i s hloop
    obtain ⟨_, hs, ⟨v, hv, hpv⟩, hbefore⟩ := firstIndex_some_inv _ _ _ _ _ hloop
    split at h
    · cases h
    · rename_i inst hinst
      split at h
      · cases h
      · rename_i c hc
        split at h
        · cases h
        · rename_i m hm
          cases h
          right
          have hcv : v = c := by
            rw [hc] at hv
            cases hv
            rfl
          subst hcv
          refine ⟨s, v, m, by omega, hc, ?_, ?_, hinst, hm, rfl⟩
          · intro h0
            subst h0
            simp at hpv
          · intro j hj
            obtain ⟨w, hw, hp⟩ := hbefore j (Nat.zero_le _) hj
            have : 0 = w := by simpa using hp
            rw [hw, ← this]

/-- A `remove` that returns normally zeroed the counter of a slot that holds the
handle. -/
theorem remove_inv {g g' : DependencyGraphReg} {reg : RegIndex} {x : DynInstPtr}
    (h : g.remove reg x = .ok g') :
    ∃ s m, g.instructions[s]? = some x ∧
      writeCell g.reservationStationMap reg s 0 = some m ∧
      g' = { g with reservationStationMap := m } := by
  unfold remove at h
  split at h
  · cases h
  · cases h
  · cases h
  · rename_i s hloop
    split at h
    · cases h
    · rename_i m hm
      cases h
      rcases uniqueIndex_inv _ _ _ _ _ _ hloop with h1 | ⟨i, v, h1, _, _, h4, h5⟩
      · cases h1
      · cases h1
        have : v = x := by simpa using h5
        subst this
        exact ⟨s, m, h4, hm, rfl⟩

/-- A `retract` that returns normally either changed nothing or nulled a slot that
held the handle. -/
theorem retract_inv {g g' : DependencyGraphReg} {x : DynInstPtr}
    (h : g.retract x = .ok g') :
    g' = g ∨ ∃ s, g.instructions[s]? = some x ∧
      g' = { g with instructions := g.instructions.set s NULL } := by
  unfold retract at h
  split at h
  · cases h
  · cases h
  · cases h
    exact Or.inl rfl
  · rename_i s hloop
    split at h
    · cases h
    · rename_i instrs hw
      cases h
      unfold writeSlot at hw
      split at hw
      · cases hw
        rcases uniqueIndex_inv _ _ _ _ _ _ hloop with h1 | ⟨i, v, h1, _, _, h4, h5⟩
        · cases h1
        · cases h1
          have : v = x := by simpa using h5
          subst this
          exact Or.inr ⟨s, h4, rfl⟩
      · cases hw

theorem retract_of_unique {g : DependencyGraphReg} {x : DynInstPtr} {s : Nat}
    (hn : g.instructions.length = g.numReservationStations.toNat)
    (hx : g.instructions[s]? = some x)
    (hothers : ∀ j : Nat, j ≠ s → g.instructions[j]? ≠ some x) :
    g.retract x = .ok { g with instructions := g.instructions.set s NULL } := by
  have hs := slot_bound hn hx
  have hloop : uniqueIndex (fun idx => g.instructions[idx]?) (fun v => decide (v = x))
      g.numReservationStations.toNat 0 none = .ok (some s) := by
    apply uniqueIndex_hit _ _ _ 0 s x (Nat.zero_le _) (by omega) hx (by simp)
    intro j _ hj hjs
    obtain ⟨w, hw⟩ := slot_read hn j (by omega)
    refine ⟨w, hw, ?_⟩
    have := hothers j hjs
    rw [hw] at this
    simpa using fun e : w = x => this (by rw [e])
  have hlen : s < g.instructions.length := by omega
  unfold retract
  simp only [hloop, writeSlot, hlen, if_true]

theorem retract_of_absent {g : DependencyGraphReg} {x : DynInstPtr}
    (hn : g.instructions.length = g.numReservationStations.toNat)
    (habs : ∀ j : Nat, g.instructions[j]? ≠ some x) :
    g.retract x = .ok g := by
  have hloop : uniqueIndex (fun idx => g.instructions[idx]?) (fun v => decide (v = x))
      g.numReservationStations.toNat 0 none = .ok none := by
    apply uniqueIndex_miss
    intro j _ hj
    obtain ⟨w, hw⟩ := slot_read hn j (by omega)
    refine ⟨w, hw, ?_⟩
    have := habs j
    rw [hw] at this
    simpa using fun e : w = x => this (by rw [e])
  unfold retract
  simp only [hloop]

/-- Retracting an instruction that holds slot `s` nulls that slot and nothing else. -/
theorem retract_tracked_spec {P S : Int} {g : DependencyGraphReg} (hw : WellFormed P S g)
    {X s : Nat} (hocc : g.instructions[s]? = some (some X)) :
    g.retract (some X) = .ok { g with instructions := g.instructions.set s NULL } :=
  retract_of_unique hw.slots_eq hocc (fun j hj h => hj (hw.uniq j s X h hocc))

theorem reachable_stateOne : Reachable 1 1 stateOne :=
  Reachable.insert 0 (some 10) (Reachable.resize fresh) (by decide)

theorem reachable_stateHigh : Reachable 4 2 stateHigh :=
  Reachable.insert 3 (some 10) (Reachable.resize fresh) (by decide)

theorem reachable_stateDrained : Reachable 1 1 stateDrained :=
  Reachable.pop 0 (some 10) reachable_stateOne (by decide)

theorem reachable_stateStaleTwo : Reachable 1 1 stateStaleTwo :=
  Reachable.retract (some 10)
    (Reachable.insert 0 (some 10) reachable_stateOne
      (show stateOne.insert 0 (some 10) = .ok stateTwo by decide))
    (by decide)

theorem reachable_stateStale : Reachable 1 1 stateStale :=
  Reachable.retract (some 10) reachable_stateOne (by decide)

/-! ## Sequences of calls -/

theorem Outcome.map_eq_ok {α β : Type} {f : α → β} {o : Outcome α} {b : β}
    (h : o.map f = .ok b) : ∃ a, o = .ok a ∧ f a = b := by
  cases o with
  | ok a =>
    simp only [Outcome.map, Outcome.ok.injEq] at h
    exact ⟨a, rfl, h⟩
  | assertFailed g => simp [Outcome.map] at h
  | outOfBounds => simp [Outcome.map] at h

/-- A step of `runCalls` that returns normally. -/
theorem runCalls_cons_ok {g g2 : DependencyGraphReg} {c : Call} {rest : List Call}
    {popped : List (RegIndex × DynInstPtr)}
    (h : runCalls g (c :: rest) = .ok (popped, g2)) :
    ∃ r g1 out, call g c = .ok (r, g1) ∧ runCalls g1 rest = .ok (out, g2) ∧
      popped = r.toList ++ out := by
  simp only [runCalls] at h
  split at h
  · rename_i r g1 hc
    obtain ⟨a, ha, hfa⟩ := Outcome.map_eq_ok h
    obtain ⟨out, g2'⟩ := a
    simp only [Prod.mk.injEq] at hfa
    obtain ⟨h1, h2⟩ := hfa
    subst h2
    exact ⟨r, g1, out, hc, ha, h1.symm⟩
  · cases h
  · cases h

theorem call_wellFormed {P S : Int} {g g' : DependencyGraphReg} (hw : WellFormed P S g)
    {c : Call} {r : Option (RegIndex × DynInstPtr)} (h : call g c = .ok (r, g')) :
    WellFormed P S g' := by
  cases c with
  | reset =>
    simp only [call, Outcome.ok.injEq, Prod.mk.injEq] at h
    rw [← h.2]
    exact hw
  | setInst idx x =>
    simp only [call, Outcome.ok.injEq, Prod.mk.injEq] at h
    rw [← h.2]
    exact hw
  | clearInst idx =>
    simp only [call, Outcome.ok.injEq, Prod.mk.injEq] at h
    rw [← h.2]
    exact hw
  | insert r' y =>
    obtain ⟨a, ha, hfa⟩ := Outcome.map_eq_ok h
    simp only [Prod.mk.injEq] at hfa
    rw [← hfa.2]
    exact hw.of_insert ha
  | remove r' y =>
    obtain ⟨a, ha, hfa⟩ := Outcome.map_eq_ok h
    simp only [Prod.mk.injEq] at hfa
    rw [← hfa.2]
    exact hw.of_remove ha
  | retract y =>
    obtain ⟨a, ha, hfa⟩ := Outcome.map_eq_ok h
    simp only [Prod.mk.injEq] at hfa
    rw [← hfa.2]
    exact hw.of_retract ha
  | pop r' =>
    obtain ⟨a, ha, hfa⟩ := Outcome.map_eq_ok h
    obtain ⟨x, g1⟩ := a
    simp only [Prod.mk.injEq] at hfa
    rw [← hfa.2]
    exact hw.of_pop ha

/-- While `X` holds slot `s` and the counter at `(reg, s)` is zero, a call other
than `insert(reg, X)` and `retract(X)` keeps both facts, and if it is a `pop(reg)`
it does not return `X`. -/
theorem call_keeps_removed {P S : Int} {g g' : DependencyGraphReg} (hw : WellFormed P S g)
    {reg : RegIndex} {X s : Nat} (hocc : g.instructions[s]? = some (some X))
    (hzero : readCell g.reservationStationMap reg s = some 0)
    {c : Call} (h1 : c ≠ .insert reg (some X)) (h2 : c ≠ .retract (some X))
    {r : Option (RegIndex × DynInstPtr)} (h : call g c = .ok (r, g')) :
    g'.instructions[s]? = some (some X) ∧
    readCell g'.reservationStationMap reg s = some 0 ∧ r ≠ some (reg, some X) := by
  cases c with
  | reset =>
    simp only [call, Outcome.ok.injEq, Prod.mk.injEq] at h
    rw [← h.2, ← h.1]
    exact ⟨hocc, hzero, by simp⟩
  | setInst idx x =>
    simp only [call, Outcome.ok.injEq, Prod.mk.injEq] at h
    rw [← h.2, ← h.1]
    exact ⟨hocc, hzero, by simp⟩
  | clearInst idx =>
    simp only [call, Outcome.ok.injEq, Prod.mk.injEq] at h
    rw [← h.2, ← h.1]
    exact ⟨hocc, hzero, by simp⟩
  | insert r' y =>
    obtain ⟨a, ha, hfa⟩ := Outcome.map_eq_ok h
    simp only [Prod.mk.injEq] at hfa
    rw [← hfa.2, ← hfa.1]
    obtain ⟨s', c, m, hch, hs', hc, hm, hg'⟩ := insert_ok_inv hw ha
    have hkey : s' = s → y = some X ∧ r' ≠ reg := by
      intro hss
      subst hss
      rcases hch with ⟨hx, _⟩ | ⟨_, hnull, _⟩
      · rw [hocc] at hx
        cases hx
        refine ⟨rfl, ?_⟩
        intro hr
        subst hr
        exact h1 rfl
      · rw [hocc] at hnull
        cases hnull
    rw [hg']
    refine ⟨?_, ?_, by simp⟩
    · by_cases hss : s' = s
      · obtain ⟨hy, _⟩ := hkey hss
        subst hss
        have hlen : s' < g.instructions.length := by rw [hw.slots]; exact hs'
        simp [List.getElem?_set, hlen, hy]
      · simp only [List.getElem?_set, hss, if_false]
        exact hocc
    · have hne : ¬ (reg = r' ∧ s = s') := by
        rintro ⟨hr, hss⟩
        exact (hkey hss.symm).2 hr.symm
      simp only [readCell_writeCell hm, hne, if_false]
      exact hzero
  | remove r' y =>
    obtain ⟨a, ha, hfa⟩ := Outcome.map_eq_ok h
    simp only [Prod.mk.injEq] at hfa
    rw [← hfa.2, ← hfa.1]
    obtain ⟨s', m, _, hm, hg'⟩ := remove_inv ha
    rw [hg']
    refine ⟨hocc, ?_, by simp⟩
    simp only [readCell_writeCell hm]
    split
    · rfl
    · exact hzero
  | retract y =>
    obtain ⟨a, ha, hfa⟩ := Outcome.map_eq_ok h
    simp only [Prod.mk.injEq] at hfa
    rw [← hfa.2, ← hfa.1]
    rcases retract_inv ha with hg' | ⟨s', hy, hg'⟩
    · rw [hg']
      exact ⟨hocc, hzero, by simp⟩
    · rw [hg']
      refine ⟨?_, hzero, by simp⟩
      have hss : ¬ s' = s := by
        intro hss
        subst hss
        rw [hocc] at hy
        cases hy
        exact h2 rfl
      simp only [List.getElem?_set, hss, if_false]
      exact hocc
  | pop r' =>
    obtain ⟨a, ha, hfa⟩ := Outcome.map_eq_ok h
    obtain ⟨x, g1⟩ := a
    simp only [Prod.mk.injEq] at hfa
    rw [← hfa.2, ← hfa.1]
    rcases pop_inv ha with ⟨hx, hg', _⟩ | ⟨s', c, m, _, hc, hne, _, hinst, hm, hg'⟩
    · rw [hg', hx]
      exact ⟨hocc, hzero, by simp⟩
    · have hkey : ¬ (reg = r' ∧ s = s') := by
        rintro ⟨hr, hss⟩
        subst hr
        subst hss
        rw [hzero] at hc
        cases hc
        exact hne rfl
      rw [hg']
      refine ⟨hocc, ?_, ?_⟩
      · simp only [readCell_writeCell hm, hkey, if_false]
        exact hzero
      · intro heq
        simp only [Option.some.injEq, Prod.mk.injEq] at heq
        obtain ⟨hr, hx⟩ := heq
        subst hx
        exact hkey ⟨hr.symm, hw.uniq s s' X hocc hinst⟩

theorem runCalls_keeps_removed {P S : Int} {reg : RegIndex} {X s : Nat} :
    ∀ (calls : List Call) (g g2 : DependencyGraphReg)
      (popped : List (RegIndex × DynInstPtr)),
      WellFormed P S g → g.instructions[s]? = some (some X) →
      readCell g.reservationStationMap reg s = some 0 →
      (∀ c ∈ calls, c ≠ Call.insert reg (some X) ∧ c ≠ Call.retract (some X)) →
      runCalls g calls = .ok (popped, g2) → (reg, some X) ∉ popped := by
  intro calls
  induction calls with
  | nil =>
    intro g g2 popped _ _ _ _ h
    simp only [runCalls, Outcome.ok.injEq, Prod.mk.injEq] at h
    rw [← h.1]
    simp
  | cons c rest ih =>
    intro g g2 popped hw hocc hzero hcalls h
    obtain ⟨r, g1, out, hc, hrest, hpopped⟩ := runCalls_cons_ok h
    have hcc := hcalls c (List.mem_cons_self _ _)
    obtain ⟨hocc1, hzero1, hr⟩ := call_keeps_removed hw hocc hzero hcc.1 hcc.2 hc
    have hout := ih g1 g2 out (call_wellFormed hw hc) hocc1 hzero1
      (fun c' hc' => hcalls c' (List.mem_cons_of_mem _ hc')) hrest
    rw [hpopped]
    intro hmem
    rcases List.mem_append.mp hmem with h3 | h3
    · cases r with
      | none => simp at h3
      | some v =>
        simp only [Option.toList, List.mem_singleton] at h3
        exact hr (by rw [h3])
    · exact hout h3

/-- On a well-formed state `pop` of a register in range returns normally. -/
theorem pop_total {P S : Int} {g : DependencyGraphReg} (hw : WellFormed P S g)
    {reg : RegIndex} (hreg : (reg : Int) < P) :
    ∃ x g', g.pop reg = .ok (x, g') := by
  have hr : reg < g.reservationStationMap.length := by
    rw [hw.rows]
    exact Int.lt_toNat.mpr hreg
  by_cases hex : ∃ i c, readCell g.reservationStationMap reg i = some c ∧ c ≠ 0
  · obtain ⟨s, c, hs, hc, hne, hbefore⟩ := cell_first_nonzero hw.cols hex
    obtain ⟨inst, hinst⟩ := slot_read hw.slots s hs
    obtain ⟨m, _, hpop⟩ := pop_of_first (by rw [hw.numRS]; exact hs) hc hne hbefore hinst
    exact ⟨_, _, hpop⟩
  · refine ⟨NULL, g, pop_all_zero hw hr ?_⟩
    intro j d hd
    by_contra hne
    exact hex ⟨j, d, hd, hne⟩

theorem runCalls_pops_total {P S : Int} {reg : RegIndex} (hreg : (reg : Int) < P) :
    ∀ (n : Nat) (g : DependencyGraphReg), WellFormed P S g →
      ∃ popped g2, runCalls g (List.replicate n (Call.pop reg)) = .ok (popped, g2) := by
  intro n
  induction n with
  | zero =>
    intro g _
    exact ⟨[], g, rfl⟩
  | succ n ih =>
    intro g hw
    obtain ⟨x, g1, hpop⟩ := pop_total hw hreg
    obtain ⟨popped, g2, hrun⟩ := ih g1 (hw.of_pop hpop)
    refine ⟨(reg, x) :: popped, g2, ?_⟩
    simp [List.replicate_succ, runCalls, call, hpop, hrun, Outcome.map]

/-- A `pop` of a register other than `reg` gives the same handle on two states that
agree off the row of `reg`, and the two states after it agree off that row again. -/
theorem pop_agree {reg r : RegIndex} {g g1 g2 : DependencyGraphReg} {x : DynInstPtr}
    (hag : AgreeOffRow reg g g1) (hr : r ≠ reg) (h : g.pop r = .ok (x, g2)) :
    ∃ g2', g1.pop r = .ok (x, g2') ∧ AgreeOffRow reg g2 g2' := by
  obtain ⟨hinstr, hnum, hrows⟩ := hag
  rcases pop_inv h with ⟨hx, hg2, hz⟩ | ⟨s, c, m, hs, hc, hne, hbefore, hinst, hm, hg2⟩
  · refine ⟨g1, ?_, ?_⟩
    · rw [hx]
      apply pop_of_zero
      intro j hj
      rw [hrows r j hr]
      exact hz j (by rw [← hnum]; exact hj)
    · rw [hg2]
      exact ⟨hinstr, hnum, hrows⟩
  · have hc1 : readCell g1.reservationStationMap r s = some c := by
      rw [hrows r s hr]
      exact hc
    obtain ⟨m', hm', hpop⟩ := pop_of_first (by rw [hnum]; exact hs) hc1 hne
      (fun j hj => by rw [hrows r j hr]; exact hbefore j hj)
      (by rw [hinstr]; exact hinst)
    refine ⟨_, hpop, ?_⟩
    rw [hg2]
    refine ⟨hinstr, hnum, ?_⟩
    intro r' j' hr'
    simp only [readCell_writeCell hm', readCell_writeCell hm]
    split
    · rfl
    · exact hrows r' j' hr'

theorem runCalls_pops_agree {reg : RegIndex} :
    ∀ (rs : List RegIndex) (g g1 g2 : DependencyGraphReg)
      (popped : List (RegIndex × DynInstPtr)),
      AgreeOffRow reg g g1 → (∀ r ∈ rs, r ≠ reg) →
      runCalls g (rs.map Call.pop) = .ok (popped, g2) →
      ∃ g2', runCalls g1 (rs.map Call.pop) = .ok (popped, g2') := by
  intro rs
  induction rs with
  | nil =>
    intro g g1 g2 popped _ _ h
    simp only [List.map_nil, runCalls, Outcome.ok.injEq, Prod.mk.injEq] at h
    exact ⟨g1, by simp [runCalls, h.1]⟩
  | cons r rest ih =>
    intro g g1 g2 popped hag hrs h
    rw [List.map_cons] at h
    obtain ⟨res, ga, out, hc, hrest, hpopped⟩ := runCalls_cons_ok h
    obtain ⟨a, ha, hfa⟩ := Outcome.map_eq_ok hc
    obtain ⟨x, ga'⟩ := a
    simp only [Prod.mk.injEq] at hfa
    obtain ⟨hres, hga⟩ := hfa
    subst hga
    obtain ⟨gb, hpop1, hag1⟩ := pop_agree hag (hrs r (List.mem_cons_self _ _)) ha
    obtain ⟨g2', hrun⟩ := ih ga' gb g2 out hag1
      (fun r' hr' => hrs r' (List.mem_cons_of_mem _ hr')) hrest
    refine ⟨g2', ?_⟩
    rw [hpopped, ← hres]
    simp [runCalls, call, hpop1, hrun, Outcome.map]

/-! ## Counters never go below zero -/

theorem resize_counter_zero (g0 : DependencyGraphReg) (P S : Int) (r j : Nat) (c : Int)
    (h : (g0.resize P S).counter r j = some c) : c = 0 := by
  simp only [counter, resize, readCell, List.getElem?_replicate] at h
  by_cases hr : r < P.toNat
  · simp only [hr, if_true, List.getElem?_replicate] at h
    by_cases hj : j < S.toNat
    · simp only [hj, if_true, Option.some.injEq] at h
      exact h.symm
    · simp [hj] at h
  · simp [hr] at h

theorem NonNeg.after_writeCell {g : DependencyGraphReg} (h : NonNeg g) {r i : Nat} {v : Int}
    {m : List (List Int)} {l : List DynInstPtr} (hv : 0 ≤ v)
    (hm : writeCell g.reservationStationMap r i v = some m) :
    NonNeg { g with instructions := l, reservationStationMap := m } := by
  intro r' j' c hc
  simp only [counter, readCell_writeCell hm] at hc
  split at hc
  · cases hc
    exact hv
  · exact h r' j' c hc

theorem NonNeg.after_pop {g g' : DependencyGraphReg} (h : NonNeg g) {reg : RegIndex}
    {x : DynInstPtr} (hpop : g.pop reg = .ok (x, g')) : NonNeg g' := by
  rcases pop_inv hpop with ⟨_, hg', _⟩ | ⟨s, c, m, _, hc, hne, _, _, hm, hg'⟩
  · rw [hg']
    exact h
  · rw [hg']
    have hc0 : 0 ≤ c := h reg s c hc
    exact h.after_writeCell (l := g.instructions) (by omega) hm

theorem Reachable.nonNeg {P S : Int} {g : DependencyGraphReg} (h : Reachable P S g) :
    NonNeg g := by
  induction h with
  | resize g0 =>
    intro r j c hc
    rw [resize_counter_zero g0 P S r j c hc]
  | reset _ ih => exact ih
  | setInst _ _ _ ih => exact ih
  | clearInst _ _ ih => exact ih
  | insert _ _ hreach hstep ih =>
    obtain ⟨s, c, m, _, _, hc, hm, hg'⟩ := insert_ok_inv hreach.wellFormed hstep
    rw [hg']
    have hc0 : 0 ≤ c := ih _ s c hc
    exact ih.after_writeCell (by omega) hm
  | remove _ _ _ hstep ih =>
    obtain ⟨s, m, _, hm, hg'⟩ := remove_inv hstep
    rw [hg']
    exact ih.after_writeCell (Int.le_refl 0) hm
  | retract _ _ hstep ih =>
    rcases retract_inv hstep with hg' | ⟨s, _, hg'⟩
    · rw [hg']
      exact ih
    · rw [hg']
      exact ih
  | pop _ _ _ hstep ih => exact ih.after_pop hstep

/-! ## Row sums and draining a register -/

theorem rowSum_writeCell {g : DependencyGraphReg} {r s : Nat} {c v : Int}
    {m : List (List Int)} {l : List DynInstPtr}
    (hc : readCell g.reservationStationMap r s = some c)
    (hm : writeCell g.reservationStationMap r s v = some m) :
    rowSum { g with instructions := l, reservationStationMap := m } r =
      rowSum g r - c + v := by
  unfold readCell at hc
  unfold writeCell at hm
  cases hrow : g.reservationStationMap[r]? with
  | none => simp [hrow] at hc
  | some row =>
    simp only [hrow] at hc hm
    rcases List.getElem?_eq_some.mp hc with ⟨hs, hcs⟩
    rcases List.getElem?_eq_some.mp hrow with ⟨hr, _⟩
    simp only [hs, if_true, Option.some.injEq] at hm
    subst hm
    simp only [rowSum, hrow, Option.getD_some, List.getElem?_set, if_true, hr,
      List.sum_set', hs, dite_true, hcs]
    omega

theorem rowSum_writeCell_other {g : DependencyGraphReg} {r r' s : Nat} {v : Int}
    {m : List (List Int)} {l : List DynInstPtr} (hr : r' ≠ r)
    (hm : writeCell g.reservationStationMap r s v = some m) :
    rowSum { g with instructions := l, reservationStationMap := m } r' = rowSum g r' := by
  unfold writeCell at hm
  cases hrow : g.reservationStationMap[r]? with
  | none => simp [hrow] at hm
  | some row =>
    simp only [hrow] at hm
    split at hm
    · cases hm
      have hne : ¬ r = r' := fun e => hr e.symm
      simp [rowSum, List.getElem?_set, hne]
    · cases hm

theorem rowSum_nonneg {g : DependencyGraphReg} (h : NonNeg g) (r : RegIndex) :
    0 ≤ rowSum g r := by
  unfold rowSum
  cases hrow : g.reservationStationMap[r]? with
  | none => simp
  | some row =>
    simp only [Option.getD_some]
    apply List.sum_nonneg
    intro x hx
    obtain ⟨j, hj⟩ := List.getElem?_of_mem hx
    apply h r j x
    simp [counter, readCell, hrow, hj]

theorem WellFormed.counter_isSome {P S : Int} {g : DependencyGraphReg}
    (hw : WellFormed P S g) {r j : Nat} (hr : r < P.toNat) (hj : j < S.toNat) :
    ∃ c, g.counter r j = some c :=
  readCell_isSome hw.cols (by rw [hw.rows]; exact hr) hj

theorem WellFormed.counter_bounds {P S : Int} {g : DependencyGraphReg}
    (hw : WellFormed P S g) {r j : Nat} {c : Int} (h : g.counter r j = some c) :
    r < P.toNat ∧ j < S.toNat := by
  have := readCell_bounds hw.cols h
  rw [hw.rows] at this
  exact this

theorem popUntilNull_of_null {g g1 : DependencyGraphReg} {r : RegIndex}
    (h : g.pop r = .ok (NULL, g1)) :
    ∀ fuel, 1 ≤ fuel → popUntilNull g r fuel = some (.ok g1) := by
  intro fuel hfuel
  cases fuel with
  | zero => omega
  | succ f => simp [popUntilNull, h]

theorem popUntilNull_of_some {g g1 : DependencyGraphReg} {r : RegIndex} {X : Nat}
    (h : g.pop r = .ok (some X, g1)) (f : Nat) :
    popUntilNull g r (f + 1) = popUntilNull g1 r f := by
  simp [popUntilNull, h]

/-- Draining one register.  On a well-formed state with no negative and no stale
counter, calling `pop(r)` until it returns the null handle stops after finitely
many calls, in a state where every counter of `r` is zero; the slot table and the
other rows are as before. -/
theorem popUntilNull_drains {P S : Int} {r : RegIndex} (hr : (r : Int) < P) :
    ∀ (k : Nat) (g : DependencyGraphReg), WellFormed P S g → NonNeg g → NoStale g →
      rowSum g r ≤ (k : Int) →
      ∃ fuel0 g', (∀ fuel, fuel0 ≤ fuel → popUntilNull g r fuel = some (.ok g')) ∧
        WellFormed P S g' ∧ NonNeg g' ∧ NoStale g' ∧
        (∀ j c, g'.counter r j = some c → c = 0) ∧
        (∀ r' j, r' ≠ r → g'.counter r' j = g.counter r' j) := by
  intro k
  induction k with
  | zero =>
    intro g hw hnn hns hsum
    obtain ⟨x, g1, hpop⟩ := pop_total hw hr
    rcases pop_inv hpop with ⟨hx, hg1, hz⟩ | ⟨s, c, m, _, hc, hne, _, hinst, hm, hg1⟩
    · subst hx
      subst hg1
      refine ⟨1, g1, popUntilNull_of_null hpop, hw, hnn, hns, ?_, fun _ _ _ => rfl⟩
      intro j c hc
      have hb := hw.counter_bounds hc
      have := hz j (by rw [hw.numRS]; exact hb.2)
      rw [show g1.counter r j = readCell g1.reservationStationMap r j from rfl, this] at hc
      cases hc
      rfl
    · exfalso
      have hc0 : 0 ≤ c := hnn r s c hc
      have hnn1 : NonNeg g1 := hnn.after_pop hpop
      have h1 := rowSum_nonneg hnn1 r
      rw [hg1, rowSum_writeCell (l := g.instructions) hc hm] at h1
      omega
  | succ k ih =>
    intro g hw hnn hns hsum
    obtain ⟨x, g1, hpop⟩ := pop_total hw hr
    rcases pop_inv hpop with ⟨hx, hg1, hz⟩ | ⟨s, c, m, _, hc, hne, _, hinst, hm, hg1⟩
    · subst hx
      subst hg1
      refine ⟨1, g1, popUntilNull_of_null hpop, hw, hnn, hns, ?_, fun _ _ _ => rfl⟩
      intro j c hc
      have hb := hw.counter_bounds hc
      have := hz j (by rw [hw.numRS]; exact hb.2)
      rw [show g1.counter r j = readCell g1.reservationStationMap r j from rfl, this] at hc
      cases hc
      rfl
    · have hc0 : 0 ≤ c := hnn r s c hc
      obtain ⟨X, hX⟩ := hns r s c hc hne
      have hxX : x = some X := by
        rw [hinst] at hX
        cases hX
        rfl
      subst hxX
      have hw1 : WellFormed P S g1 := hw.of_pop hpop
      have hnn1 : NonNeg g1 := hnn.after_pop hpop
      have hns1 : NoStale g1 := by
        rw [hg1]
        intro r' j' c' hc' hne'
        simp only [counter, readCell_writeCell hm] at hc'
        split at hc'
        · rename_i heq
          rw [heq.2]
          exact ⟨X, hinst⟩
        · exact hns r' j' c' hc' hne'
      have hsum1 : rowSum g1 r ≤ (k : Int) := by
        rw [hg1, rowSum_writeCell (l := g.instructions) hc hm]
        push_cast at hsum
        omega
      obtain ⟨f, g', hrun, hw', hnn', hns', hzero', hframe'⟩ := ih g1 hw1 hnn1 hns1 hsum1
      refine ⟨f + 1, g', ?_, hw', hnn', hns', hzero', ?_⟩
      · intro fuel hfuel
        obtain ⟨f', hf'⟩ : ∃ f', fuel = f' + 1 := ⟨fuel - 1, by omega⟩
        subst hf'
        rw [popUntilNull_of_some hpop]
        exact hrun f' (by omega)
      · intro r' j hr'
        rw [hframe' r' j hr', hg1]
        have hne' : ¬ (r' = r ∧ j = s) := fun h => hr' h.1
        simp [counter, readCell_writeCell hm, hne']

/-- Draining the registers of a list, each below `P`, one after the other: the
caller stops after finitely many calls, every counter of every listed register is
then zero, and counters that were zero at the start are zero at the end. -/
theorem drainRegs_drains {P S : Int} :
    ∀ (rs : List RegIndex) (g : DependencyGraphReg), (∀ r ∈ rs, (r : Int) < P) →
      WellFormed P S g → NonNeg g → NoStale g →
      ∃ fuel0 g', (∀ fuel, fuel0 ≤ fuel → drainRegs fuel g rs = some (.ok g')) ∧
        WellFormed P S g' ∧
        (∀ r ∈ rs, ∀ j c, g'.counter r j = some c → c = 0) ∧
        (∀ r j, g.counter r j = some 0 → g'.counter r j = some 0) := by
  intro rs
  induction rs with
  | nil =>
    intro g _ hw _ _
    exact ⟨0, g, fun _ _ => rfl, hw, fun r hr => by simp at hr, fun _ _ h => h⟩
  | cons r rest ih =>
    intro g hrs hw hnn hns
    have hr : (r : Int) < P := hrs r (List.mem_cons_self _ _)
    obtain ⟨k, hk⟩ : ∃ k : Nat, rowSum g r ≤ (k : Int) :=
      ⟨(rowSum g r).toNat, Int.self_le_toNat _⟩
    obtain ⟨f1, g1, hrun1, hw1, hnn1, hns1, hzero1, hframe1⟩ :=
      popUntilNull_drains hr k g hw hnn hns hk
    obtain ⟨f2, g', hrun2, hw', hzero', hkeep'⟩ :=
      ih g1 (fun r' hr' => hrs r' (List.mem_cons_of_mem _ hr')) hw1 hnn1 hns1
    have hkeep1 : ∀ r' j, g.counter r' j = some 0 → g1.counter r' j = some 0 := by
      intro r' j h0
      by_cases hrr : r' = r
      · subst hrr
        have hb := hw.counter_bounds h0
        obtain ⟨c, hc⟩ := hw1.counter_isSome hb.1 hb.2
        rw [hc, hzero1 j c hc]
      · rw [hframe1 r' j hrr]
        exact h0
    refine ⟨max f1 f2, g', ?_, hw', ?_, fun r' j h0 => hkeep' r' j (hkeep1 r' j h0)⟩
    · intro fuel hfuel
      simp only [drainRegs, hrun1 fuel (by omega)]
      exact hrun2 fuel (by omega)
    · intro r' hr' j c hc
      rcases List.mem_cons.mp hr' with hrr | hrest
      · subst hrr
        have hb := hw'.counter_bounds hc
        obtain ⟨c1, hc1⟩ := hw1.counter_isSome hb.1 hb.2
        have h10 : c1 = 0 := hzero1 j c1 hc1
        subst h10
        rw [hkeep' r' j hc1] at hc
        cases hc
        rfl
      · exact hzero' r' hrest j c hc

theorem emptyLoop_all_true (g : DependencyGraphReg) :
    ∀ (fuel i : Nat), (∀ k, i ≤ k → k < i + fuel → g.empty k = .ok true) →
      emptyLoop g fuel i = .ok true := by
  intro fuel
  induction fuel with
  | zero =>
    intro i _
    rfl
  | succ n ih =>
    intro i h
    have h0 := h i (Nat.le_refl _) (by omega)
    simp only [emptyLoop, h0]
    exact ih (i + 1) (fun k hk1 hk2 => h k (by omega) (by omega))

/-- On a well-formed state whose counters are all zero, `empty(r)` is true for every
register below `P`, and `empty()` returns true when `S ≤ P`. -/
theorem empty_of_all_zero {P S : Int} {g : DependencyGraphReg} (hw : WellFormed P S g)
    (hzero : ∀ r j c, g.counter r j = some c → c = 0) :
    (∀ r : RegIndex, (r : Int) < P → g.empty r = .ok true) ∧
    (S ≤ P → g.emptyAll = .ok true) := by
  have hreg : ∀ r : Nat, r < P.toNat → g.empty r = .ok true := by
    intro r hr
    apply empty_of_zero
    intro j hj
    rw [hw.numRS] at hj
    obtain ⟨c, hc⟩ := hw.counter_isSome hr hj
    have hc0 := hzero r j c hc
    subst hc0
    exact hc
  refine ⟨fun r hr => hreg r (Int.lt_toNat.mpr hr), ?_⟩
  intro hSP
  unfold emptyAll
  apply emptyLoop_all_true
  intro k _ hk
  rw [hw.numRS] at hk
  exact hreg k (by omega)

/-! ## The ledger of outstanding dependencies -/

theorem Ledgered.reachable {b : Bool} {P S : Int} {g : DependencyGraphReg} {L : Ledger}
    (h : Ledgered b P S g L) : Reachable P S g := by
  induction h with
  | resize g0 => exact Reachable.resize g0
  | insert reg X _ hstep ih => exact Reachable.insert reg (some X) ih hstep
  | pop reg x _ hstep ih => exact Reachable.pop reg x ih hstep
  | remove reg X _ hstep ih => exact Reachable.remove reg (some X) ih hstep
  | retract X _ _ hstep ih => exact Reachable.retract (some X) ih hstep

theorem LedgerInv.step_insert {P S : Int} {g g' : DependencyGraphReg} {L : Ledger}
    (hw : WellFormed P S g) (ih : LedgerInv g L) {reg : RegIndex} {X : Nat}
    (hstep : g.insert reg (some X) = .ok g') : LedgerInv g' (ledgerCreated L reg X) := by
  obtain ⟨s, c0, m, hch, hs, hc0, hm, hg'⟩ := insert_ok_inv hw hstep
  have hlen : s < g.instructions.length := by rw [hw.slots]; exact hs
  have hXold : ∀ j : Nat, j ≠ s → g.instructions[j]? ≠ some (some X) := by
    intro j hj h
    rcases hch with ⟨hx, _⟩ | ⟨habs, _, _⟩
    · exact hj (hw.uniq j s X h hx)
    · exact habs j h
  have hpend : ∀ (r' : Nat) (c : Int), g.counter r' s = some c → c = L r' X := by
    intro r' c hc
    rcases hch with ⟨hx, _⟩ | ⟨habs, hnull, _⟩
    · exact ih.1 r' s c (some X) hc hx
    · rw [ih.1 r' s c none hc hnull, ih.2 X habs r']
      rfl
  have hsold : ∀ Y : Nat, Y ≠ X → g.instructions[s]? ≠ some (some Y) := by
    intro Y hY h
    rcases hch with ⟨hx, _⟩ | ⟨_, hnull, _⟩
    · rw [hx] at h
      cases h
      exact hY rfl
    · rw [hnull] at h
      cases h
  rw [hg']
  constructor
  · intro r' j c h hc hh
    simp only [counter, readCell_writeCell hm] at hc
    simp only [List.getElem?_set] at hh
    by_cases hj : j = s
    · subst hj
      simp only [if_true, hlen, Option.some.injEq] at hh
      subst hh
      by_cases hr : r' = reg
      · subst hr
        simp only [and_self, if_true, Option.some.injEq] at hc
        subst hc
        simp [pendingOf, ledgerCreated, hpend r' c0 hc0]
      · simp only [hr, false_and, if_false] at hc
        simp [pendingOf, ledgerCreated, hr, hpend r' c hc]
    · have hne : ¬ s = j := fun e => hj e.symm
      simp only [hj, and_false, if_false] at hc
      simp only [hne, if_false] at hh
      rw [ih.1 r' j c h hc hh]
      cases h with
      | none => rfl
      | some Y =>
        have hYX : ¬ Y = X := by
          intro e
          subst e
          exact hXold j hj hh
        simp [pendingOf, ledgerCreated, hYX]
  · intro Y hY r'
    have hYX : ¬ Y = X := by
      intro e
      subst e
      apply hY s
      simp [List.getElem?_set, hlen]
    have hYold : ∀ j : Nat, g.instructions[j]? ≠ some (some Y) := by
      intro j h
      by_cases hj : j = s
      · subst hj
        exact hsold Y hYX h
      · have hne : ¬ s = j := fun e => hj e.symm
        apply hY j
        simp only [List.getElem?_set, hne, if_false]
        exact h
    simp [ledgerCreated, hYX, ih.2 Y hYold r']

theorem LedgerInv.step_pop {P S : Int} {g g' : DependencyGraphReg} {L : Ledger}
    (hw : WellFormed P S g) (ih : LedgerInv g L) {reg : RegIndex} {x : DynInstPtr}
    (hstep : g.pop reg = .ok (x, g')) : LedgerInv g' (ledgerPopped L reg x) := by
  rcases pop_inv hstep with ⟨hx, hg', _⟩ | ⟨s, c, m, _, hc, hne, _, hinst, hm, hg'⟩
  · rw [hx, hg']
    exact ih
  · have hcx : c = pendingOf L reg x := ih.1 reg s c x hc hinst
    cases x with
    | none => exact absurd hcx hne
    | some X =>
      rw [hg']
      constructor
      · intro r' j c' h hc' hh
        simp only [counter, readCell_writeCell hm] at hc'
        by_cases hcell : r' = reg ∧ j = s
        · obtain ⟨hr, hj⟩ := hcell
          subst hr
          subst hj
          simp only [and_self, if_true, Option.some.injEq] at hc'
          have hhX : h = some X := by
            have : g.instructions[j]? = some h := hh
            rw [hinst] at this
            cases this
            rfl
          subst hhX
          subst hc'
          simp [ledgerPopped, ledgerResolved, pendingOf, hcx]
        · simp only [hcell, if_false] at hc'
          rw [ih.1 r' j c' h hc' hh]
          cases h with
          | none => rfl
          | some Y =>
            have hkey : ¬ (r' = reg ∧ Y = X) := by
              rintro ⟨hr, hY⟩
              subst hY
              exact hcell ⟨hr, hw.uniq j s Y hh hinst⟩
            simp [ledgerPopped, ledgerResolved, pendingOf, hkey]
      · intro Y hY r'
        have hYX : ¬ Y = X := by
          intro e
          subst e
          exact hY s hinst
        simp [ledgerPopped, ledgerResolved, hYX, ih.2 Y hY r']

theorem LedgerInv.step_remove {P S : Int} {g g' : DependencyGraphReg} {L : Ledger}
    (hw : WellFormed P S g) (ih : LedgerInv g L) {reg : RegIndex} {X : Nat}
    (hstep : g.remove reg (some X) = .ok g') : LedgerInv g' (ledgerCancelled L reg X) := by
  obtain ⟨s, m, hinst, hm, hg'⟩ := remove_inv hstep
  rw [hg']
  constructor
  · intro r' j c' h hc' hh
    simp only [counter, readCell_writeCell hm] at hc'
    by_cases hcell : r' = reg ∧ j = s
    · obtain ⟨hr, hj⟩ := hcell
      subst hr
      subst hj
      simp only [and_self, if_true, Option.some.injEq] at hc'
      have hhX : h = some X := by
        have : g.instructions[j]? = some h := hh
        rw [hinst] at this
        cases this
        rfl
      subst hhX
      subst hc'
      simp [ledgerCancelled, pendingOf]
    · simp only [hcell, if_false] at hc'
      rw [ih.1 r' j c' h hc' hh]
      cases h with
      | none => rfl
      | some Y =>
        have hkey : ¬ (r' = reg ∧ Y = X) := by
          rintro ⟨hr, hY⟩
          subst hY
          exact hcell ⟨hr, hw.uniq j s Y hh hinst⟩
        simp [ledgerCancelled, pendingOf, hkey]
  · intro Y hY r'
    have hYX : ¬ Y = X := by
      intro e
      subst e
      exact hY s hinst
    simp [ledgerCancelled, hYX, ih.2 Y hY r']

theorem LedgerInv.step_retract {g g' : DependencyGraphReg} {L : Ledger}
    (ih : LedgerInv g L) {X : Nat} (hnone : ∀ r : RegIndex, L r X = 0)
    (hstep : g.retract (some X) = .ok g') : LedgerInv g' L := by
  rcases retract_inv hstep with hg' | ⟨s, hinst, hg'⟩
  · rw [hg']
    exact ih
  · rw [hg']
    constructor
    · intro r' j c h hc hh
      simp only [List.getElem?_set] at hh
      by_cases hj : s = j
      · subst hj
        simp only [if_true] at hh
        split at hh
        · cases hh
          rw [ih.1 r' s c (some X) hc hinst]
          simp [pendingOf, hnone r']
        · cases hh
      · simp only [hj, if_false] at hh
        exact ih.1 r' j c h hc hh
    · intro Y hY r'
      by_cases hYX : Y = X
      · subst hYX
        exact hnone r'
      · apply ih.2 Y _ r'
        intro j h
        by_cases hj : s = j
        · subst hj
          rw [hinst] at h
          cases h
          exact hYX rfl
        · apply hY j
          simp only [List.getElem?_set, hj, if_false]
          exact h

theorem Ledgered.inv {P S : Int} {g : DependencyGraphReg} {L : Ledger}
    (h : Ledgered true P S g L) : LedgerInv g L := by
  induction h with
  | resize g0 =>
    constructor
    · intro r j c h hc hh
      rw [resize_counter_zero g0 P S r j c hc]
      simp only [DependencyGraphReg.resize, List.getElem?_replicate] at hh
      split at hh
      · cases hh
        rfl
      · cases hh
    · intro X _ r
      rfl
  | insert reg X hprev hstep ih => exact ih.step_insert hprev.reachable.wellFormed hstep
  | pop reg x hprev hstep ih => exact ih.step_pop hprev.reachable.wellFormed hstep
  | remove reg X hprev hstep ih => exact ih.step_remove hprev.reachable.wellFormed hstep
  | retract X _ hstrict hstep ih => exact ih.step_retract (hstrict rfl) hstep

/-- When the ledger matches the matrix slot by slot, the counters of a register in
range add up to the outstanding dependencies of the instructions held. -/
theorem rowSum_eq_of_inv {P S : Int} {g : DependencyGraphReg} {L : Ledger}
    (hw : WellFormed P S g) (hinv : LedgerInv g L) {r : RegIndex} (hr : (r : Int) < P) :
    rowSum g r = outstanding g L r := by
  have hr' : r < g.reservationStationMap.length := by
    rw [hw.rows]
    exact Int.lt_toNat.mpr hr
  have hrow : g.reservationStationMap[r]? = some g.reservationStationMap[r] :=
    List.getElem?_eq_getElem hr'
  have hlen := hw.cols r _ hrow
  have heq : g.reservationStationMap[r] = g.instructions.map (pendingOf L r) := by
    apply List.ext_getElem?
    intro j
    by_cases hj : j < S.toNat
    · obtain ⟨h, hh⟩ := slot_read hw.slots j hj
      have hc : g.counter r j = some (g.reservationStationMap[r])[j] := by
        simp only [counter, readCell, hrow]
        exact List.getElem?_eq_getElem (by omega)
      rw [List.getElem?_map, hh, List.getElem?_eq_getElem (by omega)]
      simp only [Option.map_some', Option.some.injEq]
      exact hinv.1 r j _ h hc hh
    · rw [List.getElem?_eq_none (by omega), List.getElem?_eq_none (by
        rw [List.length_map, hw.slots]
        omega)]
  simp only [rowSum, outstanding, hrow, Option.getD_some, heq]

/-! ## Scans that cannot fault -/

theorem uniqueIndex_total {α : Type} (read : Nat → Option α) (p : α → Bool) :
    ∀ (fuel idx : Nat) (acc : Option Nat),
      (∀ j, idx ≤ j → j < idx + fuel → ∃ w, read j = some w) →
      uniqueIndex read p fuel idx acc = .error .assertion ∨
        ∃ r, uniqueIndex read p fuel idx acc = .ok r := by
  intro fuel
  induction fuel with
  | zero =>
    intro idx acc _
    exact Or.inr ⟨acc, rfl⟩
  | succ n ih =>
    intro idx acc hread
    obtain ⟨w, hw⟩ := hread idx (Nat.le_refl _) (by omega)
    have hrest : ∀ j, idx + 1 ≤ j → j < idx + 1 + n → ∃ w, read j = some w :=
      fun j h1 h2 => hread j (by omega) (by omega)
    cases hp : p w with
    | true =>
      cases acc with
      | some a =>
        left
        simp [uniqueIndex, hw, hp]
      | none =>
        have hstep : uniqueIndex read p (n + 1) idx none =
            uniqueIndex read p n (idx + 1) (some idx) := by
          simp [uniqueIndex, hw, hp]
        rw [hstep]
        exact ih (idx + 1) (some idx) hrest
    | false =>
      have hstep : uniqueIndex read p (n + 1) idx acc =
          uniqueIndex read p n (idx + 1) acc := by
        simp [uniqueIndex, hw, hp]
      rw [hstep]
      exact ih (idx + 1) acc hrest

/-- In a well-formed state the scan of `remove` and `retract` for an instruction `X`
ends with the one slot that holds `X`, or with no slot; its assertion holds at every
step. -/
theorem scan_instruction {P S : Int} {g : DependencyGraphReg} (hw : WellFormed P S g)
    (X : Nat) :
    (∃ s : Nat, g.instructions[s]? = some (some X) ∧
      uniqueIndex (fun idx => g.instructions[idx]?) (fun v => decide (v = some X))
        g.numReservationStations.toNat 0 none = .ok (some s)) ∨
    ((∀ j : Nat, g.instructions[j]? ≠ some (some X)) ∧
      uniqueIndex (fun idx => g.instructions[idx]?) (fun v => decide (v = some X))
        g.numReservationStations.toNat 0 none = .ok none) := by
  have hn := hw.slots_eq
  by_cases hex : ∃ s : Nat, g.instructions[s]? = some (some X)
  · obtain ⟨s, hocc⟩ := hex
    left
    refine ⟨s, hocc, ?_⟩
    have hs := slot_bound hn hocc
    apply uniqueIndex_hit _ _ _ 0 s (some X) (Nat.zero_le _) (by omega) hocc (by simp)
    intro j _ hj hjs
    obtain ⟨w, hwj⟩ := slot_read hn j (by omega)
    refine ⟨w, hwj, ?_⟩
    have hne : w ≠ some X := by
      intro e
      rw [e] at hwj
      exact hjs (hw.uniq j s X hwj hocc)
    simpa using hne
  · right
    have habs : ∀ j : Nat, g.instructions[j]? ≠ some (some X) := fun j hj => hex ⟨j, hj⟩
    refine ⟨habs, ?_⟩
    apply uniqueIndex_miss
    intro j _ hj
    obtain ⟨w, hwj⟩ := slot_read hn j (by omega)
    refine ⟨w, hwj, ?_⟩
    have hne : w ≠ some X := by
      intro e
      rw [e] at hwj
      exact habs j hwj
    simpa using hne

/-- On a well-formed state `empty(r)` of a register in range returns normally, and
returns true exactly when every counter of the register is zero. -/
theorem empty_spec {P S : Int} {g : DependencyGraphReg} (hw : WellFormed P S g)
    {r : Nat} (hr : r < P.toNat) :
    ∃ b, g.empty r = .ok b ∧
      (b = true ↔ ∀ (j : Nat) (c : Int), g.counter r j = some c → c = 0) := by
  by_cases hex : ∃ i c, readCell g.reservationStationMap r i = some c ∧ c ≠ 0
  · obtain ⟨s, c, hs, hc, hne, hbefore⟩ := cell_first_nonzero hw.cols hex
    refine ⟨false, empty_of_nonzero (by rw [hw.numRS]; exact hs) hc hne hbefore, ?_⟩
    constructor
    · intro h
      cases h
    · intro h
      exact absurd (h s c hc) hne
  · have hzero : ∀ (j : Nat) (c : Int), g.counter r j = some c → c = 0 := by
      intro j c hc
      by_contra hne
      exact hex ⟨j, c, hc, hne⟩
    refine ⟨true, ?_, ⟨fun _ => hzero, fun _ => rfl⟩⟩
    apply empty_of_zero
    intro j hj
    rw [hw.numRS] at hj
    obtain ⟨c, hc⟩ := hw.counter_isSome hr hj
    have := hzero j c hc
    subst this
    exact hc

theorem emptyLoop_spec (g : DependencyGraphReg) :
    ∀ (fuel i : Nat), (∀ k, i ≤ k → k < i + fuel → ∃ b, g.empty k = .ok b) →
      ∃ b, emptyLoop g fuel i = .ok b ∧
        (b = true ↔ ∀ k, i ≤ k → k < i + fuel → g.empty k = .ok true) := by
  intro fuel
  induction fuel with
  | zero =>
    intro i _
    refine ⟨true, rfl, ⟨fun _ => ?_, fun _ => rfl⟩⟩
    intro k h1 h2
    omega
  | succ n ih =>
    intro i h
    obtain ⟨b0, hb0⟩ := h i (Nat.le_refl _) (by omega)
    cases b0 with
    | false =>
      refine ⟨false, by simp [emptyLoop, hb0], ?_⟩
      constructor
      · intro hf
        cases hf
      · intro hall
        have := hall i (Nat.le_refl _) (by omega)
        rw [hb0] at this
        cases this
    | true =>
      obtain ⟨b, hb, hiff⟩ := ih (i + 1) (fun k h1 h2 => h k (by omega) (by omega))
      refine ⟨b, by simp [emptyLoop, hb0, hb], ?_⟩
      constructor
      · intro hbt k h1 h2
        by_cases hki : k = i
        · subst hki
          exact hb0
        · exact hiff.mp hbt k (by omega) (by omega)
      · intro hall
        exact hiff.mpr (fun k h1 h2 => hall k (by omega) (by omega))

/-- On a well-formed state `remove` on a register in range never indexes out of
range, whatever the handle. -/
theorem remove_no_oob {P S : Int} {g : DependencyGraphReg} (hw : WellFormed P S g)
    {reg : RegIndex} (hreg : (reg : Int) < P) (x : DynInstPtr) :
    g.remove reg x ≠ .outOfBounds := by
  have hn := hw.slots_eq
  have hread : ∀ j, 0 ≤ j → j < 0 + g.numReservationStations.toNat →
      ∃ w, g.instructions[j]? = some w := fun j _ hj => slot_read hn j (by omega)
  rcases uniqueIndex_total (fun idx => g.instructions[idx]?) (fun v => decide (v = x))
      g.numReservationStations.toNat 0 none hread with hscan | ⟨r, hscan⟩
  · intro h
    simp [remove, hscan] at h
  · cases r with
    | none =>
      intro h
      simp [remove, hscan] at h
    | some s =>
      rcases uniqueIndex_inv _ _ _ _ _ _ hscan with h1 | ⟨i, v, h1, _, _, h4, _⟩
      · cases h1
      · cases h1
        have hs : s < S.toNat := slot_bound hw.slots h4
        obtain ⟨c, hc⟩ := hw.read hreg hs
        obtain ⟨m, hm⟩ := writeCell_isSome 0 hc
        intro h
        simp [remove, hscan, hm] at h

/-! ## States reached without `retract` -/

theorem ReachableNoRetract.toReachable {P S : Int} {g : DependencyGraphReg}
    (h : ReachableNoRetract P S g) : Reachable P S g := by
  induction h with
  | resize g0 => exact Reachable.resize g0
  | insert reg X _ hstep ih => exact Reachable.insert reg (some X) ih hstep
  | pop reg x _ hstep ih => exact Reachable.pop reg x ih hstep
  | remove reg x _ hstep ih => exact Reachable.remove reg x ih hstep

theorem NoStale.kept_by_pop {g g' : DependencyGraphReg} (h : NoStale g) {reg : RegIndex}
    {x : DynInstPtr} (hpop : g.pop reg = .ok (x, g')) : NoStale g' := by
  rcases pop_inv hpop with ⟨_, hg', _⟩ | ⟨s, c, m, _, hc, hne, _, hinst, hm, hg'⟩
  · rw [hg']
    exact h
  · rw [hg']
    intro r' j' c' hc' hne'
    simp only [counter, readCell_writeCell hm] at hc'
    split at hc'
    · rename_i heq
      rw [heq.2]
      exact h reg s c hc hne
    · exact h r' j' c' hc' hne'

theorem ReachableNoRetract.noStale {P S : Int} {g : DependencyGraphReg}
    (h : ReachableNoRetract P S g) : NoStale g := by
  induction h with
  | resize g0 =>
    intro r j c hc hne
    exact absurd (resize_counter_zero g0 P S r j c hc) hne
  | insert reg X hprev hstep ih =>
    have hw := hprev.toReachable.wellFormed
    obtain ⟨s, c0, m, _, hs, _, hm, hg'⟩ := insert_ok_inv hw hstep
    have hlen := hs
    rw [← hw.slots] at hlen
    rw [hg']
    intro r j c hc hne
    by_cases hj : j = s
    · subst hj
      exact ⟨X, by simp [List.getElem?_set, hlen]⟩
    · have hsj : ¬ s = j := fun e => hj e.symm
      simp only [counter, readCell_writeCell hm, hj, and_false, if_false] at hc
      obtain ⟨Y, hY⟩ := ih r j c hc hne
      exact ⟨Y, by simp only [List.getElem?_set, hsj, if_false]; exact hY⟩
  | pop reg x _ hstep ih => exact ih.kept_by_pop hstep
  | remove reg x _ hstep ih =>
    obtain ⟨s, m, _, hm, hg'⟩ := remove_inv hstep
    rw [hg']
    intro r j c hc hne
    simp only [counter, readCell_writeCell hm] at hc
    split at hc
    · cases hc
      exact absurd rfl hne
    · exact ih r j c hc hne

theorem rowSum_zero_of_cells {P S : Int} {g : DependencyGraphReg} (hw : WellFormed P S g)
    (reg : RegIndex)
    (hz : ∀ j, j < S.toNat → readCell g.reservationStationMap reg j = some 0) :
    rowSum g reg = 0 := by
  unfold rowSum
  cases hrow : g.reservationStationMap[reg]? with
  | none => simp
  | some row =>
    simp only [Option.getD_some]
    apply List.sum_eq_zero
    intro x hx
    obtain ⟨j, hj⟩ := List.getElem?_of_mem hx
    have hjlen : j < row.length := (List.getElem?_eq_some.mp hj).1
    have hlen := hw.cols reg row hrow
    have := hz j (by omega)
    simp only [readCell, hrow, hj, Option.some.injEq] at this
    exact this

/-- With no negative and no stale counter, a `pop` returns the null handle exactly
when `empty` of the register is true. -/
theorem pop_null_iff_empty {g g1 : DependencyGraphReg} (hns : NoStale g)
    {reg : RegIndex} {x : DynInstPtr} (hpop : g.pop reg = .ok (x, g1)) :
    x = NULL ↔ g.empty reg = .ok true := by
  rcases pop_inv hpop with ⟨hx, _, hz⟩ | ⟨s, c, m, hs, hc, hne, hbefore, hinst, _, _⟩
  · exact ⟨fun _ => empty_of_zero hz, fun _ => hx⟩
  · obtain ⟨X, hX⟩ := hns reg s c hc hne
    rw [hinst] at hX
    cases hX
    constructor
    · intro h
      cases h
    · intro h
      rw [empty_of_nonzero hs hc hne hbefore] at h
      cases h

theorem runCalls_pop_cons {g g1 g' : DependencyGraphReg} {reg : RegIndex} {x : DynInstPtr}
    {rest : List Call} {out : List (RegIndex × DynInstPtr)}
    (hpop : g.pop reg = .ok (x, g1)) (hrun : runCalls g1 rest = .ok (out, g')) :
    runCalls g (Call.pop reg :: rest) = .ok ((reg, x) :: out, g') := by
  simp [runCalls, call, hpop, hrun, Outcome.map]

/-- The drain bound.  With no negative and no stale counter and counters of `reg`
that add up to `k`, the next `k` calls of `pop(reg)` return instructions held in
the slot table, the call after them returns the null handle, and `empty(reg)` is
then true. -/
theorem pops_drain {P S : Int} {reg : RegIndex} (hreg : (reg : Int) < P) :
    ∀ (k : Nat) (g : DependencyGraphReg), WellFormed P S g → NonNeg g → NoStale g →
      rowSum g reg = (k : Int) →
      ∃ (Xs : List Nat) (g' : DependencyGraphReg), Xs.length = k ∧
        runCalls g (List.replicate (k + 1) (Call.pop reg)) =
          .ok (Xs.map (fun X => (reg, some X)) ++ [(reg, NULL)], g') ∧
        (∀ X ∈ Xs, ∃ j : Nat, g.instructions[j]? = some (some X)) ∧
        g'.instructions = g.instructions ∧ g'.empty reg = .ok true := by
  intro k
  induction k with
  | zero =>
    intro g hw hnn hns hsum
    obtain ⟨x, g1, hpop⟩ := pop_total hw hreg
    rcases pop_inv hpop with ⟨hx, hg1, hz⟩ | ⟨s, c, m, _, hc, hne, _, _, hm, hg1⟩
    · subst hx
      subst hg1
      refine ⟨[], g1, rfl, ?_, fun X hX => by simp at hX, rfl, empty_of_zero hz⟩
      simp [runCalls, call, hpop, Outcome.map]
    · exfalso
      have hc0 : 0 ≤ c := hnn reg s c hc
      have h1 := rowSum_nonneg (hnn.after_pop hpop) reg
      rw [hg1, rowSum_writeCell (l := g.instructions) hc hm] at h1
      push_cast at hsum
      omega
  | succ k ih =>
    intro g hw hnn hns hsum
    obtain ⟨x, g1, hpop⟩ := pop_total hw hreg
    rcases pop_inv hpop with ⟨_, _, hz⟩ | ⟨s, c, m, _, hc, hne, _, hinst, hm, hg1⟩
    · exfalso
      have h0 := rowSum_zero_of_cells hw reg
        (fun j hj => hz j (by rw [hw.numRS]; exact hj))
      rw [h0] at hsum
      push_cast at hsum
      omega
    · obtain ⟨X, hX⟩ := hns reg s c hc hne
      have hxX : x = some X := by
        rw [hinst] at hX
        cases hX
        rfl
      subst hxX
      have hsum1 : rowSum g1 reg = (k : Int) := by
        rw [hg1, rowSum_writeCell (l := g.instructions) hc hm]
        push_cast at hsum
        omega
      have hinstr1 : g1.instructions = g.instructions := by rw [hg1]
      obtain ⟨Xs, g', hlen, hrun, hheld, hinstr, hempty⟩ :=
        ih g1 (hw.of_pop hpop) (hnn.after_pop hpop) (hns.kept_by_pop hpop) hsum1
      refine ⟨X :: Xs, g', by simp [hlen], ?_, ?_, by rw [hinstr, hinstr1], hempty⟩
      · rw [List.replicate_succ]
        exact runCalls_pop_cons hpop hrun
      · intro Y hY
        rcases List.mem_cons.mp hY with hYX | hYs
        · subst hYX
          exact ⟨s, hinst⟩
        · obtain ⟨j, hj⟩ := hheld Y hYs
          exact ⟨j, by rw [← hinstr1]; exact hj⟩

theorem reachable_stateThree : Reachable 2 3 stateThree :=
  Reachable.insert 0 (some 12)
    (Reachable.insert 0 (some 11)
      (Reachable.insert 1 (some 10) (Reachable.resize fresh)
        (show (fresh.resize 2 3).insert 1 (some 10) =
          .ok { stateThree with
                  instructions := [some 10, none, none]
                  reservationStationMap := [[0, 0, 0], [1, 0, 0]] } by decide))
      (show DependencyGraphReg.insert
          { stateThree with
              instructions := [some 10, none, none]
              reservationStationMap := [[0, 0, 0], [1, 0, 0]] } 0 (some 11) =
        .ok { stateThree with
                instructions := [some 10, some 11, none]
                reservationStationMap := [[0, 1, 0], [1, 0, 0]] } by decide))
    (show DependencyGraphReg.insert
        { stateThree with
            instructions := [some 10, some 11, none]
            reservationStationMap := [[0, 1, 0], [1, 0, 0]] } 0 (some 12) =
      .ok stateThree by decide)

/-! ## The claims -/

/-- C1. In a state reachable from `resize(P, S)`, for a register `reg < P` that has
a nonzero counter in some slot, `pop(reg)` returns the handle stored in the
lowest-index slot `s` whose counter at `(reg, s)` is nonzero, lowers that counter
by one, and leaves every other counter and the slot table as they were. -/
theorem pop_returns_first_waiter (P S : Int) (g : DependencyGraphReg)
    (hg : Reachable P S g) (reg : RegIndex) (hreg : (reg : Int) < P)
    (hsome : ∃ i c, g.counter reg i = some c ∧ c ≠ 0) :
    ∃ (s : Nat) (c : Int) (inst : DynInstPtr) (g' : DependencyGraphReg),
      g.pop reg = .ok (inst, g') ∧
      g.counter reg s = some c ∧ c ≠ 0 ∧ (∀ j, j < s → g.counter reg j = some 0) ∧
      g.instructions[s]? = some inst ∧
      g'.counter reg s = some (c - 1) ∧
      (∀ r j, ¬ (r = reg ∧ j = s) → g'.counter r j = g.counter r j) ∧
      g'.instructions = g.instructions := by
  have _ := hreg
  have hw := hg.wellFormed
  obtain ⟨s, c, hs, hc, hne, hbefore⟩ := cell_first_nonzero hw.cols hsome
  obtain ⟨inst, hinst⟩ := slot_read hw.slots s hs
  obtain ⟨m, hm, hpop⟩ := pop_of_first (by rw [hw.numRS]; exact hs) hc hne hbefore hinst
  refine ⟨s, c, inst, _, hpop, hc, hne, hbefore, hinst, ?_, ?_, rfl⟩
  · simp [counter, readCell_writeCell hm]
  · intro r j hrj
    simp [counter, readCell_writeCell hm, hrj]

theorem pop_returns_first_waiter_witness :
    Reachable 4 2 stateA ∧ ((1 : RegIndex) : Int) < 4 ∧
    (∃ i c, stateA.counter 1 i = some c ∧ c ≠ 0) ∧
    ∃ (s : Nat) (c : Int) (inst : DynInstPtr) (g' : DependencyGraphReg),
      stateA.pop 1 = .ok (inst, g') ∧
      stateA.counter 1 s = some c ∧ c ≠ 0 ∧ (∀ j, j < s → stateA.counter 1 j = some 0) ∧
      stateA.instructions[s]? = some inst ∧
      g'.counter 1 s = some (c - 1) ∧
      (∀ r j, ¬ (r = 1 ∧ j = s) → g'.counter r j = stateA.counter r j) ∧
      g'.instructions = stateA.instructions :=
  ⟨reachable_stateA, by decide, ⟨0, 1, by decide, by decide⟩,
    pop_returns_first_waiter 4 2 stateA reachable_stateA 1 (by decide)
      ⟨0, 1, by decide, by decide⟩⟩

/-- C2. In a reachable state, for `reg < P` and an instruction `X` that holds no slot
while some slot is free, `insert(reg, X)` stores `X` in the lowest-index free slot
`s`, raises the counter at `(reg, s)` by one, and leaves every other slot and every
other counter as they were. -/
theorem insert_untracked_takes_first_free (P S : Int) (g : DependencyGraphReg)
    (hg : Reachable P S g) (reg : RegIndex) (hreg : (reg : Int) < P) (X : Nat)
    (habs : ∀ j : Nat, g.instructions[j]? ≠ some (some X))
    (hfree : ∃ j : Nat, g.instructions[j]? = some NULL) :
    ∃ (s : Nat) (c : Int) (g' : DependencyGraphReg),
      g.insert reg (some X) = .ok g' ∧
      g.instructions[s]? = some NULL ∧ (∀ j : Nat, j < s → g.instructions[j]? ≠ some NULL) ∧
      g'.instructions[s]? = some (some X) ∧
      (∀ j : Nat, j ≠ s → g'.instructions[j]? = g.instructions[j]?) ∧
      g.counter reg s = some c ∧ g'.counter reg s = some (c + 1) ∧
      (∀ r j, ¬ (r = reg ∧ j = s) → g'.counter r j = g.counter r j) := by
  have hw := hg.wellFormed
  obtain ⟨f, hf⟩ := hfree
  rcases insert_total hw hreg (some X) with ⟨s, c, m, hch, hs, hc, hm, hins⟩ | ⟨_, hfull, _⟩
  · rcases hch with ⟨hx, _⟩ | ⟨_, hnull, hfirst⟩
    · exact absurd hx (habs s)
    · have hlen : s < g.instructions.length := by rw [hw.slots]; exact hs
      refine ⟨s, c, _, hins, hnull, hfirst, ?_, ?_, hc, ?_, ?_⟩
      · simp [List.getElem?_set, hlen]
      · intro j hj
        have hne : ¬ s = j := fun e => hj e.symm
        simp [List.getElem?_set, hne]
      · simp [counter, readCell_writeCell hm]
      · intro r j hrj
        simp [counter, readCell_writeCell hm, hrj]
  · exact absurd hf (hfull f)

theorem insert_untracked_takes_first_free_witness :
    Reachable 4 2 stateA ∧ ((3 : RegIndex) : Int) < 4 ∧
    (∀ j : Nat, stateA.instructions[j]? ≠ some (some 11)) ∧
    (∃ j : Nat, stateA.instructions[j]? = some NULL) ∧
    ∃ (s : Nat) (c : Int) (g' : DependencyGraphReg),
      stateA.insert 3 (some 11) = .ok g' ∧
      stateA.instructions[s]? = some NULL ∧
      (∀ j : Nat, j < s → stateA.instructions[j]? ≠ some NULL) ∧
      g'.instructions[s]? = some (some 11) ∧
      (∀ j : Nat, j ≠ s → g'.instructions[j]? = stateA.instructions[j]?) ∧
      stateA.counter 3 s = some c ∧ g'.counter 3 s = some (c + 1) ∧
      (∀ r j, ¬ (r = 3 ∧ j = s) → g'.counter r j = stateA.counter r j) :=
  have habs : ∀ j : Nat, stateA.instructions[j]? ≠ some (some 11) := by
    intro j
    match j with
    | 0 => decide
    | 1 => decide
    | n + 2 => simp [stateA]
  ⟨reachable_stateA, by decide, habs, ⟨1, by decide⟩,
    insert_untracked_takes_first_free 4 2 stateA reachable_stateA 3 (by decide) 11 habs
      ⟨1, by decide⟩⟩

/-- C3. In a reachable state, for an instruction `X` that already holds slot `s`,
`insert(reg, X)` with `reg < P` leaves the slot table as it was (so `X` holds slot
`s` and no other, whether or not a slot is free) and raises only the counter at
`(reg, s)`.  In particular, inserting `X` on register `A` and then on a different
register `B` keeps `X` in one slot `s` and raises the two counters at `(A, s)` and
`(B, s)`. -/
theorem insert_tracked_reuses_slot (P S : Int) (g : DependencyGraphReg)
    (hg : Reachable P S g) (X : Nat) :
    (∀ (reg : RegIndex) (s : Nat), (reg : Int) < P → g.instructions[s]? = some (some X) →
      ∃ (c : Int) (g' : DependencyGraphReg),
        g.insert reg (some X) = .ok g' ∧ g'.instructions = g.instructions ∧
        (∀ j : Nat, g'.instructions[j]? = some (some X) ↔ j = s) ∧
        g.counter reg s = some c ∧ g'.counter reg s = some (c + 1) ∧
        ∀ r j, ¬ (r = reg ∧ j = s) → g'.counter r j = g.counter r j) ∧
    (∀ (A B : RegIndex) (g1 : DependencyGraphReg), (A : Int) < P → (B : Int) < P → A ≠ B →
      g.insert A (some X) = .ok g1 →
      ∃ (s : Nat) (a b : Int) (g2 : DependencyGraphReg),
        g1.insert B (some X) = .ok g2 ∧ g2.instructions = g1.instructions ∧
        (∀ j : Nat, g2.instructions[j]? = some (some X) ↔ j = s) ∧
        g.counter A s = some a ∧ g.counter B s = some b ∧
        g2.counter A s = some (a + 1) ∧ g2.counter B s = some (b + 1) ∧
        ∀ r j, ¬ (j = s ∧ (r = A ∨ r = B)) → g2.counter r j = g.counter r j) := by
  have hw := hg.wellFormed
  constructor
  · intro reg s hreg hocc
    obtain ⟨c, m, hc, hm, hins⟩ := insert_tracked_spec hw hreg hocc
    refine ⟨c, _, hins, rfl, ?_, hc, ?_, ?_⟩
    · intro j
      constructor
      · intro hj
        exact hw.uniq j s X hj hocc
      · intro hj
        rw [hj]
        exact hocc
    · simp [counter, readCell_writeCell hm]
    · intro r j hrj
      simp [counter, readCell_writeCell hm, hrj]
  · intro A B g1 hA hB hAB h1
    have hw1 := hw.of_insert h1
    obtain ⟨s, a, m1, _, hs, ha, hm1, hg1⟩ := insert_ok_inv hw h1
    have hlen : s < g.instructions.length := by rw [hw.slots]; exact hs
    have hocc : g1.instructions[s]? = some (some X) := by
      rw [hg1]
      simp [List.getElem?_set, hlen]
    obtain ⟨b', m2, hb', hm2, hins⟩ := insert_tracked_spec hw1 hB hocc
    have hmap1 : g1.reservationStationMap = m1 := by rw [hg1]
    rw [hmap1] at hb' hm2
    have hBA : ¬ B = A := fun e => hAB e.symm
    have hb : g.counter B s = some b' := by
      simpa [counter, readCell_writeCell hm1, hBA] using hb'
    refine ⟨s, a, b', _, hins, rfl, ?_, ha, hb, ?_, ?_, ?_⟩
    · intro j
      constructor
      · intro hj
        exact hw1.uniq j s X hj hocc
      · intro hj
        rw [hj]
        exact hocc
    · simp [counter, readCell_writeCell hm2, readCell_writeCell hm1, hAB]
    · simp [counter, readCell_writeCell hm2]
    · intro r j hrj
      have h2 : ¬ (r = B ∧ j = s) := fun h => hrj ⟨h.2, Or.inr h.1⟩
      have h3 : ¬ (r = A ∧ j = s) := fun h => hrj ⟨h.2, Or.inl h.1⟩
      simp [counter, readCell_writeCell hm2, readCell_writeCell hm1, h2, h3]

theorem insert_tracked_reuses_slot_witness :
    Reachable 4 2 stateA ∧
    ((∀ (reg : RegIndex) (s : Nat), (reg : Int) < 4 →
      stateA.instructions[s]? = some (some 10) →
      ∃ (c : Int) (g' : DependencyGraphReg),
        stateA.insert reg (some 10) = .ok g' ∧ g'.instructions = stateA.instructions ∧
        (∀ j : Nat, g'.instructions[j]? = some (some 10) ↔ j = s) ∧
        stateA.counter reg s = some c ∧ g'.counter reg s = some (c + 1) ∧
        ∀ r j, ¬ (r = reg ∧ j = s) → g'.counter r j = stateA.counter r j) ∧
    (∀ (A B : RegIndex) (g1 : DependencyGraphReg), (A : Int) < 4 → (B : Int) < 4 → A ≠ B →
      stateA.insert A (some 10) = .ok g1 →
      ∃ (s : Nat) (a b : Int) (g2 : DependencyGraphReg),
        g1.insert B (some 10) = .ok g2 ∧ g2.instructions = g1.instructions ∧
        (∀ j : Nat, g2.instructions[j]? = some (some 10) ↔ j = s) ∧
        stateA.counter A s = some a ∧ stateA.counter B s = some b ∧
        g2.counter A s = some (a + 1) ∧ g2.counter B s = some (b + 1) ∧
        ∀ r j, ¬ (j = s ∧ (r = A ∨ r = B)) → g2.counter r j = stateA.counter r j)) :=
  ⟨reachable_stateA, insert_tracked_reuses_slot 4 2 stateA reachable_stateA 10⟩

/-- C4. Round trip: in a reachable state where register `r` has no nonzero counter,
after an `insert(r, X)` that returns normally, `pop(r)` returns `X` and a second
`pop(r)` returns the null handle. -/
theorem insert_pop_round_trip (P S : Int) (g : DependencyGraphReg) (hg : Reachable P S g)
    (r : RegIndex) (hzero : ∀ (j : Nat) (d : Int), g.counter r j = some d → d = 0)
    (X : Nat) (g1 : DependencyGraphReg) (hins : g.insert r (some X) = .ok g1) :
    ∃ g2 g3 : DependencyGraphReg,
      g1.pop r = .ok (some X, g2) ∧ g2.pop r = .ok (NULL, g3) := by
  have hw := hg.wellFormed
  have hw1 := hw.of_insert hins
  obtain ⟨s, c, m, _, hs, hc, hm, hg1⟩ := insert_ok_inv hw hins
  have hc0 : c = 0 := hzero s c hc
  subst hc0
  have hlen : s < g.instructions.length := by rw [hw.slots]; exact hs
  have hocc : g1.instructions[s]? = some (some X) := by
    rw [hg1]
    simp [List.getElem?_set, hlen]
  have hmap1 : g1.reservationStationMap = m := by rw [hg1]
  have hc1 : g1.counter r s = some 1 := by
    simp [counter, hmap1, readCell_writeCell hm]
  have hother1 : ∀ (j : Nat) (d : Int), j ≠ s → g1.counter r j = some d → d = 0 := by
    intro j d hj hd
    have hd' : g.counter r j = some d := by
      simpa [counter, hmap1, readCell_writeCell hm, hj] using hd
    exact hzero j d hd'
  obtain ⟨g2, hpop, hw2, _, hc2, hother2⟩ := pop_single hw1 hc1 (by decide) hother1 hocc
  refine ⟨g2, g2, hpop, ?_⟩
  have hr : r < g2.reservationStationMap.length := (readCell_bounds hw2.cols hc2).1
  apply pop_all_zero hw2 hr
  intro j d hd
  by_cases hj : j = s
  · subst hj
    rw [hc2] at hd
    cases hd
    rfl
  · exact hother2 j d hj hd

theorem insert_pop_round_trip_witness :
    Reachable 4 2 (fresh.resize 4 2) ∧
    (∀ (j : Nat) (d : Int), (fresh.resize 4 2).counter 1 j = some d → d = 0) ∧
    (fresh.resize 4 2).insert 1 (some 10) = .ok stateA ∧
    ∃ g2 g3 : DependencyGraphReg,
      stateA.pop 1 = .ok (some 10, g2) ∧ g2.pop 1 = .ok (NULL, g3) :=
  have hzero : ∀ (j : Nat) (d : Int), (fresh.resize 4 2).counter 1 j = some d → d = 0 := by
    intro j d
    match j with
    | 0 => intro h; cases h; rfl
    | 1 => intro h; cases h; rfl
    | n + 2 => intro h; cases h
  ⟨Reachable.resize fresh, hzero, by decide,
    insert_pop_round_trip 4 2 (fresh.resize 4 2) (Reachable.resize fresh) 1 hzero 10 stateA
      (by decide)⟩

/-- C5. Multiplicity: in a reachable state where register `r` has no nonzero counter,
after an `insert(r, X)` that returns normally a second `insert(r, X)` returns
normally too and leaves the counter at `(r, slot of X)` equal to 2; the first and
the second `pop(r)` each return `X` and the third returns the null handle. -/
theorem insert_twice_counts_two (P S : Int) (g : DependencyGraphReg) (hg : Reachable P S g)
    (r : RegIndex) (hzero : ∀ (j : Nat) (d : Int), g.counter r j = some d → d = 0)
    (X : Nat) (g1 : DependencyGraphReg) (hins : g.insert r (some X) = .ok g1) :
    ∃ (s : Nat) (g2 g3 g4 g5 : DependencyGraphReg),
      g1.insert r (some X) = .ok g2 ∧
      (∀ j : Nat, g2.instructions[j]? = some (some X) ↔ j = s) ∧
      g2.counter r s = some 2 ∧
      g2.pop r = .ok (some X, g3) ∧ g3.pop r = .ok (some X, g4) ∧
      g4.pop r = .ok (NULL, g5) := by
  have hw := hg.wellFormed
  have hw1 := hw.of_insert hins
  obtain ⟨s, c, m, _, hs, hc, hm, hg1⟩ := insert_ok_inv hw hins
  have hc0 : c = 0 := hzero s c hc
  subst hc0
  have hlen : s < g.instructions.length := by rw [hw.slots]; exact hs
  have hocc : g1.instructions[s]? = some (some X) := by
    rw [hg1]
    simp [List.getElem?_set, hlen]
  have hmap1 : g1.reservationStationMap = m := by rw [hg1]
  have hrP : (r : Int) < P := by
    have := (readCell_bounds hw.cols hc).1
    rw [hw.rows] at this
    omega
  obtain ⟨c1, m2, hc1, hm2, hins2⟩ := insert_tracked_spec hw1 hrP hocc
  have hw2 := hw1.of_insert hins2
  rw [hmap1] at hc1 hm2
  have hc1' : c1 = 1 := by
    have : readCell m r s = some (0 + 1) := by simp [readCell_writeCell hm]
    rw [this] at hc1
    cases hc1
    rfl
  subst hc1'
  have hcnt2 : readCell m2 r s = some 2 := by simp [readCell_writeCell hm2]
  have hother2 : ∀ (j : Nat) (d : Int), j ≠ s → readCell m2 r j = some d → d = 0 := by
    intro j d hj hd
    have hd' : g.counter r j = some d := by
      simpa [counter, readCell_writeCell hm2, readCell_writeCell hm, hj] using hd
    exact hzero j d hd'
  obtain ⟨g3, hpop3, hw3, hi3, hc3, hother3⟩ :=
    pop_single hw2 (show DependencyGraphReg.counter _ r s = some 2 from hcnt2) (by decide)
      hother2 hocc
  obtain ⟨g4, hpop4, hw4, _, hc4, hother4⟩ :=
    pop_single hw3 hc3 (by decide) hother3 (by rw [hi3]; exact hocc)
  refine ⟨s, _, g3, g4, g4, hins2, ?_, hcnt2, hpop3, hpop4, ?_⟩
  · intro j
    constructor
    · intro hj
      exact hw1.uniq j s X hj hocc
    · intro hj
      rw [hj]
      exact hocc
  · have hr : r < g4.reservationStationMap.length := (readCell_bounds hw4.cols hc4).1
    apply pop_all_zero hw4 hr
    intro j d hd
    by_cases hj : j = s
    · subst hj
      rw [hc4] at hd
      cases hd
      rfl
    · exact hother4 j d hj hd

theorem insert_twice_counts_two_witness :
    Reachable 4 2 (fresh.resize 4 2) ∧
    (∀ (j : Nat) (d : Int), (fresh.resize 4 2).counter 1 j = some d → d = 0) ∧
    (fresh.resize 4 2).insert 1 (some 10) = .ok stateA ∧
    ∃ (s : Nat) (g2 g3 g4 g5 : DependencyGraphReg),
      stateA.insert 1 (some 10) = .ok g2 ∧
      (∀ j : Nat, g2.instructions[j]? = some (some 10) ↔ j = s) ∧
      g2.counter 1 s = some 2 ∧
      g2.pop 1 = .ok (some 10, g3) ∧ g3.pop 1 = .ok (some 10, g4) ∧
      g4.pop 1 = .ok (NULL, g5) :=
  have hzero : ∀ (j : Nat) (d : Int), (fresh.resize 4 2).counter 1 j = some d → d = 0 := by
    intro j d
    match j with
    | 0 => intro h; cases h; rfl
    | 1 => intro h; cases h; rfl
    | n + 2 => intro h; cases h
  ⟨Reachable.resize fresh, hzero, by decide,
    insert_twice_counts_two 4 2 (fresh.resize 4 2) (Reachable.resize fresh) 1 hzero 10 stateA
      (by decide)⟩

/-- C6. Capacity: for `P ≥ 1` and `S ≥ 0`, after `resize(P, S)` the inserts of `S`
pairwise-distinct instructions, on any registers below `P` and with no other call
in between, all return normally, and an insert of a further instruction distinct
from all of them fails the assertion of `insert`. -/
theorem capacity_exact (P S : Int) (hP : 1 ≤ P) (hS : 0 ≤ S) (g0 : DependencyGraphReg)
    (ops : List (RegIndex × Nat)) (hlen : (ops.length : Int) = S)
    (hdistinct : (ops.map Prod.snd).Nodup) (hregs : ∀ op ∈ ops, (op.1 : Int) < P) :
    ∃ g, insertAll (g0.resize P S) (ops.map fun op => (op.1, some op.2)) = .ok g ∧
      ∀ (reg : RegIndex) (Y : Nat), (reg : Int) < P → Y ∉ ops.map Prod.snd →
        g.insert reg (some Y) = .assertFailed g := by
  have _ := hP
  have _ := hS
  have hn : ops.length = S.toNat := by omega
  have hinstr : (g0.resize P S).instructions =
      ([] : List Nat).map some ++ List.replicate ops.length NULL := by
    simp [resize, hn]
  obtain ⟨g, hall, hw, hfinal⟩ :=
    insertAll_fill ops (g0.resize P S) [] (WellFormed.of_resize g0 P S) hinstr
      (by simpa using hdistinct) hregs
  refine ⟨g, hall, ?_⟩
  intro reg Y _ hY
  apply insert_of_full hw.slots_eq
  · intro j hj
    have hmem : some Y ∈ g.instructions := List.getElem?_mem hj
    rw [hfinal] at hmem
    rcases List.mem_map.mp hmem with ⟨d, hd, hde⟩
    cases hde
    exact hY (by simpa using hd)
  · intro j hj
    have hmem : NULL ∈ g.instructions := List.getElem?_mem hj
    rw [hfinal] at hmem
    rcases List.mem_map.mp hmem with ⟨d, _, hde⟩
    cases hde

theorem capacity_exact_witness :
    (1 : Int) ≤ 4 ∧ (0 : Int) ≤ 2 ∧
    ((([(1, 10), (3, 11)] : List (RegIndex × Nat)).length : Nat) : Int) = 2 ∧
    (([(1, 10), (3, 11)] : List (RegIndex × Nat)).map Prod.snd).Nodup ∧
    (∀ op ∈ ([(1, 10), (3, 11)] : List (RegIndex × Nat)), (op.1 : Int) < 4) ∧
    ∃ g, insertAll (fresh.resize 4 2)
        (([(1, 10), (3, 11)] : List (RegIndex × Nat)).map fun op => (op.1, some op.2)) = .ok g ∧
      ∀ (reg : RegIndex) (Y : Nat), (reg : Int) < 4 →
        Y ∉ ([(1, 10), (3, 11)] : List (RegIndex × Nat)).map Prod.snd →
        g.insert reg (some Y) = .assertFailed g :=
  ⟨by decide, by decide, by decide, by decide, by decide,
    capacity_exact 4 2 (by decide) (by decide) fresh [(1, 10), (3, 11)] (by decide)
      (by decide) (by decide)⟩

/-- C7. In a reachable state, for `reg < P` and an instruction `X`: `insert(reg, X)`
fails its assertion if and only if `X` holds no slot and no slot is free; when it
fails, the state at the abort is the state before the call; and when it does not
fail it returns normally. -/
theorem insert_fails_iff_full (P S : Int) (g : DependencyGraphReg) (hg : Reachable P S g)
    (reg : RegIndex) (hreg : (reg : Int) < P) (X : Nat) :
    ((∃ h, g.insert reg (some X) = .assertFailed h) ↔
      ((∀ j : Nat, g.instructions[j]? ≠ some (some X)) ∧
        ∀ j : Nat, g.instructions[j]? ≠ some NULL)) ∧
    (∀ h, g.insert reg (some X) = .assertFailed h → h = g) ∧
    ((∃ g', g.insert reg (some X) = .ok g') ∨ g.insert reg (some X) = .assertFailed g) := by
  have hw := hg.wellFormed
  rcases insert_total hw hreg (some X) with ⟨s, c, m, hch, _, _, _, hins⟩ | ⟨habs, hfull, hins⟩
  · refine ⟨⟨?_, ?_⟩, ?_, Or.inl ⟨_, hins⟩⟩
    · rintro ⟨h, hfail⟩
      rw [hins] at hfail
      cases hfail
    · rintro ⟨habs, hfull⟩
      rcases hch with ⟨hx, _⟩ | ⟨_, hnull, _⟩
      · exact absurd hx (habs s)
      · exact absurd hnull (hfull s)
    · intro h hfail
      rw [hins] at hfail
      cases hfail
  · refine ⟨⟨fun _ => ⟨habs, hfull⟩, fun _ => ⟨g, hins⟩⟩, ?_, Or.inr hins⟩
    intro h hfail
    rw [hins] at hfail
    cases hfail
    rfl

theorem insert_fails_iff_full_witness :
    Reachable 4 2 stateA ∧ ((3 : RegIndex) : Int) < 4 ∧
    (((∃ h, stateA.insert 3 (some 11) = .assertFailed h) ↔
      ((∀ j : Nat, stateA.instructions[j]? ≠ some (some 11)) ∧
        ∀ j : Nat, stateA.instructions[j]? ≠ some NULL)) ∧
    (∀ h, stateA.insert 3 (some 11) = .assertFailed h → h = stateA) ∧
    ((∃ g', stateA.insert 3 (some 11) = .ok g') ∨
      stateA.insert 3 (some 11) = .assertFailed stateA)) :=
  ⟨reachable_stateA, by decide,
    insert_fails_iff_full 4 2 stateA reachable_stateA 3 (by decide) 11⟩

/-- C8. In a reachable state and for `reg < P`: `empty(reg)` is true exactly when no
slot has a nonzero counter for `reg`, and then `pop(reg)` returns the null handle
and leaves the whole state, slot table and matrix included, as it was. -/
theorem pop_on_empty_register (P S : Int) (g : DependencyGraphReg) (hg : Reachable P S g)
    (reg : RegIndex) (hreg : (reg : Int) < P) :
    (g.empty reg = .ok true ↔ ∀ (j : Nat) (d : Int), g.counter reg j = some d → d = 0) ∧
    (g.empty reg = .ok true → g.pop reg = .ok (NULL, g)) := by
  have hw := hg.wellFormed
  have hr : reg < g.reservationStationMap.length := by
    rw [hw.rows]
    exact Int.lt_toNat.mpr hreg
  have hzero_iff : g.empty reg = .ok true ↔
      ∀ (j : Nat) (d : Int), g.counter reg j = some d → d = 0 := by
    constructor
    · intro hempty j d hd
      by_contra hne
      obtain ⟨s, c, hs, hc, hcne, hbefore⟩ :=
        cell_first_nonzero hw.cols ⟨j, d, hd, hne⟩
      rw [empty_of_nonzero (by rw [hw.numRS]; exact hs) hc hcne hbefore] at hempty
      cases hempty
    · intro hzero
      apply empty_of_zero
      intro j hj
      rw [hw.numRS] at hj
      obtain ⟨d, hd⟩ := readCell_isSome hw.cols hr hj
      rw [hd, hzero j d hd]
  refine ⟨hzero_iff, ?_⟩
  intro hempty
  exact pop_all_zero hw hr (hzero_iff.mp hempty)

theorem pop_on_empty_register_witness :
    Reachable 4 2 stateA ∧ ((2 : RegIndex) : Int) < 4 ∧
    ((stateA.empty 2 = .ok true ↔
      ∀ (j : Nat) (d : Int), stateA.counter 2 j = some d → d = 0) ∧
    (stateA.empty 2 = .ok true → stateA.pop 2 = .ok (NULL, stateA))) :=
  ⟨reachable_stateA, by decide,
    pop_on_empty_register 4 2 stateA reachable_stateA 2 (by decide)⟩

/-- C9. In a reachable state, for `reg < P` and an instruction `X` that holds slot
`s`: `remove(reg, X)` returns normally, sets the counter at `(reg, s)` to zero
whatever it was, and leaves every other counter and the whole slot table as they
were, so that `X` still holds slot `s`. -/
theorem remove_clears_counter (P S : Int) (g : DependencyGraphReg) (hg : Reachable P S g)
    (reg : RegIndex) (hreg : (reg : Int) < P) (X s : Nat)
    (hocc : g.instructions[s]? = some (some X)) :
    ∃ g', g.remove reg (some X) = .ok g' ∧
      g'.counter reg s = some 0 ∧
      (∀ r j, ¬ (r = reg ∧ j = s) → g'.counter r j = g.counter r j) ∧
      g'.instructions = g.instructions ∧ g'.instructions[s]? = some (some X) := by
  have hw := hg.wellFormed
  have hs : s < S.toNat := slot_bound hw.slots hocc
  obtain ⟨c, hc⟩ := hw.read hreg hs
  obtain ⟨m, hm⟩ := writeCell_isSome 0 hc
  have hrem : g.remove reg (some X) = .ok { g with reservationStationMap := m } := by
    rw [remove_of_unique hw.slots_eq hocc
      (fun j hj h => hj (hw.uniq j s X h hocc))]
    simp only [hm]
  refine ⟨_, hrem, ?_, ?_, rfl, hocc⟩
  · simp [counter, readCell_writeCell hm]
  · intro r j hrj
    simp [counter, readCell_writeCell hm, hrj]

theorem remove_clears_counter_witness :
    Reachable 4 2 stateA ∧ ((1 : RegIndex) : Int) < 4 ∧
    stateA.instructions[0]? = some (some 10) ∧
    ∃ g', stateA.remove 1 (some 10) = .ok g' ∧
      g'.counter 1 0 = some 0 ∧
      (∀ r j, ¬ (r = 1 ∧ j = 0) → g'.counter r j = stateA.counter r j) ∧
      g'.instructions = stateA.instructions ∧ g'.instructions[0]? = some (some 10) :=
  ⟨reachable_stateA, by decide, by decide,
    remove_clears_counter 4 2 stateA reachable_stateA 1 (by decide) 10 0 (by decide)⟩

/-- C10. In a reachable state, for `reg < P` and an instruction `X`: `remove(reg, X)`
fails an assertion if and only if `X` holds no slot; when it fails, the state at
the abort is the state before the call; and when it does not fail it returns
normally. -/
theorem remove_fails_iff_untracked (P S : Int) (g : DependencyGraphReg)
    (hg : Reachable P S g) (reg : RegIndex) (hreg : (reg : Int) < P) (X : Nat) :
    ((∃ h, g.remove reg (some X) = .assertFailed h) ↔
      ∀ j : Nat, g.instructions[j]? ≠ some (some X)) ∧
    (∀ h, g.remove reg (some X) = .assertFailed h → h = g) ∧
    ((∃ g', g.remove reg (some X) = .ok g') ∨ g.remove reg (some X) = .assertFailed g) := by
  have hw := hg.wellFormed
  by_cases hex : ∃ s : Nat, g.instructions[s]? = some (some X)
  · obtain ⟨s, hocc⟩ := hex
    have hs : s < S.toNat := slot_bound hw.slots hocc
    obtain ⟨c, hc⟩ := hw.read hreg hs
    obtain ⟨m, hm⟩ := writeCell_isSome 0 hc
    have hrem : g.remove reg (some X) = .ok { g with reservationStationMap := m } := by
      rw [remove_of_unique hw.slots_eq hocc
        (fun j hj h => hj (hw.uniq j s X h hocc))]
      simp only [hm]
    refine ⟨⟨?_, ?_⟩, ?_, Or.inl ⟨_, hrem⟩⟩
    · rintro ⟨h, hfail⟩
      rw [hrem] at hfail
      cases hfail
    · intro habs
      exact absurd hocc (habs s)
    · intro h hfail
      rw [hrem] at hfail
      cases hfail
  · have habs : ∀ j : Nat, g.instructions[j]? ≠ some (some X) := fun j hj => hex ⟨j, hj⟩
    have hrem := remove_of_absent hw.slots_eq habs reg
    refine ⟨⟨fun _ => habs, fun _ => ⟨g, hrem⟩⟩, ?_, Or.inr hrem⟩
    intro h hfail
    rw [hrem] at hfail
    cases hfail
    rfl

theorem remove_fails_iff_untracked_witness :
    Reachable 4 2 stateA ∧ ((1 : RegIndex) : Int) < 4 ∧
    (((∃ h, stateA.remove 1 (some 11) = .assertFailed h) ↔
      ∀ j : Nat, stateA.instructions[j]? ≠ some (some 11)) ∧
    (∀ h, stateA.remove 1 (some 11) = .assertFailed h → h = stateA) ∧
    ((∃ g', stateA.remove 1 (some 11) = .ok g') ∨
      stateA.remove 1 (some 11) = .assertFailed stateA)) :=
  ⟨reachable_stateA, by decide,
    remove_fails_iff_untracked 4 2 stateA reachable_stateA 1 (by decide) 11⟩

/-- C12. In a reachable state, for an instruction `X` that holds slot `s`,
`retract(X)` returns normally, nulls slot `s` so that `X` holds no slot afterwards,
leaves every other slot as it was, and leaves the whole matrix as it was, the
counters of slot `s` included. -/
theorem retract_vacates_slot (P S : Int) (g : DependencyGraphReg) (hg : Reachable P S g)
    (X s : Nat) (hocc : g.instructions[s]? = some (some X)) :
    ∃ g', g.retract (some X) = .ok g' ∧
      g'.instructions[s]? = some NULL ∧
      (∀ j : Nat, g'.instructions[j]? ≠ some (some X)) ∧
      (∀ j : Nat, j ≠ s → g'.instructions[j]? = g.instructions[j]?) ∧
      g'.reservationStationMap = g.reservationStationMap ∧
      (∀ r j, g'.counter r j = g.counter r j) := by
  have hw := hg.wellFormed
  have hlen : s < g.instructions.length := by
    rw [hw.slots]
    exact slot_bound hw.slots hocc
  refine ⟨_, retract_tracked_spec hw hocc, ?_, ?_, ?_, rfl, fun _ _ => rfl⟩
  · simp [List.getElem?_set, hlen]
  · intro j hj
    by_cases hjs : s = j
    · subst hjs
      simp [List.getElem?_set, hlen] at hj
    · simp only [List.getElem?_set, hjs, if_false] at hj
      exact hjs (hw.uniq j s X hj hocc).symm
  · intro j hj
    have hne : ¬ s = j := fun e => hj e.symm
    simp [List.getElem?_set, hne]

theorem retract_vacates_slot_witness :
    Reachable 4 2 stateA ∧ stateA.instructions[0]? = some (some 10) ∧
    ∃ g', stateA.retract (some 10) = .ok g' ∧
      g'.instructions[0]? = some NULL ∧
      (∀ j : Nat, g'.instructions[j]? ≠ some (some 10)) ∧
      (∀ j : Nat, j ≠ 0 → g'.instructions[j]? = stateA.instructions[j]?) ∧
      g'.reservationStationMap = stateA.reservationStationMap ∧
      (∀ r j, g'.counter r j = stateA.counter r j) :=
  ⟨reachable_stateA, by decide,
    retract_vacates_slot 4 2 stateA reachable_stateA 10 0 (by decide)⟩

/-- C13. In a reachable state, `retract` of a handle that no slot holds returns
normally and leaves the state as it was; and for every instruction `X`, held or
not, `retract(X)` returns normally and a second `retract(X)` right after it returns
normally too and changes nothing. -/
theorem retract_untracked_noop (P S : Int) (g : DependencyGraphReg) (hg : Reachable P S g) :
    (∀ x : DynInstPtr, (∀ j : Nat, g.instructions[j]? ≠ some x) → g.retract x = .ok g) ∧
    (∀ X : Nat, ∃ g1, g.retract (some X) = .ok g1 ∧ g1.retract (some X) = .ok g1) := by
  have hw := hg.wellFormed
  constructor
  · intro x habs
    exact retract_of_absent hw.slots_eq habs
  · intro X
    by_cases hex : ∃ s : Nat, g.instructions[s]? = some (some X)
    · obtain ⟨s, hocc⟩ := hex
      have hret := retract_tracked_spec hw hocc
      have hw1 := hw.of_retract hret
      refine ⟨_, hret, retract_of_absent hw1.slots_eq ?_⟩
      intro j hj
      by_cases hjs : s = j
      · subst hjs
        simp only [List.getElem?_set, if_true] at hj
        split at hj
        · cases hj
        · cases hj
      · simp only [List.getElem?_set, hjs, if_false] at hj
        exact hjs (hw.uniq j s X hj hocc).symm
    · have habs : ∀ j : Nat, g.instructions[j]? ≠ some (some X) := fun j hj => hex ⟨j, hj⟩
      have hret := retract_of_absent hw.slots_eq habs
      exact ⟨g, hret, hret⟩

theorem retract_untracked_noop_witness :
    Reachable 4 2 stateA ∧
    ((∀ x : DynInstPtr, (∀ j : Nat, stateA.instructions[j]? ≠ some x) →
      stateA.retract x = .ok stateA) ∧
    (∀ X : Nat, ∃ g1, stateA.retract (some X) = .ok g1 ∧ g1.retract (some X) = .ok g1)) :=
  ⟨reachable_stateA, retract_untracked_noop 4 2 stateA reachable_stateA⟩

/-- C14. The state after `resize(4, 2); insert(3, A)` is reachable and has the
counter 1 at register 3, slot 0, so `empty(3)` is false; yet `empty()` returns
true, because its loop stops at register index `numReservationStations = 2`. -/
theorem emptyAll_ignores_high_registers :
    Reachable 4 2 stateHigh ∧ stateHigh.counter 3 0 = some 1 ∧
    stateHigh.empty 3 = .ok false ∧ stateHigh.emptyAll = .ok true :=
  ⟨reachable_stateHigh, by decide, by decide, by decide⟩

/-- C15. After `resize(4, 2)` the call `insert(3, A)` returns normally, and `empty()`
right after it returns true. -/
theorem emptyAll_true_after_insert :
    Reachable 4 2 (fresh.resize 4 2) ∧
    (fresh.resize 4 2).insert 3 (some 10) = .ok stateHigh ∧
    stateHigh.emptyAll = .ok true :=
  ⟨Reachable.resize fresh, by decide, by decide⟩

/-- C17, as stated, fails: after `resize(1, 1); insert(0, A); pop(0)` the counter of
the one slot is back to zero, the slot still holds `A`, and `insert(0, B)` for a
different instruction `B` fails the assertion. -/
theorem drained_slot_stays_occupied :
    Reachable 1 1 stateDrained ∧
    stateDrained.instructions = [some 10] ∧
    (∀ r j c, stateDrained.counter r j = some c → c = 0) ∧
    (∀ j : Nat, stateDrained.instructions[j]? ≠ some (some 11)) ∧
    stateDrained.insert 0 (some 11) = .assertFailed stateDrained := by
  refine ⟨reachable_stateDrained, rfl, ?_, ?_, by decide⟩
  · intro r j c
    match r, j with
    | 0, 0 => intro h; cases h; rfl
    | 0, j + 1 => intro h; cases h
    | r + 1, _ => intro h; cases h
  · intro j
    match j with
    | 0 => decide
    | j + 1 => simp [stateDrained]

/-- C17, amended. In a reachable state where the instruction `X` holds slot `s`,
every counter of slot `s` is zero and every other slot is occupied: `pop` and
`remove` never change the slot table, so slot `s` is still held by `X` and
`insert(reg, Y)` of a different instruction `Y` that holds no slot fails the
assertion; after `retract(X)` the same insert returns normally and puts `Y` in
slot `s`. -/
theorem slot_freed_only_by_retract (P S : Int) (g : DependencyGraphReg)
    (hg : Reachable P S g) (reg : RegIndex) (hreg : (reg : Int) < P) (X Y s : Nat)
    (hXY : X ≠ Y) (hocc : g.instructions[s]? = some (some X))
    (hdrained : ∀ (r : Nat) (c : Int), g.counter r s = some c → c = 0)
    (hothers : ∀ j : Nat, j < S.toNat → j ≠ s → ∃ Z : Nat, g.instructions[j]? = some (some Z))
    (hY : ∀ j : Nat, g.instructions[j]? ≠ some (some Y)) :
    g.insert reg (some Y) = .assertFailed g ∧
    (∀ (r : RegIndex) (x : DynInstPtr) (g' : DependencyGraphReg),
      g.pop r = .ok (x, g') → g'.instructions = g.instructions) ∧
    (∀ (r : RegIndex) (x : DynInstPtr) (g' : DependencyGraphReg),
      g.remove r x = .ok g' → g'.instructions = g.instructions) ∧
    ∃ g1 g2, g.retract (some X) = .ok g1 ∧ g1.insert reg (some Y) = .ok g2 ∧
      g2.instructions[s]? = some (some Y) ∧
      (∀ j : Nat, j ≠ s → g2.instructions[j]? = g.instructions[j]?) := by
  have _ := hdrained
  have _ := hXY
  have hw := hg.wellFormed
  have hs : s < S.toNat := slot_bound hw.slots hocc
  have hlen : s < g.instructions.length := by rw [hw.slots]; exact hs
  have hfull : ∀ j : Nat, g.instructions[j]? ≠ some NULL := by
    intro j hj
    have hj' : j < S.toNat := slot_bound hw.slots hj
    by_cases hjs : j = s
    · subst hjs
      rw [hocc] at hj
      cases hj
    · obtain ⟨Z, hZ⟩ := hothers j hj' hjs
      rw [hZ] at hj
      cases hj
  refine ⟨insert_of_full hw.slots_eq hY hfull reg, ?_, ?_, ?_⟩
  · intro r x g' hpop
    rcases pop_inv hpop with ⟨_, h, _⟩ | ⟨_, _, _, _, _, _, _, _, _, h⟩
    · rw [h]
    · rw [h]
  · intro r x g' hrem
    obtain ⟨_, _, _, _, h⟩ := remove_inv hrem
    rw [h]
  · have hret := retract_tracked_spec hw hocc
    have hw1 := hw.of_retract hret
    have hfree : (g.instructions.set s NULL)[s]? = some NULL := by
      simp [List.getElem?_set, hlen]
    have hfirst : ∀ j : Nat, j < s → (g.instructions.set s NULL)[j]? ≠ some NULL := by
      intro j hj h
      have hne : ¬ s = j := by omega
      simp only [List.getElem?_set, hne, if_false] at h
      exact hfull j h
    have habs : ∀ j : Nat, (g.instructions.set s NULL)[j]? ≠ some (some Y) := by
      intro j h
      by_cases hjs : s = j
      · subst hjs
        rw [hfree] at h
        cases h
      · simp only [List.getElem?_set, hjs, if_false] at h
        exact hY j h
    obtain ⟨c, hc⟩ := hw1.read hreg hs
    obtain ⟨m, hm⟩ := writeCell_isSome (c + 1) hc
    have hins := insert_of_untracked hw1.slots_eq habs hfree hfirst reg
    simp only [hc, hm] at hins
    refine ⟨_, _, hret, hins, ?_, ?_⟩
    · simp [List.getElem?_set, hlen]
    · intro j hj
      have hne : ¬ s = j := fun e => hj e.symm
      simp [List.getElem?_set, hne]

theorem slot_freed_only_by_retract_witness :
    Reachable 1 1 stateDrained ∧ ((0 : RegIndex) : Int) < 1 ∧ (10 : Nat) ≠ 11 ∧
    stateDrained.instructions[0]? = some (some 10) ∧
    (∀ (r : Nat) (c : Int), stateDrained.counter r 0 = some c → c = 0) ∧
    (∀ j : Nat, j < (1 : Int).toNat → j ≠ 0 →
      ∃ Z : Nat, stateDrained.instructions[j]? = some (some Z)) ∧
    (∀ j : Nat, stateDrained.instructions[j]? ≠ some (some 11)) ∧
    (stateDrained.insert 0 (some 11) = .assertFailed stateDrained ∧
    (∀ (r : RegIndex) (x : DynInstPtr) (g' : DependencyGraphReg),
      stateDrained.pop r = .ok (x, g') → g'.instructions = stateDrained.instructions) ∧
    (∀ (r : RegIndex) (x : DynInstPtr) (g' : DependencyGraphReg),
      stateDrained.remove r x = .ok g' → g'.instructions = stateDrained.instructions) ∧
    ∃ g1 g2, stateDrained.retract (some 10) = .ok g1 ∧ g1.insert 0 (some 11) = .ok g2 ∧
      g2.instructions[0]? = some (some 11) ∧
      (∀ j : Nat, j ≠ 0 → g2.instructions[j]? = stateDrained.instructions[j]?)) :=
  have hdrained : ∀ (r : Nat) (c : Int), stateDrained.counter r 0 = some c → c = 0 := by
    intro r c
    match r with
    | 0 => intro h; cases h; rfl
    | r + 1 => intro h; cases h
  have hothers : ∀ j : Nat, j < (1 : Int).toNat → j ≠ 0 →
      ∃ Z : Nat, stateDrained.instructions[j]? = some (some Z) := by
    intro j h1 h2
    have : j < 1 := h1
    omega
  have hY : ∀ j : Nat, stateDrained.instructions[j]? ≠ some (some 11) := by
    intro j
    match j with
    | 0 => decide
    | j + 1 => simp [stateDrained]
  ⟨reachable_stateDrained, by decide, by decide, by decide, hdrained, hothers, hY,
    slot_freed_only_by_retract 1 1 stateDrained reachable_stateDrained 0 (by decide) 10 11 0
      (by decide) (by decide) hdrained hothers hY⟩

/-- C20. After `resize(1, 2)` the slot table is two null handles, the matrix is one
row of two zeros and `empty(0)` is true; `empty()` then calls `empty(1)`, which
indexes the matrix past its one row. -/
theorem emptyAll_after_resize_overruns :
    (fresh.resize 1 2).instructions = [NULL, NULL] ∧
    (fresh.resize 1 2).reservationStationMap = [[0, 0]] ∧
    (fresh.resize 1 2).empty 0 = .ok true ∧
    (fresh.resize 1 2).empty 1 = .outOfBounds ∧
    (fresh.resize 1 2).emptyAll = .outOfBounds :=
  ⟨by decide, by decide, by decide, by decide, by decide⟩

/-- C18. After `resize(4, 2)`, with pairwise-distinct instructions `A`, `B`, `C`: the
calls `insert(1, A); insert(2, A); insert(3, B)` return normally and leave slot 0
holding `A` and slot 1 holding `B`; then `pop(1)` returns `A`, `pop(2)` returns `A`
and `pop(3)` returns `B`; `empty()` is then true; and after `retract(A)` the call
`insert(0, C)` returns normally and puts `C` in slot 0. -/
theorem scenario_four_two (g0 : DependencyGraphReg) (A B C : Nat)
    (hAB : A ≠ B) (hAC : A ≠ C) (hBC : B ≠ C) :
    ∃ g1 g2 g3 g4 g5 g6 g7 g8 : DependencyGraphReg,
      (g0.resize 4 2).insert 1 (some A) = .ok g1 ∧
      g1.insert 2 (some A) = .ok g2 ∧
      g2.insert 3 (some B) = .ok g3 ∧
      g3.instructions = [some A, some B] ∧
      g3.pop 1 = .ok (some A, g4) ∧
      g4.pop 2 = .ok (some A, g5) ∧
      g5.pop 3 = .ok (some B, g6) ∧
      g6.emptyAll = .ok true ∧
      g6.retract (some A) = .ok g7 ∧
      g7.insert 0 (some C) = .ok g8 ∧
      g8.instructions = [some C, some B] := by
  have hBA : B ≠ A := fun e => hAB e.symm
  have hCA : C ≠ A := fun e => hAC e.symm
  have hCB : C ≠ B := fun e => hBC e.symm
  refine ⟨{ (g0.resize 4 2) with
            instructions := [some A, none]
            reservationStationMap := [[0, 0], [1, 0], [0, 0], [0, 0]] },
          { (g0.resize 4 2) with
            instructions := [some A, none]
            reservationStationMap := [[0, 0], [1, 0], [1, 0], [0, 0]] },
          { (g0.resize 4 2) with
            instructions := [some A, some B]
            reservationStationMap := [[0, 0], [1, 0], [1, 0], [0, 1]] },
          { (g0.resize 4 2) with
            instructions := [some A, some B]
            reservationStationMap := [[0, 0], [0, 0], [1, 0], [0, 1]] },
          { (g0.resize 4 2) with
            instructions := [some A, some B]
            reservationStationMap := [[0, 0], [0, 0], [0, 0], [0, 1]] },
          { (g0.resize 4 2) with
            instructions := [some A, some B]
            reservationStationMap := [[0, 0], [0, 0], [0, 0], [0, 0]] },
          { (g0.resize 4 2) with
            instructions := [none, some B]
            reservationStationMap := [[0, 0], [0, 0], [0, 0], [0, 0]] },
          { (g0.resize 4 2) with
            instructions := [some C, some B]
            reservationStationMap := [[1, 0], [0, 0], [0, 0], [0, 0]] },
          ?_, ?_, ?_, rfl, ?_, ?_, ?_, ?_, ?_, ?_, rfl⟩
  · simp [DependencyGraphReg.insert, resize, firstIndex, writeSlot, readCell, writeCell]
  · simp [DependencyGraphReg.insert, resize, firstIndex, writeSlot, readCell, writeCell]
  · simp [DependencyGraphReg.insert, resize, firstIndex, writeSlot, readCell, writeCell, hBA]
  · simp [pop, resize, firstIndex, readCell, writeCell]
  · simp [pop, resize, firstIndex, readCell, writeCell]
  · simp [pop, resize, firstIndex, readCell, writeCell]
  · simp [emptyAll, emptyLoop, DependencyGraphReg.empty, resize, firstIndex, readCell]
  · simp [retract, resize, uniqueIndex, writeSlot, hBA]
  · simp [DependencyGraphReg.insert, resize, firstIndex, writeSlot, readCell, writeCell, hCB, hBC]

theorem scenario_four_two_witness :
    (10 : Nat) ≠ 11 ∧ (10 : Nat) ≠ 12 ∧ (11 : Nat) ≠ 12 ∧
    ∃ g1 g2 g3 g4 g5 g6 g7 g8 : DependencyGraphReg,
      (fresh.resize 4 2).insert 1 (some 10) = .ok g1 ∧
      g1.insert 2 (some 10) = .ok g2 ∧
      g2.insert 3 (some 11) = .ok g3 ∧
      g3.instructions = [some 10, some 11] ∧
      g3.pop 1 = .ok (some 10, g4) ∧
      g4.pop 2 = .ok (some 10, g5) ∧
      g5.pop 3 = .ok (some 11, g6) ∧
      g6.emptyAll = .ok true ∧
      g6.retract (some 10) = .ok g7 ∧
      g7.insert 0 (some 12) = .ok g8 ∧
      g8.instructions = [some 12, some 11] :=
  ⟨by decide, by decide, by decide,
    scenario_four_two fresh 10 11 12 (by decide) (by decide) (by decide)⟩

/-- C11, as stated, fails: in the reachable state after
`resize(2, 3); insert(1, W); insert(0, Z); insert(0, X)` the instruction `X` holds
slot 2; after `remove(0, X)` the calls `retract(Z); retract(X); insert(1, X)`, none
of which is `insert(0, X)`, put `X` into the slot that `Z` left with its counter for
register 0 still at 1, and `pop(0)` then returns `X`. -/
theorem removed_instruction_popped_after_retract :
    Reachable 2 3 stateThree ∧ ((0 : RegIndex) : Int) < 2 ∧
    stateThree.instructions[2]? = some (some 12) ∧
    stateThree.remove 0 (some 12) = .ok stateThreeRemoved ∧
    Call.insert 0 (some 12) ∉
      [Call.retract (some 11), Call.retract (some 12), Call.insert 1 (some 12),
        Call.pop 0] ∧
    runCalls stateThreeRemoved
        [Call.retract (some 11), Call.retract (some 12), Call.insert 1 (some 12),
          Call.pop 0] =
      .ok ([(0, some 12)], stateThreeBack) :=
  ⟨reachable_stateThree, by decide, by decide, by decide, by decide, by decide⟩

/-- C11, amended.  In a reachable state, for `reg < P` and an instruction `X` that
holds a slot, `remove(reg, X)` returns normally, and after it no `pop(reg)` returns
`X` until `insert(reg, X)` or `retract(X)` is called: any number of `pop(reg)` calls
in a row return normally and none returns `X`, and no `pop(reg)` returns `X` in any
sequence of calls that contains neither `insert(reg, X)` nor `retract(X)`; and any
sequence of `pop` calls on registers other than `reg` returns the same handles as it
does without the `remove`. -/
theorem removed_instruction_not_popped (P S : Int) (g : DependencyGraphReg)
    (hg : Reachable P S g) (reg : RegIndex) (hreg : (reg : Int) < P) (X s : Nat)
    (hocc : g.instructions[s]? = some (some X)) :
    ∃ g1, g.remove reg (some X) = .ok g1 ∧
      (∀ n : Nat, ∃ popped g2,
        runCalls g1 (List.replicate n (Call.pop reg)) = .ok (popped, g2) ∧
        (reg, some X) ∉ popped) ∧
      (∀ (calls : List Call) (popped : List (RegIndex × DynInstPtr))
        (g2 : DependencyGraphReg),
        (∀ c ∈ calls, c ≠ Call.insert reg (some X) ∧ c ≠ Call.retract (some X)) →
        runCalls g1 calls = .ok (popped, g2) → (reg, some X) ∉ popped) ∧
      (∀ (rs : List RegIndex) (popped : List (RegIndex × DynInstPtr))
        (g2 : DependencyGraphReg),
        (∀ r ∈ rs, r ≠ reg) → runCalls g (rs.map Call.pop) = .ok (popped, g2) →
        ∃ g2', runCalls g1 (rs.map Call.pop) = .ok (popped, g2')) := by
  have hw := hg.wellFormed
  have hs : s < S.toNat := slot_bound hw.slots hocc
  obtain ⟨c, hc⟩ := hw.read hreg hs
  obtain ⟨m, hm⟩ := writeCell_isSome 0 hc
  have hrem : g.remove reg (some X) = .ok { g with reservationStationMap := m } := by
    rw [remove_of_unique hw.slots_eq hocc (fun j hj h => hj (hw.uniq j s X h hocc))]
    simp only [hm]
  have hw1 := hw.of_remove hrem
  have hzero : readCell m reg s = some 0 := by simp [readCell_writeCell hm]
  have hgeneral : ∀ (calls : List Call) (popped : List (RegIndex × DynInstPtr))
      (g2 : DependencyGraphReg),
      (∀ c ∈ calls, c ≠ Call.insert reg (some X) ∧ c ≠ Call.retract (some X)) →
      runCalls { g with reservationStationMap := m } calls = .ok (popped, g2) →
      (reg, some X) ∉ popped :=
    fun calls popped g2 hcalls hrun =>
      runCalls_keeps_removed calls _ g2 popped hw1 hocc hzero hcalls hrun
  refine ⟨_, hrem, ?_, hgeneral, ?_⟩
  · intro n
    obtain ⟨popped, g2, hrun⟩ := runCalls_pops_total hreg n _ hw1
    refine ⟨popped, g2, hrun, hgeneral _ popped g2 ?_ hrun⟩
    intro c hc
    have := List.eq_of_mem_replicate hc
    subst this
    exact ⟨by simp, by simp⟩
  · intro rs popped g2 hrs hrun
    apply runCalls_pops_agree rs g _ g2 popped ?_ hrs hrun
    refine ⟨rfl, rfl, ?_⟩
    intro r j hr
    have hne : ¬ (r = reg ∧ j = s) := fun h => hr h.1
    simp [readCell_writeCell hm, hne]

theorem removed_instruction_not_popped_witness :
    Reachable 4 2 stateA ∧ ((1 : RegIndex) : Int) < 4 ∧
    stateA.instructions[0]? = some (some 10) ∧
    ∃ g1, stateA.remove 1 (some 10) = .ok g1 ∧
      (∀ n : Nat, ∃ popped g2,
        runCalls g1 (List.replicate n (Call.pop 1)) = .ok (popped, g2) ∧
        ((1 : RegIndex), some 10) ∉ popped) ∧
      (∀ (calls : List Call) (popped : List (RegIndex × DynInstPtr))
        (g2 : DependencyGraphReg),
        (∀ c ∈ calls, c ≠ Call.insert 1 (some 10) ∧ c ≠ Call.retract (some 10)) →
        runCalls g1 calls = .ok (popped, g2) → ((1 : RegIndex), some 10) ∉ popped) ∧
      (∀ (rs : List RegIndex) (popped : List (RegIndex × DynInstPtr))
        (g2 : DependencyGraphReg),
        (∀ r ∈ rs, r ≠ 1) → runCalls stateA (rs.map Call.pop) = .ok (popped, g2) →
        ∃ g2', runCalls g1 (rs.map Call.pop) = .ok (popped, g2')) :=
  ⟨reachable_stateA, by decide, by decide,
    removed_instruction_not_popped 4 2 stateA reachable_stateA 1 (by decide) 10 0
      (by decide)⟩

/-- C16, as stated, fails: the state after
`resize(1, 1); insert(0, A); insert(0, A); retract(A)` is reachable, its one slot is
free and has the counter 2; `pop(0)` returns the null handle at once while lowering
the counter to 1, so the caller that drains register 0 stops there, and then
`empty(0)` and `empty()` are false.  Besides, after `resize(1, 2)` every counter is
zero, draining changes nothing, and `empty()` indexes the matrix past its one row. -/
theorem drain_stops_on_stale_counter :
    (Reachable 1 1 stateStaleTwo ∧
      stateStaleTwo.pop 0 = .ok (NULL, stateStale) ∧
      drainRegs 5 stateStaleTwo (List.range (1 : Int).toNat) = some (.ok stateStale) ∧
      stateStale.empty 0 = .ok false ∧ stateStale.emptyAll = .ok false) ∧
    (Reachable 1 2 (fresh.resize 1 2) ∧
      drainRegs 5 (fresh.resize 1 2) (List.range (1 : Int).toNat) =
        some (.ok (fresh.resize 1 2)) ∧
      (fresh.resize 1 2).emptyAll = .outOfBounds) :=
  ⟨⟨reachable_stateStaleTwo, by decide, by decide, by decide, by decide⟩,
    ⟨Reachable.resize fresh, by decide, by decide⟩⟩

/-- C16, amended.  In a reachable state in which no free slot has a nonzero counter,
calling `pop(r)` until it returns the null handle, for each register `r` in
`[0, P)` in turn, comes to an end, and then every counter is zero: `empty(r)` is
true for every `r < P`, and `empty()` returns true when `S ≤ P`. -/
theorem drain_empties (P S : Int) (g : DependencyGraphReg) (hg : Reachable P S g)
    (hclean : NoStale g) :
    ∃ fuel0 g', (∀ fuel, fuel0 ≤ fuel →
        drainRegs fuel g (List.range P.toNat) = some (.ok g')) ∧
      (∀ r j c, g'.counter r j = some c → c = 0) ∧
      (∀ r : RegIndex, (r : Int) < P → g'.empty r = .ok true) ∧
      (S ≤ P → g'.emptyAll = .ok true) := by
  have hregs : ∀ r ∈ List.range P.toNat, ((r : RegIndex) : Int) < P := by
    intro r hr
    exact Int.lt_toNat.mp (List.mem_range.mp hr)
  obtain ⟨fuel0, g', hrun, hw', hzero, _⟩ :=
    drainRegs_drains (List.range P.toNat) g hregs hg.wellFormed hg.nonNeg hclean
  have hall : ∀ r j c, g'.counter r j = some c → c = 0 := by
    intro r j c hc
    have hb := hw'.counter_bounds hc
    exact hzero r (List.mem_range.mpr hb.1) j c hc
  exact ⟨fuel0, g', hrun, hall, (empty_of_all_zero hw' hall).1, (empty_of_all_zero hw' hall).2⟩

theorem drain_empties_witness :
    Reachable 4 2 stateA ∧ NoStale stateA ∧
    ∃ fuel0 g', (∀ fuel, fuel0 ≤ fuel →
        drainRegs fuel stateA (List.range (4 : Int).toNat) = some (.ok g')) ∧
      (∀ r j c, g'.counter r j = some c → c = 0) ∧
      (∀ r : RegIndex, (r : Int) < 4 → g'.empty r = .ok true) ∧
      ((2 : Int) ≤ 4 → g'.emptyAll = .ok true) :=
  have hclean : NoStale stateA := by
    intro r j c hc hne
    obtain ⟨hr, hj⟩ := reachable_stateA.wellFormed.counter_bounds hc
    have hr' : r < 4 := hr
    have hj' : j < 2 := hj
    interval_cases r <;> interval_cases j <;>
      first
      | exact ⟨10, rfl⟩
      | (cases hc; exact absurd rfl hne)
  ⟨reachable_stateA, hclean, drain_empties 4 2 stateA reachable_stateA hclean⟩

/-- C19, as stated, fails: after `resize(1, 1); insert(0, A); retract(A)` the counters
of register 0 add up to 1, while the slot table holds no instruction, so the
instructions held have no outstanding dependency on register 0. -/
theorem rowSum_counts_retracted :
    Ledgered false 1 1 stateStale (ledgerCreated (fun _ _ => 0) 0 10) ∧
    stateStale.instructions = [NULL] ∧
    rowSum stateStale 0 = 1 ∧
    outstanding stateStale (ledgerCreated (fun _ _ => 0) 0 10) 0 = 0 :=
  ⟨Ledgered.retract 10
      (Ledgered.insert 0 10 (Ledgered.resize fresh)
        (show (fresh.resize 1 1).insert 0 (some 10) = .ok stateOne by decide))
      (by intro h; cases h) (by decide),
    rfl, by decide, by decide⟩

/-- C19, amended.  In every state reachable from `resize(P, S)` by `insert`, `pop`,
`remove` and `retract` of instructions, where `retract(X)` is called only when `X`
has no outstanding dependency, and for every register `r < P`: the sum over all
slots of the counter at `(r, slot)` equals the number of outstanding dependencies
on `r` of the instructions held in the slot table.  A dependency of `X` on `r` is
created by each `insert(r, X)`, resolved by each `pop(r)` that returns `X`, and all
of them are cancelled by `remove(r, X)`. -/
theorem rowSum_eq_outstanding (P S : Int) (g : DependencyGraphReg) (L : Ledger)
    (h : Ledgered true P S g L) (r : RegIndex) (hr : (r : Int) < P) :
    rowSum g r = outstanding g L r :=
  rowSum_eq_of_inv h.reachable.wellFormed h.inv hr

theorem rowSum_eq_outstanding_witness :
    Ledgered true 4 2 stateA (ledgerCreated (fun _ _ => 0) 1 10) ∧
    ((1 : RegIndex) : Int) < 4 ∧
    rowSum stateA 1 = outstanding stateA (ledgerCreated (fun _ _ => 0) 1 10) 1 :=
  have hled : Ledgered true 4 2 stateA (ledgerCreated (fun _ _ => 0) 1 10) :=
    Ledgered.insert 1 10 (Ledgered.resize fresh) (by decide)
  ⟨hled, by decide,
    rowSum_eq_outstanding 4 2 stateA (ledgerCreated (fun _ _ => 0) 1 10) hled 1 (by decide)⟩

/-- C21. The state after `resize(4, 2); insert(1, A)` is reachable; `reset()` leaves
it as it is, with `A` in slot 0 and the counter 1 at register 1, slot 0, which is
not the state that `resize(4, 2)` gives. -/
theorem reset_keeps_tracking_state :
    Reachable 4 2 stateA ∧ stateA.reset = stateA ∧
    stateA.reset.instructions = [some 10, NULL] ∧
    stateA.reset.counter 1 0 = some 1 ∧
    stateA.reset ≠ stateA.resize 4 2 :=
  ⟨reachable_stateA, rfl, rfl, by decide, by decide⟩

/-- C23. Stale counters after `retract`: with `P = 2`, `S = 1`, registers 0 and 1 and
two distinct instructions `X`, `Y`, after
`resize(P, S); insert(0, X); retract(X); insert(1, Y)` the call `empty(0)` returns
false and `pop(0)` returns `Y`, although `insert(0, Y)` was never called. -/
theorem stale_counter_after_retract :
    ∃ (P S : Int) (r1 r2 : RegIndex) (X Y : Nat) (g1 g2 g3 g4 : DependencyGraphReg),
      r1 ≠ r2 ∧ X ≠ Y ∧
      (fresh.resize P S).insert r1 (some X) = .ok g1 ∧
      g1.retract (some X) = .ok g2 ∧
      g2.insert r2 (some Y) = .ok g3 ∧
      g3.empty r1 = .ok false ∧
      g3.pop r1 = .ok (some Y, g4) :=
  ⟨2, 1, 0, 1, 10, 11, stateFirst, stateRetracted, stateReused,
    { stateReused with reservationStationMap := [[0], [1]] },
    by decide, by decide, by decide, by decide, by decide, by decide, by decide⟩

/-- C24. In every state reachable from `resize`, no instruction is stored in more
than one slot; so the scan of `remove` and `retract` for an instruction never fails
its assertion `assert(-1 == inst_idx)`: `retract` of an instruction always returns
normally, and `remove` of an instruction on a register below `P` returns normally
or fails only because no slot holds the instruction. -/
theorem slot_table_unique (P S : Int) (g : DependencyGraphReg) (hg : Reachable P S g) :
    (∀ i j X : Nat, g.instructions[i]? = some (some X) →
      g.instructions[j]? = some (some X) → i = j) ∧
    (∀ X : Nat,
      uniqueIndex (fun idx => g.instructions[idx]?) (fun v => decide (v = some X))
        g.numReservationStations.toNat 0 none ≠ .error .assertion) ∧
    (∀ X : Nat, ∃ g', g.retract (some X) = .ok g') ∧
    (∀ (reg : RegIndex) (X : Nat), (reg : Int) < P →
      (∃ g', g.remove reg (some X) = .ok g') ∨
      ((∀ j : Nat, g.instructions[j]? ≠ some (some X)) ∧
        g.remove reg (some X) = .assertFailed g)) := by
  have hw := hg.wellFormed
  refine ⟨hw.uniq, ?_, ?_, ?_⟩
  · intro X h
    rcases scan_instruction hw X with ⟨s, _, hscan⟩ | ⟨_, hscan⟩
    · rw [hscan] at h
      cases h
    · rw [hscan] at h
      cases h
  · intro X
    rcases scan_instruction hw X with ⟨s, hocc, _⟩ | ⟨habs, _⟩
    · exact ⟨_, retract_tracked_spec hw hocc⟩
    · exact ⟨g, retract_of_absent hw.slots_eq habs⟩
  · intro reg X hreg
    rcases scan_instruction hw X with ⟨s, hocc, _⟩ | ⟨habs, _⟩
    · left
      have hs : s < S.toNat := slot_bound hw.slots hocc
      obtain ⟨c, hc⟩ := hw.read hreg hs
      obtain ⟨m, hm⟩ := writeCell_isSome 0 hc
      refine ⟨{ g with reservationStationMap := m }, ?_⟩
      rw [remove_of_unique hw.slots_eq hocc (fun j hj h => hj (hw.uniq j s X h hocc))]
      simp only [hm]
    · right
      exact ⟨habs, remove_of_absent hw.slots_eq habs reg⟩

theorem slot_table_unique_witness :
    Reachable 4 2 stateA ∧
    ((∀ i j X : Nat, stateA.instructions[i]? = some (some X) →
      stateA.instructions[j]? = some (some X) → i = j) ∧
    (∀ X : Nat,
      uniqueIndex (fun idx => stateA.instructions[idx]?) (fun v => decide (v = some X))
        stateA.numReservationStations.toNat 0 none ≠ .error .assertion) ∧
    (∀ X : Nat, ∃ g', stateA.retract (some X) = .ok g') ∧
    (∀ (reg : RegIndex) (X : Nat), (reg : Int) < 4 →
      (∃ g', stateA.remove reg (some X) = .ok g') ∨
      ((∀ j : Nat, stateA.instructions[j]? ≠ some (some X)) ∧
        stateA.remove reg (some X) = .assertFailed stateA))) :=
  ⟨reachable_stateA, slot_table_unique 4 2 stateA reachable_stateA⟩

/-- C25. In every state reachable from `resize`, with counters taken as mathematical
integers, every counter of the matrix is at least zero; in particular the state
after a `pop` has no counter below zero. -/
theorem counters_never_negative (P S : Int) (g : DependencyGraphReg)
    (hg : Reachable P S g) :
    (∀ (r j : Nat) (c : Int), g.counter r j = some c → 0 ≤ c) ∧
    (∀ (reg : RegIndex) (x : DynInstPtr) (g' : DependencyGraphReg),
      g.pop reg = .ok (x, g') → ∀ (r j : Nat) (c : Int), g'.counter r j = some c → 0 ≤ c) :=
  ⟨hg.nonNeg, fun _ _ _ hpop => hg.nonNeg.after_pop hpop⟩

theorem counters_never_negative_witness :
    Reachable 4 2 stateA ∧
    ((∀ (r j : Nat) (c : Int), stateA.counter r j = some c → 0 ≤ c) ∧
    (∀ (reg : RegIndex) (x : DynInstPtr) (g' : DependencyGraphReg),
      stateA.pop reg = .ok (x, g') →
      ∀ (r j : Nat) (c : Int), g'.counter r j = some c → 0 ≤ c)) :=
  ⟨reachable_stateA, counters_never_negative 4 2 stateA reachable_stateA⟩

/-- C27. In a state reachable from `resize(P, S)` with `S ≤ P`, `empty()` makes no
out-of-range access and returns true if and only if `empty(r)` is true for every
register `r` in `[0, S)`; when `S = P`, as after `resize(N, N)`, that is the case if
and only if every counter of the matrix is zero. -/
theorem emptyAll_when_slots_le_regs (P S : Int) (g : DependencyGraphReg)
    (hg : Reachable P S g) (hSP : S ≤ P) :
    ∃ b, g.emptyAll = .ok b ∧
      (b = true ↔ ∀ r : RegIndex, (r : Int) < S → g.empty r = .ok true) ∧
      (S = P → (b = true ↔ ∀ (r j : Nat) (c : Int), g.counter r j = some c → c = 0)) := by
  have hw := hg.wellFormed
  have htotal : ∀ k, 0 ≤ k → k < 0 + g.numReservationStations.toNat →
      ∃ b, g.empty k = .ok b := by
    intro k _ hk
    rw [hw.numRS] at hk
    obtain ⟨b, hb, _⟩ := empty_spec hw (show k < P.toNat by omega)
    exact ⟨b, hb⟩
  obtain ⟨b, hb, hiff⟩ := emptyLoop_spec g g.numReservationStations.toNat 0 htotal
  have hiff' : b = true ↔ ∀ r : RegIndex, (r : Int) < S → g.empty r = .ok true := by
    rw [hiff, hw.numRS]
    constructor
    · intro h r hr
      have hr' : r < S.toNat := Int.lt_toNat.mpr hr
      exact h r (Nat.zero_le _) (by omega)
    · intro h k _ hk
      exact h k (Int.lt_toNat.mp (by omega))
  refine ⟨b, hb, hiff', ?_⟩
  intro hSP'
  rw [hiff']
  constructor
  · intro h r j c hc
    have hbnd := hw.counter_bounds hc
    obtain ⟨b', hb', hz⟩ := empty_spec hw hbnd.1
    have hr : ((r : RegIndex) : Int) < S := by
      rw [hSP']
      exact Int.lt_toNat.mp hbnd.1
    rw [h r hr] at hb'
    cases hb'
    exact hz.mp rfl j c hc
  · intro h r hr
    have hr' : r < P.toNat := Int.lt_toNat.mpr (by omega)
    obtain ⟨b', hb', hz⟩ := empty_spec hw hr'
    have : b' = true := hz.mpr (fun j c hc => h r j c hc)
    rw [hb', this]

theorem emptyAll_when_slots_le_regs_witness :
    Reachable 1 1 stateOne ∧ (1 : Int) ≤ 1 ∧
    ∃ b, stateOne.emptyAll = .ok b ∧
      (b = true ↔ ∀ r : RegIndex, (r : Int) < 1 → stateOne.empty r = .ok true) ∧
      ((1 : Int) = 1 →
        (b = true ↔ ∀ (r j : Nat) (c : Int), stateOne.counter r j = some c → c = 0)) :=
  ⟨reachable_stateOne, by decide,
    emptyAll_when_slots_le_regs 1 1 stateOne reachable_stateOne (by decide)⟩

/-- C28. In every state reachable from `resize(P, S)` the slot table has `S` entries
(none when `S` is negative), so at most `S` instructions are held at once, and the
matrix has `P` rows of `S` counters each; hence for every register `reg < P` the
calls `insert(reg, ·)`, `remove(reg, ·)`, `pop(reg)` and `empty(reg)` never index
outside the slot table or the matrix. -/
theorem shape_and_index_safety (P S : Int) (g : DependencyGraphReg)
    (hg : Reachable P S g) :
    g.instructions.length = S.toNat ∧
    (0 ≤ S → (g.instructions.length : Int) = S) ∧
    (g.instructions.filter Option.isSome).length ≤ S.toNat ∧
    g.reservationStationMap.length = P.toNat ∧
    (0 ≤ P → (g.reservationStationMap.length : Int) = P) ∧
    (∀ (r : Nat) (row : List Int), g.reservationStationMap[r]? = some row →
      row.length = S.toNat) ∧
    (∀ reg : RegIndex, (reg : Int) < P →
      (∀ x : DynInstPtr, g.insert reg x ≠ .outOfBounds) ∧
      (∀ x : DynInstPtr, g.remove reg x ≠ .outOfBounds) ∧
      g.pop reg ≠ .outOfBounds ∧ g.empty reg ≠ .outOfBounds) := by
  have hw := hg.wellFormed
  refine ⟨hw.slots, ?_, ?_, hw.rows, ?_, hw.cols, ?_⟩
  · intro hS
    rw [hw.slots]
    exact Int.toNat_of_nonneg hS
  · rw [← hw.slots]
    exact List.length_filter_le _ _
  · intro hP
    rw [hw.rows]
    exact Int.toNat_of_nonneg hP
  · intro reg hreg
    refine ⟨?_, fun x => remove_no_oob hw hreg x, ?_, ?_⟩
    · intro x h
      rcases insert_total hw hreg x with ⟨_, _, _, _, _, _, _, hins⟩ | ⟨_, _, hins⟩
      · rw [hins] at h
        cases h
      · rw [hins] at h
        cases h
    · intro h
      obtain ⟨x, g', hpop⟩ := pop_total hw hreg
      rw [hpop] at h
      cases h
    · intro h
      obtain ⟨b, hb, _⟩ := empty_spec hw (Int.lt_toNat.mpr hreg)
      rw [hb] at h
      cases h

theorem shape_and_index_safety_witness :
    Reachable 4 2 stateA ∧
    (stateA.instructions.length = (2 : Int).toNat ∧
    ((0 : Int) ≤ 2 → (stateA.instructions.length : Int) = 2) ∧
    (stateA.instructions.filter Option.isSome).length ≤ (2 : Int).toNat ∧
    stateA.reservationStationMap.length = (4 : Int).toNat ∧
    ((0 : Int) ≤ 4 → (stateA.reservationStationMap.length : Int) = 4) ∧
    (∀ (r : Nat) (row : List Int), stateA.reservationStationMap[r]? = some row →
      row.length = (2 : Int).toNat) ∧
    (∀ reg : RegIndex, (reg : Int) < 4 →
      (∀ x : DynInstPtr, stateA.insert reg x ≠ .outOfBounds) ∧
      (∀ x : DynInstPtr, stateA.remove reg x ≠ .outOfBounds) ∧
      stateA.pop reg ≠ .outOfBounds ∧ stateA.empty reg ≠ .outOfBounds)) :=
  ⟨reachable_stateA, shape_and_index_safety 4 2 stateA reachable_stateA⟩

/-- C29. In a reachable state with a free slot, for `reg < P`, `insert(reg, NULL)`
matches the lowest-index free slot `s` in its first scan, returns normally, leaves
the slot table as it was, so slot `s` stays free, and raises the counter at
`(reg, s)` by one, leaving every other counter as it was; afterwards `empty(reg)` is
false, and `pop(reg)` returns normally, with the null handle when no slot before
`s` had a nonzero counter for `reg`. -/
theorem insert_null_handle (P S : Int) (g : DependencyGraphReg) (hg : Reachable P S g)
    (reg : RegIndex) (hreg : (reg : Int) < P)
    (hfree : ∃ j : Nat, g.instructions[j]? = some NULL) :
    ∃ (s : Nat) (c : Int) (g1 : DependencyGraphReg),
      g.instructions[s]? = some NULL ∧
      (∀ j : Nat, j < s → g.instructions[j]? ≠ some NULL) ∧
      firstIndex (fun idx => g.instructions[idx]?) (fun v => decide (NULL = v))
        g.numReservationStations.toNat 0 = .ok (some s) ∧
      g.insert reg NULL = .ok g1 ∧
      g1.instructions = g.instructions ∧
      g.counter reg s = some c ∧ g1.counter reg s = some (c + 1) ∧
      (∀ r j, ¬ (r = reg ∧ j = s) → g1.counter r j = g.counter r j) ∧
      g1.empty reg = .ok false ∧
      ∃ (x : DynInstPtr) (g2 : DependencyGraphReg), g1.pop reg = .ok (x, g2) ∧
        ((∀ j : Nat, j < s → g.counter reg j = some 0) → x = NULL) := by
  have hw := hg.wellFormed
  have hn := hw.slots_eq
  rcases slot_first_or_absent g.instructions NULL with ⟨s, hnull, hfirst⟩ | hfull
  · have hs : s < S.toNat := slot_bound hw.slots hnull
    obtain ⟨c, hc⟩ := hw.read hreg hs
    obtain ⟨m, hm⟩ := writeCell_isSome (c + 1) hc
    have hins : g.insert reg NULL = .ok { g with reservationStationMap := m } := by
      rw [insert_of_tracked hn hnull hfirst]
      simp only [hc, hm]
    have hw1 := hw.of_insert hins
    have hscan : firstIndex (fun idx => g.instructions[idx]?) (fun v => decide (NULL = v))
        g.numReservationStations.toNat 0 = .ok (some s) := by
      apply firstIndex_hit _ _ _ 0 s NULL (Nat.zero_le _) (by rw [hw.numRS]; omega) hnull
        (by simp)
      intro j _ hj
      obtain ⟨w, hwj⟩ := slot_read hn j (by rw [hw.numRS]; omega)
      refine ⟨w, hwj, ?_⟩
      have hne : NULL ≠ w := by
        intro e
        rw [← e] at hwj
        exact hfirst j hj hwj
      simpa using hne
    have hc0 : 0 ≤ c := hg.nonNeg reg s c hc
    have hc1 : readCell m reg s = some (c + 1) := by simp [readCell_writeCell hm]
    have hempty : DependencyGraphReg.empty { g with reservationStationMap := m } reg =
        .ok false := by
      obtain ⟨b, hb, hz⟩ := empty_spec hw1 (Int.lt_toNat.mpr hreg)
      cases b with
      | false => exact hb
      | true =>
        have := hz.mp rfl s (c + 1) hc1
        omega
    obtain ⟨x, g2, hpop⟩ := pop_total hw1 hreg
    refine ⟨s, c, _, hnull, hfirst, hscan, hins, rfl, hc, hc1, ?_, hempty, x, g2, hpop, ?_⟩
    · intro r j hrj
      simp [counter, readCell_writeCell hm, hrj]
    · intro hbefore
      have hbefore1 : ∀ j, j < s → readCell m reg j = some 0 := by
        intro j hj
        have hne : ¬ j = s := by omega
        simp only [readCell_writeCell hm, hne, and_false, if_false]
        exact hbefore j hj
      obtain ⟨m2, _, hpop2⟩ := pop_of_first
        (g := { g with reservationStationMap := m })
        (by rw [hw.numRS]; exact hs) hc1 (by omega) hbefore1 hnull
      rw [hpop2] at hpop
      cases hpop
      rfl
  · obtain ⟨j, hj⟩ := hfree
    exact absurd hj (hfull j)

theorem insert_null_handle_witness :
    Reachable 4 2 (fresh.resize 4 2) ∧ ((1 : RegIndex) : Int) < 4 ∧
    (∃ j : Nat, (fresh.resize 4 2).instructions[j]? = some NULL) ∧
    ∃ (s : Nat) (c : Int) (g1 : DependencyGraphReg),
      (fresh.resize 4 2).instructions[s]? = some NULL ∧
      (∀ j : Nat, j < s → (fresh.resize 4 2).instructions[j]? ≠ some NULL) ∧
      firstIndex (fun idx => (fresh.resize 4 2).instructions[idx]?)
        (fun v => decide (NULL = v))
        (fresh.resize 4 2).numReservationStations.toNat 0 = .ok (some s) ∧
      (fresh.resize 4 2).insert 1 NULL = .ok g1 ∧
      g1.instructions = (fresh.resize 4 2).instructions ∧
      (fresh.resize 4 2).counter 1 s = some c ∧ g1.counter 1 s = some (c + 1) ∧
      (∀ r j, ¬ (r = 1 ∧ j = s) → g1.counter r j = (fresh.resize 4 2).counter r j) ∧
      g1.empty 1 = .ok false ∧
      ∃ (x : DynInstPtr) (g2 : DependencyGraphReg), g1.pop 1 = .ok (x, g2) ∧
        ((∀ j : Nat, j < s → (fresh.resize 4 2).counter 1 j = some 0) → x = NULL) :=
  ⟨Reachable.resize fresh, by decide, ⟨0, by decide⟩,
    insert_null_handle 4 2 (fresh.resize 4 2) (Reachable.resize fresh) 1 (by decide)
      ⟨0, by decide⟩⟩

/-- C26. Drain bound: in a state reachable from `resize(P, S)` using only `insert` of
instructions, `pop` and `remove`, for `reg < P` whose counters add up to `k`: the
next `k` calls of `pop(reg)` each return an instruction held in the slot table, the
call after them returns the null handle, and `empty(reg)` is then true; and in such
a state `pop(reg)` returns the null handle if and only if `empty(reg)` is true. -/
theorem drain_bound (P S : Int) (g : DependencyGraphReg) (hg : ReachableNoRetract P S g)
    (reg : RegIndex) (hreg : (reg : Int) < P) (k : Nat) (hk : rowSum g reg = (k : Int)) :
    (∃ (Xs : List Nat) (g' : DependencyGraphReg), Xs.length = k ∧
      runCalls g (List.replicate (k + 1) (Call.pop reg)) =
        .ok (Xs.map (fun X => (reg, some X)) ++ [(reg, NULL)], g') ∧
      (∀ X ∈ Xs, ∃ j : Nat, g.instructions[j]? = some (some X)) ∧
      g'.empty reg = .ok true) ∧
    (∀ (x : DynInstPtr) (g1 : DependencyGraphReg), g.pop reg = .ok (x, g1) →
      (x = NULL ↔ g.empty reg = .ok true)) := by
  have hr := hg.toReachable
  obtain ⟨Xs, g', hlen, hrun, hheld, _, hempty⟩ :=
    pops_drain hreg k g hr.wellFormed hr.nonNeg hg.noStale hk
  exact ⟨⟨Xs, g', hlen, hrun, hheld, hempty⟩,
    fun x g1 hpop => pop_null_iff_empty hg.noStale hpop⟩

theorem drain_bound_witness :
    ReachableNoRetract 4 2 stateA ∧ ((1 : RegIndex) : Int) < 4 ∧
    rowSum stateA 1 = ((1 : Nat) : Int) ∧
    ((∃ (Xs : List Nat) (g' : DependencyGraphReg), Xs.length = 1 ∧
      runCalls stateA (List.replicate (1 + 1) (Call.pop 1)) =
        .ok (Xs.map (fun X => ((1 : RegIndex), some X)) ++ [(1, NULL)], g') ∧
      (∀ X ∈ Xs, ∃ j : Nat, stateA.instructions[j]? = some (some X)) ∧
      g'.empty 1 = .ok true) ∧
    (∀ (x : DynInstPtr) (g1 : DependencyGraphReg), stateA.pop 1 = .ok (x, g1) →
      (x = NULL ↔ stateA.empty 1 = .ok true))) :=
  have hreach : ReachableNoRetract 4 2 stateA :=
    ReachableNoRetract.insert 1 10 (ReachableNoRetract.resize fresh) (by decide)
  ⟨hreach, by decide, by decide, drain_bound 4 2 stateA hreach 1 (by decide) 1 (by decide)⟩

end gem5.o3
